import Mathlib

/-!
# Golomb-Rice codec of `private_set_intersection/cpp/golomb.cpp`

A shallow embedding of `golomb_compress` and `golomb_decompress` and the
properties of the pair.

Modelling conventions.

* A `std::string` is a `List Nat` of byte patterns (each `< 256`); an iterator
  is the index `it - begin`.
* `char` is the signed 8-bit type (as on x86): `schar b` is the value of the
  `char` whose byte pattern is `b`; integer promotion, `>>` on a negative
  `int` (arithmetic), `static_cast<unsigned int>` and the narrowing back to
  `char` are spelled out (`schar`, `toUInt`, `toByte`, `clearLowest`).
* `size_t` values that index a string held in memory (`curr_idx`, `res_idx`,
  `quotient` of the decoder's scan, ...) are `Nat`; values the decoder computes
  from payload data (`delta`, `prefix_sum`, `remainder`) wrap modulo `2 ^ 64`.
* Undefined behaviour of the C++ (a shift by at least the width of the type,
  signed overflow, an access outside a string) is the result
  `Except.error Fault.undefinedBehaviour`.
* Loops are recursions on a fuel argument; running out of fuel is the distinct
  result `Except.error Fault.outOfFuel`.
* The `double` accumulator `avg` is modelled by the sequence of values added to
  it, and the floating-point estimate of `div` by a parameter `estimate`.
* The header `golomb.h` is not among the sources: `CHAR_SIZE`, `DIV_CEIL` and
  `CTZ` are modelled from their use and from the specification.
-/

namespace private_set_intersection

/-- Ways in which a run of the model does not produce a value. -/
inductive Fault where
  | undefinedBehaviour
  | outOfFuel
  deriving DecidableEq, Repr

deriving instance DecidableEq for Except

/-- Modelled from the spec: the macro `CHAR_SIZE` of `golomb.h` (not under
`src/`), the number of bits of a byte. -/
def CHAR_SIZE : Nat := 8

/-- Modelled from the spec: the macro `DIV_CEIL` of `golomb.h` (not under
`src/`), the quotient rounded up (`ceil(totalBits / 8)`). -/
def DIV_CEIL (a b : Nat) : Nat := (a + b - 1) / b

/-- Loop of `CTZ`: zero bits below the lowest set bit, at most `fuel` of them. -/
def ctzAux : Nat → Nat → Nat
  | 0, _ => 0
  | fuel + 1, n => if n % 2 = 1 then 0 else ctzAux fuel (n / 2) + 1

/-- Modelled from the spec: the count-trailing-zeros primitive `CTZ` of
`golomb.h` (not under `src/`), on a non-zero `unsigned int`. -/
def CTZ (n : Nat) : Nat := ctzAux 32 n

/-- Value of the (signed) `char` with byte pattern `b`. -/
def schar (b : Nat) : Int := if b < 128 then (b : Int) else (b : Int) - 256

/-- Conversion `static_cast<unsigned int>` of an `int`. -/
def toUInt (x : Int) : Nat := (x % 2 ^ 32).toNat

/-- Byte pattern of an `int` narrowed to `char` or `unsigned char`. -/
def toByte (x : Int) : Nat := (x % 256).toNat

/-- Byte pattern of a `size_t` or non-negative `int` narrowed to `char`. -/
def toChar (n : Nat) : Nat := n % 256

/-- Statement `curr &= curr - 1` on a `char`: promoted to `int`, narrowed back. -/
def clearLowest (curr : Nat) : Nat := toByte (Int.land (schar curr) (schar curr - 1))

/-- Read `*it`. -/
def deref (s : List Nat) (it : Nat) : Except Fault Nat :=
  if h : it < s.length then .ok (s.get ⟨it, h⟩) else .error .undefinedBehaviour

/-- Statement `s[i] |= v` for a `char` value with byte pattern `v`. -/
def orAt (s : List Nat) (i v : Nat) : Except Fault (List Nat) :=
  if h : i < s.length then .ok (s.set i (s.get ⟨i, h⟩ ||| v)) else .error .undefinedBehaviour

/-- Call `s.resize(n, 0)`. -/
def resize (s : List Nat) (n : Nat) : List Nat := s.take n ++ List.replicate (n - s.length) 0

/-- Result record `GolombCompressed` of `golomb.h`. -/
structure GolombCompressed where
  div : Nat
  compressed : List Nat
  deriving DecidableEq, Repr

/-! ## `golomb_compress`: the averaging pass (lines 28-47) -/

/-- Variables of the averaging pass; `avg` lists the values added to the
`double` accumulator, in order. -/
structure AvgState where
  prev_idx : Nat
  avg : List Nat
  count : Nat
  deriving DecidableEq, Repr

/-- Inner loop `while (curr != 0)` of the averaging pass (lines 36-44). -/
def avgInner : Nat → Nat → Nat → AvgState → Except Fault AvgState
  | 0, _, curr, st => if curr ≠ 0 then .error .outOfFuel else .ok st
  | fuel + 1, it, curr, st =>
    if curr ≠ 0 then
      let curr_idx := CTZ (toUInt (schar curr)) + it * CHAR_SIZE
      avgInner fuel it (clearLowest curr)
        { prev_idx := curr_idx, avg := st.avg ++ [curr_idx - st.prev_idx], count := st.count + 1 }
    else .ok st

/-- Outer loop `while (it != bloom_filter.end())` of the averaging pass; the
first argument is the part of the string from `it` on. -/
def avgOuter : List Nat → Nat → AvgState → Except Fault AvgState
  | [], _, st => .ok st
  | curr :: rest, it, st => do
    let st1 ← avgInner 8 it curr st
    avgOuter rest (it + 1) st1

/-! ## `golomb_compress`: the encoding pass (lines 62-99) -/

/-- Variables of the encoding pass. -/
structure EncState where
  compressed : List Nat
  res_idx : Nat
  prev_idx : Nat
  deriving DecidableEq, Repr

/-- Remainder loop `while (binary_idx < div)` of the encoder (lines 86-91). -/
def writeRemainder : Nat → Nat → Nat → List Nat → Nat → Nat → Nat → Except Fault (List Nat)
  | 0, div, _, compressed, binary_idx, _, _ =>
    if binary_idx < div then .error .outOfFuel else .ok compressed
  | fuel + 1, div, remainder, compressed, binary_idx, binary_start, i =>
    if binary_idx < div then do
      let c ← orAt compressed i (toChar ((remainder >>> binary_idx) <<< binary_start))
      writeRemainder fuel div remainder c (binary_idx + (CHAR_SIZE - binary_start)) 0 (i + 1)
    else .ok compressed

/-- Body of the inner loop of the encoding pass for the set bit `curr_idx`
(lines 72-93 and 95). The mask `(1 << div) - 1` is computed in `int`: for
`div >= 31` it is a shift by at least the width of `int` or a signed overflow
(and from `div = 64` on `delta >> div` shifts a `size_t` by at least its
width), undefined behaviour. -/
def encodeBit (div : Nat) (st : EncState) (curr_idx : Nat) : Except Fault EncState := do
  let delta := curr_idx - st.prev_idx
  if 31 ≤ div then throw Fault.undefinedBehaviour
  let quotient := delta >>> div
  let remainder := delta &&& ((1 <<< div) - 1)
  let len := quotient + 1 + div
  let compressed := resize st.compressed (DIV_CEIL (st.res_idx + len) CHAR_SIZE)
  let unary_end := st.res_idx + quotient
  let compressed ← orAt compressed (unary_end / CHAR_SIZE) (toChar (1 <<< (unary_end % CHAR_SIZE)))
  let binary_start := (unary_end + 1) % CHAR_SIZE
  let compressed ← writeRemainder div div remainder compressed 0 binary_start
    ((unary_end + 1) / CHAR_SIZE)
  return { compressed := compressed, res_idx := st.res_idx + len, prev_idx := curr_idx }

/-- Inner loop `while (curr != 0)` of the encoding pass (lines 69-96). -/
def encInner : Nat → Nat → Nat → Nat → EncState → Except Fault EncState
  | 0, _, _, curr, st => if curr ≠ 0 then .error .outOfFuel else .ok st
  | fuel + 1, div, it, curr, st =>
    if curr ≠ 0 then do
      let curr_idx := CTZ (toUInt (schar curr)) + it * CHAR_SIZE
      let st1 ← encodeBit div st curr_idx
      encInner fuel div it (clearLowest curr) st1
    else .ok st

/-- Outer loop `while (it != bloom_filter.end())` of the encoding pass. -/
def encOuter (div : Nat) : List Nat → Nat → EncState → Except Fault EncState
  | [], _, st => .ok st
  | curr :: rest, it, st => do
    let st1 ← encInner 8 div it curr st
    encOuter div rest (it + 1) st1

/-- Function `golomb_compress`. The argument `estimate` stands for
`static_cast<size_t>(std::max(0.0, std::round(-std::log2(-std::log2(1.0 - prob)))))`
as a function of the values summed into `avg`; `div_param` is an `int`. -/
def golomb_compress (estimate : List Nat → Nat) (bloom_filter : List Nat) (div_param : Int) :
    Except Fault GolombCompressed := do
  let a ← avgOuter bloom_filter 0 { prev_idx := 0, avg := [], count := 0 }
  if a.count = 0 then
    return { div := 0, compressed := [] }
  let div := if div_param ≥ 0 then div_param.toNat else estimate a.avg
  let e ← encOuter div bloom_filter 0 { compressed := [], res_idx := 0, prev_idx := 0 }
  return { div := div, compressed := e.compressed }

/-! ## `golomb_decompress` (lines 107-160) -/

/-- Variables of the decoder that live across iterations of `while (true)`.
The field `trace` is a ghost variable: for each bit written, the position
`prefix_sum` and the bit index `8 * it + offset` of the cursor afterwards. -/
structure DecState where
  it : Nat
  offset : Nat
  prefix_sum : Nat
  res : List Nat
  trace : List (Nat × Nat)
  deriving DecidableEq, Repr

/-- Scan loop of the decoder (lines 125-129); returns `(it, offset, quotient)`. -/
def skipZeros : Nat → List Nat → Nat → Nat → Nat → Except Fault (Nat × Nat × Nat)
  | 0, _, _, _, _ => .error .outOfFuel
  | fuel + 1, s, it, offset, quotient =>
    if it ≠ s.length then do
      let c ← deref s it
      if c >>> offset = 0 then
        skipZeros fuel s (it + 1) 0 (quotient + (CHAR_SIZE - offset))
      else return (it, offset, quotient)
    else return (it, offset, quotient)

/-- Remainder loop `while (binary_idx < div)` of the decoder (lines 143-149);
returns `(it, remainder)`. -/
def readRemainder : Nat → List Nat → Nat → Nat → Nat → Nat → Nat → Except Fault (Nat × Nat)
  | 0, _, div, it, _, binary_idx, remainder =>
    if binary_idx < div then .error .outOfFuel else .ok (it, remainder)
  | fuel + 1, s, div, it, binary_start, binary_idx, remainder =>
    if binary_idx < div then do
      let num_bits := min (CHAR_SIZE - binary_start) (div - binary_idx)
      let c ← deref s it
      if 64 ≤ binary_idx then throw Fault.undefinedBehaviour
      let r := remainder |||
        ((((c >>> binary_start) &&& ((1 <<< num_bits) - 1)) <<< binary_idx) % 2 ^ 64)
      readRemainder fuel s div (it + 1) 0 (binary_idx + num_bits) r
    else .ok (it, remainder)

/-- One iteration of `while (true)` (lines 123-156); `none` is the `break`. -/
def decodeStep (golomb_compressed : List Nat) (div : Nat) (st : DecState) :
    Except Fault (Option DecState) := do
  let (it, offset, quotient) ←
    skipZeros (golomb_compressed.length + 1) golomb_compressed st.it st.offset 0
  if it = golomb_compressed.length then
    return none
  let c ← deref golomb_compressed it
  let ctz := CTZ (toByte (schar c >>> offset))
  let quotient := quotient + ctz
  let one_idx := ctz + offset
  let binary_start := (one_idx + 1) % CHAR_SIZE
  let it := it + (if binary_start = 0 then 1 else 0)
  let (it, remainder) ← readRemainder div golomb_compressed div it binary_start 0 0
  let offset := (one_idx + 1 + div) % CHAR_SIZE
  let it := it - (if div > 0 ∧ offset ≠ 0 then 1 else 0)
  if 64 ≤ div then throw Fault.undefinedBehaviour
  let delta := ((quotient <<< div) % 2 ^ 64) ||| remainder
  let prefix_sum := (st.prefix_sum + delta) % 2 ^ 64
  let res ← orAt st.res (prefix_sum / CHAR_SIZE) (toChar (1 <<< (prefix_sum % CHAR_SIZE)))
  return some { it := it, offset := offset, prefix_sum := prefix_sum, res := res,
                trace := st.trace ++ [(prefix_sum, CHAR_SIZE * it + offset)] }

/-- Loop `while (true)` of the decoder. -/
def decodeLoop : Nat → List Nat → Nat → DecState → Except Fault DecState
  | 0, _, _, _ => .error .outOfFuel
  | fuel + 1, s, div, st => do
    match ← decodeStep s div st with
    | none => return st
    | some st1 => decodeLoop fuel s div st1

/-- Run of `golomb_decompress` with its final variables; an empty payload
returns at line 112 before any variable exists. -/
def golomb_decompress_run (golomb_compressed : List Nat) (div filter_length : Nat) :
    Except Fault (Option DecState) :=
  if golomb_compressed = [] then .ok none
  else do
    let st ← decodeLoop (CHAR_SIZE * golomb_compressed.length + 1) golomb_compressed div
      { it := 0, offset := 0, prefix_sum := 0, res := List.replicate filter_length 0, trace := [] }
    return some st

/-- Function `golomb_decompress`. -/
def golomb_decompress (golomb_compressed : List Nat) (div filter_length : Nat) :
    Except Fault (List Nat) := do
  match ← golomb_decompress_run golomb_compressed div filter_length with
  | none => return []
  | some st => return st.res


/-! ## Specification vocabulary -/

/-- Well-formed byte string: every element is a byte pattern. -/
def wfBytes (s : List Nat) : Prop := ∀ b ∈ s, b < 256

instance (s : List Nat) : Decidable (wfBytes s) :=
  inferInstanceAs (Decidable (∀ b ∈ s, b < 256))

/-- Bit `k` of the byte string `s` read as a bit stream: bit `k % 8` (least
significant = 0) of byte `k / 8`; bits beyond the string are `false`. -/
def bitAt (s : List Nat) (k : Nat) : Bool := (s.getD (k / 8) 0).testBit (k % 8)

/-- Element `k` of a list of bits, `false` beyond its end. -/
def nthBit : List Bool → Nat → Bool
  | [], _ => false
  | b :: _, 0 => b
  | _ :: bs, k + 1 => nthBit bs k

/-- The eight bits of a byte, least significant first. -/
def byteToBits (b : Nat) : List Bool := (List.range 8).map (fun k => b.testBit k)

/-- A byte string as a bit stream, least significant bit first within each byte. -/
def streamBits : List Nat → List Bool
  | [] => []
  | b :: bs => byteToBits b ++ streamBits bs

/-- Indices of the set bits of a byte, ascending. -/
def byteBits (b : Nat) : List Nat := (List.range 8).filter (fun k => b.testBit k)

/-- Set-bit positions `8 * byteIndex + bitIndex` of the bytes `s`, the first of
which has index `i`, in ascending order. -/
def setBitsFrom : Nat → List Nat → List Nat
  | _, [] => []
  | i, b :: bs => (byteBits b).map (fun k => 8 * i + k) ++ setBitsFrom (i + 1) bs

/-- Ascending list of the set-bit positions of a bitmap. -/
def setBits (s : List Nat) : List Nat := setBitsFrom 0 s

/-- Gaps of a list of positions: each position minus the previous one, the
first minus `prev`. -/
def gapsFrom : Nat → List Nat → List Nat
  | _, [] => []
  | prev, x :: xs => (x - prev) :: gapsFrom x xs

/-- Gap sequence of a bitmap: first set-bit position, then the differences. -/
def gaps (s : List Nat) : List Nat := gapsFrom 0 (setBits s)

/-- Golomb-Rice codeword of the gap `d` with parameter `p`: `d >> p` zero bits,
a one bit, then the `p` low bits of `d`, least significant first. -/
def codeword (p d : Nat) : List Bool :=
  List.replicate (d >>> p) false ++ [true] ++ (List.range p).map (fun j => d.testBit j)

/-- Concatenation of the codewords of a gap sequence. -/
def codewords (p : Nat) : List Nat → List Bool
  | [] => []
  | d :: ds => codeword p d ++ codewords p ds

/-- Sum over the gaps of the codeword length `(d >> p) + 1 + p`. -/
def totalBits (p : Nat) : List Nat → Nat
  | [] => 0
  | d :: ds => ((d >>> p) + 1 + p) + totalBits p ds

/-- Last element of a list of positions, `prev` when there is none. -/
def lastPos : Nat → List Nat → Nat
  | prev, [] => prev
  | _, x :: xs => lastPos x xs

/-- Invariant of the encoding pass: the buffer holds exactly the bits `bits`
written so far, padded with zero bits to a whole number of bytes. -/
def EncInv (bits : List Bool) (st : EncState) : Prop :=
  st.compressed.length = DIV_CEIL bits.length 8 ∧ st.res_idx = bits.length ∧
    wfBytes st.compressed ∧ ∀ k, bitAt st.compressed k = nthBit bits k

/-- Running sums of a gap sequence, starting after `ps`. -/
def sumsFrom : Nat → List Nat → List Nat
  | _, [] => []
  | ps, d :: ds => (ps + d) :: sumsFrom (ps + d) ds

/-- Expected decoder trace for the gaps `ds` read from bit index `c` with the
running sum `ps`: each position written and the bit index just after its
codeword. -/
def traceFrom (p : Nat) : Nat → Nat → List Nat → List (Nat × Nat)
  | _, _, [] => []
  | ps, c, d :: ds =>
    (ps + d, c + ((d >>> p) + 1 + p)) :: traceFrom p (ps + d) (c + ((d >>> p) + 1 + p)) ds

/-- Positions at which a run of `golomb_decompress` set a bit, in the order
written; a run on the empty payload writes nothing. -/
def writtenPositions : Option DecState → List Nat
  | none => []
  | some st => st.trace.map Prod.fst

/-- Bit indices of the decoder's cursor after each codeword of a run. -/
def cursorsAfter : Option DecState → List Nat
  | none => []
  | some st => st.trace.map Prod.snd

/-- The division parameter `golomb_compress` uses on a bitmap with a set bit
(line 60): the override when `div_param >= 0`, the estimate otherwise. -/
def chosenDiv (estimate : List Nat → Nat) (s : List Nat) (div_param : Int) : Nat :=
  if div_param ≥ 0 then div_param.toNat else estimate (gaps s)

/-! ## Further vocabulary: the scan, the gap split, folds -/

/-- Inner loop `while (curr != 0)` shared by both passes (lines 36-44 and
69-96), reduced to the positions `curr_idx` it visits, in order. -/
def scanInner : Nat → Nat → Nat → Except Fault (List Nat)
  | 0, _, curr => if curr ≠ 0 then .error .outOfFuel else .ok []
  | fuel + 1, it, curr =>
    if curr ≠ 0 then do
      let curr_idx := CTZ (toUInt (schar curr)) + it * CHAR_SIZE
      let rest ← scanInner fuel it (clearLowest curr)
      return curr_idx :: rest
    else .ok []

/-- Outer loop `while (it != bloom_filter.end())` shared by both passes,
reduced to the positions it visits. -/
def scanOuter : List Nat → Nat → Except Fault (List Nat)
  | [], _ => .ok []
  | curr :: rest, it => do
    let here ← scanInner 8 it curr
    let later ← scanOuter rest (it + 1)
    return here ++ later

/-- Lines 73-74: `quotient = delta >> div` and
`remainder = delta & ((1 << div) - 1)`, the mask being an `int`. -/
def splitGap (div delta : Nat) : Except Fault (Nat × Nat) :=
  if 31 ≤ div then .error .undefinedBehaviour
  else .ok (delta >>> div, delta &&& ((1 <<< div) - 1))

/-- Lines 75-93 and 95: the writes of the loop body once quotient and remainder
are known. -/
def writeGap (div : Nat) (st : EncState) (curr_idx quotient remainder : Nat) :
    Except Fault EncState := do
  let len := quotient + 1 + div
  let compressed := resize st.compressed (DIV_CEIL (st.res_idx + len) CHAR_SIZE)
  let unary_end := st.res_idx + quotient
  let compressed ← orAt compressed (unary_end / CHAR_SIZE) (toChar (1 <<< (unary_end % CHAR_SIZE)))
  let binary_start := (unary_end + 1) % CHAR_SIZE
  let compressed ← writeRemainder div div remainder compressed 0 binary_start
    ((unary_end + 1) / CHAR_SIZE)
  return { compressed := compressed, res_idx := st.res_idx + len, prev_idx := curr_idx }

/-- The body `encodeBit` applied to a list of positions in turn. -/
def encFold (div : Nat) : EncState → List Nat → Except Fault EncState
  | st, [] => .ok st
  | st, x :: xs => do
    let st1 ← encodeBit div st x
    encFold div st1 xs

/-- The encoding pass as a fold over the visited positions paired with the
gaps handed to `splitGap`. -/
def encGapFold (div : Nat) : EncState → List Nat → List Nat → Except Fault EncState
  | st, x :: xs, d :: ds => do
    let (quotient, remainder) ← splitGap div d
    let st1 ← writeGap div st x quotient remainder
    encGapFold div st1 xs ds
  | st, _, _ => .ok st

/-! ## The encoding pass with the value of the mask given

For `div >= 31` the C++ leaves the `int` expression `(1 << div) - 1` of line 74
undefined, and `encodeBit` stops there. A build nevertheless computes some
value for it; the definitions below are the same loops with that value (after
its conversion to `size_t` for the `&`) given as `mask`. -/

/-- Body of the inner loop of the encoding pass (lines 72-93 and 95) on a build
where the mask `(1 << div) - 1` of line 74 has the value `mask`. The shift
`delta >> div` of line 73 is undefined from `div = 64` on. -/
def encodeBitMask (mask div : Nat) (st : EncState) (curr_idx : Nat) : Except Fault EncState := do
  let delta := curr_idx - st.prev_idx
  if 64 ≤ div then throw Fault.undefinedBehaviour
  let quotient := delta >>> div
  let remainder := delta &&& mask
  let len := quotient + 1 + div
  let compressed := resize st.compressed (DIV_CEIL (st.res_idx + len) CHAR_SIZE)
  let unary_end := st.res_idx + quotient
  let compressed ← orAt compressed (unary_end / CHAR_SIZE) (toChar (1 <<< (unary_end % CHAR_SIZE)))
  let binary_start := (unary_end + 1) % CHAR_SIZE
  let compressed ← writeRemainder div div remainder compressed 0 binary_start
    ((unary_end + 1) / CHAR_SIZE)
  return { compressed := compressed, res_idx := st.res_idx + len, prev_idx := curr_idx }

/-- Inner loop `while (curr != 0)` of the encoding pass (lines 69-96), the mask
having the value `mask`. -/
def encInnerMask (mask : Nat) : Nat → Nat → Nat → Nat → EncState → Except Fault EncState
  | 0, _, _, curr, st => if curr ≠ 0 then .error .outOfFuel else .ok st
  | fuel + 1, div, it, curr, st =>
    if curr ≠ 0 then do
      let curr_idx := CTZ (toUInt (schar curr)) + it * CHAR_SIZE
      let st1 ← encodeBitMask mask div st curr_idx
      encInnerMask mask fuel div it (clearLowest curr) st1
    else .ok st

/-- Outer loop `while (it != bloom_filter.end())` of the encoding pass, the
mask having the value `mask`. -/
def encOuterMask (mask div : Nat) : List Nat → Nat → EncState → Except Fault EncState
  | [], _, st => .ok st
  | curr :: rest, it, st => do
    let st1 ← encInnerMask mask 8 div it curr st
    encOuterMask mask div rest (it + 1) st1

/-- The body `encodeBitMask` applied to a list of positions in turn. -/
def encFoldMask (mask div : Nat) : EncState → List Nat → Except Fault EncState
  | st, [] => .ok st
  | st, x :: xs => do
    let st1 ← encodeBitMask mask div st x
    encFoldMask mask div st1 xs

/-- The value `(quotient << div) | remainder` (line 154 of the decoder) for the
quotient `delta >> div` and the remainder `delta & mask` of the encoder. -/
def maskedGap (mask div delta : Nat) : Nat := ((delta >>> div) <<< div) ||| (delta &&& mask)

/-! ## Bytes: count-trailing-zeros and clear-lowest-set-bit on all 256 byte patterns -/

set_option maxRecDepth 100000 in
theorem byteBits_step : ∀ b < 256, b ≠ 0 →
    byteBits b = CTZ (toUInt (schar b)) :: byteBits (clearLowest b) ∧ clearLowest b < 256 := by
  decide

set_option maxRecDepth 100000 in
theorem ctz_shift_spec : ∀ b < 256, ∀ off < 8, b >>> off ≠ 0 →
    (off + CTZ (toByte (schar b >>> off)) < 8 ∧
      b.testBit (off + CTZ (toByte (schar b >>> off))) = true ∧
      ∀ j < CTZ (toByte (schar b >>> off)), b.testBit (off + j) = false) := by
  decide

/-! ## Byte strings as bit streams -/

theorem length_resize (s : List Nat) (n : Nat) : (resize s n).length = n := by
  simp [resize]; omega

theorem getD_resize (s : List Nat) (n j : Nat) (h : s.length ≤ n) :
    (resize s n).getD j 0 = s.getD j 0 := by
  unfold resize
  rw [List.take_of_length_le h]
  simp only [List.getD_eq_getElem?_getD]
  by_cases hj : j < s.length
  · rw [List.getElem?_append_left hj]
  · rw [List.getElem?_append_right (by omega)]
    rw [List.getElem?_eq_none (by omega : s.length ≤ j)]
    simp [List.getElem?_replicate]
    split <;> simp

theorem bitAt_resize (s : List Nat) (n k : Nat) (h : s.length ≤ n) :
    bitAt (resize s n) k = bitAt s k := by
  unfold bitAt
  rw [getD_resize s n _ h]

theorem wfBytes_resize (s : List Nat) (n : Nat) (h : wfBytes s) : wfBytes (resize s n) := by
  intro b hb
  simp only [resize, List.mem_append] at hb
  rcases hb with hb | hb
  · exact h b (List.mem_of_mem_take hb)
  · have := List.eq_of_mem_replicate hb
    omega

theorem orAt_eq (s : List Nat) (i v : Nat) (h : i < s.length) :
    orAt s i v = .ok (s.set i (s.getD i 0 ||| v)) := by
  simp [orAt, h, List.getD_eq_getElem?_getD]

theorem bitAt_set (s : List Nat) (i x k : Nat) (h : i < s.length) :
    bitAt (s.set i x) k = if k / 8 = i then x.testBit (k % 8) else bitAt s k := by
  simp only [bitAt, List.getD_eq_getElem?_getD, List.getElem?_set]
  by_cases hk : k / 8 = i
  · simp [hk, h]
  · have : ¬ i = k / 8 := fun e => hk e.symm
    simp [hk, this]

theorem bitAt_orAt (s : List Nat) (i v k : Nat) (h : i < s.length) :
    bitAt (s.set i (s.getD i 0 ||| v)) k = (bitAt s k || (decide (k / 8 = i) && v.testBit (k % 8))) := by
  rw [bitAt_set s i _ k h]
  by_cases hk : k / 8 = i
  · simp [hk, bitAt, Nat.testBit_or]
  · simp [hk]

theorem wfBytes_set (s : List Nat) (i x : Nat) (h : wfBytes s) (hx : x < 256) :
    wfBytes (s.set i x) := by
  intro b hb
  rcases List.mem_or_eq_of_mem_set hb with hb | hb
  · exact h b hb
  · omega

theorem getD_lt_of_wf (s : List Nat) (i : Nat) (h : wfBytes s) : s.getD i 0 < 256 := by
  simp only [List.getD_eq_getElem?_getD]
  by_cases hi : i < s.length
  · rw [List.getElem?_eq_getElem hi]
    exact h _ (List.getElem_mem hi)
  · rw [List.getElem?_eq_none (by omega)]
    simp

theorem or_lt_256 (a b : Nat) (ha : a < 256) (hb : b < 256) : a ||| b < 256 :=
  Nat.or_lt_two_pow (n := 8) ha hb

theorem bitAt_eq_false_of_ge (s : List Nat) (k : Nat) (h : 8 * s.length ≤ k) : bitAt s k = false := by
  simp only [bitAt, List.getD_eq_getElem?_getD]
  rw [List.getElem?_eq_none (by omega)]
  simp

/-! ## The encoder -/

theorem testBit_eq_false_of_lt (r p m : Nat) (hr : r < 2 ^ p) (hm : p ≤ m) : r.testBit m = false :=
  Nat.testBit_lt_two_pow (lt_of_lt_of_le hr (Nat.pow_le_pow_right (by omega) hm))

theorem toChar_lt (n : Nat) : toChar n < 256 := by
  unfold toChar; omega

theorem testBit_chunk (r bi bs j : Nat) (hj : j < 8) :
    (toChar ((r >>> bi) <<< bs)).testBit j = (decide (bs ≤ j) && r.testBit (bi + (j - bs))) := by
  unfold toChar
  rw [show (256 : Nat) = 2 ^ 8 by norm_num, Nat.testBit_mod_two_pow, Nat.testBit_shiftLeft,
    Nat.testBit_shiftRight]
  simp [hj]

theorem writeRemainder_spec (p r U1 : Nat) (hr : r < 2 ^ p) :
    ∀ (fuel : Nat) (c : List Nat) (bi bs i : Nat),
      bs < 8 → 8 * i + bs = U1 + bi → U1 + p ≤ 8 * c.length → p ≤ bi + fuel → wfBytes c →
      ∃ c', writeRemainder fuel p r c bi bs i = .ok c' ∧ c'.length = c.length ∧ wfBytes c' ∧
        ∀ k, bitAt c' k = (bitAt c k || (decide (U1 + bi ≤ k) && r.testBit (k - U1))) := by
  intro fuel
  induction fuel with
  | zero =>
    intro c bi bs i _ _ _ hf hw
    refine ⟨c, ?_, rfl, hw, ?_⟩
    · simp [writeRemainder]; omega
    · intro k
      by_cases hk : U1 + bi ≤ k
      · rw [testBit_eq_false_of_lt r p (k - U1) hr (by omega)]; simp
      · simp [hk]
  | succ fuel ih =>
    intro c bi bs i hbs hpos hlen hf hw
    by_cases hlt : bi < p
    · have hi : i < c.length := by omega
      obtain ⟨c', hc', hl', hw', hb'⟩ := ih (c.set i (c.getD i 0 ||| toChar ((r >>> bi) <<< bs)))
        (bi + (8 - bs)) 0 (i + 1) (by omega) (by omega) (by simpa using hlen) (by omega)
        (wfBytes_set _ _ _ hw (or_lt_256 _ _ (getD_lt_of_wf c i hw) (toChar_lt _)))
      refine ⟨c', ?_, by simpa using hl', hw', ?_⟩
      · simp only [writeRemainder, hlt, if_true, orAt_eq c i _ hi, CHAR_SIZE]
        exact hc'
      · intro k
        rw [hb' k, bitAt_orAt c i _ k hi, testBit_chunk r bi bs (k % 8) (Nat.mod_lt _ (by omega))]
        by_cases h1 : k / 8 = i
        · by_cases h2 : bs ≤ k % 8
          · have e1 : bi + (k % 8 - bs) = k - U1 := by omega
            have e2 : U1 + bi ≤ k := by omega
            have e3 : ¬ (U1 + (bi + (8 - bs)) ≤ k) := by omega
            simp [h1, h2, e1, e2, e3]
          · have e2 : ¬ (U1 + bi ≤ k) := by omega
            have e3 : ¬ (U1 + (bi + (8 - bs)) ≤ k) := by omega
            simp [h1, h2, e2, e3]
        · by_cases h3 : U1 + bi ≤ k
          · have e3 : U1 + (bi + (8 - bs)) ≤ k := by omega
            simp [h1, h3, e3]
          · have e3 : ¬ (U1 + (bi + (8 - bs)) ≤ k) := by omega
            simp [h1, h3, e3]
    · refine ⟨c, ?_, rfl, hw, ?_⟩
      · simp [writeRemainder, hlt]
      · intro k
        by_cases hk : U1 + bi ≤ k
        · rw [testBit_eq_false_of_lt r p (k - U1) hr (by omega)]; simp
        · simp [hk]

theorem nthBit_of_ge : ∀ (l : List Bool) (k : Nat), l.length ≤ k → nthBit l k = false
  | [], _, _ => rfl
  | _ :: _, 0, h => by simp at h
  | _ :: l, k + 1, h => by
    simp only [nthBit]
    exact nthBit_of_ge l k (by simpa using h)

theorem nthBit_append : ∀ (l1 l2 : List Bool) (k : Nat),
    nthBit (l1 ++ l2) k = if k < l1.length then nthBit l1 k else nthBit l2 (k - l1.length)
  | [], l2, k => by simp
  | b :: l1, l2, 0 => by simp [nthBit]
  | b :: l1, l2, k + 1 => by
    simp only [List.cons_append, nthBit, List.length_cons, Nat.add_lt_add_iff_right,
      Nat.add_sub_add_right]
    exact nthBit_append l1 l2 k

theorem nthBit_replicate_false : ∀ (n k : Nat), nthBit (List.replicate n false) k = false
  | 0, _ => rfl
  | _ + 1, 0 => rfl
  | n + 1, k + 1 => by
    simp only [List.replicate_succ, nthBit]
    exact nthBit_replicate_false n k

theorem nthBit_eq_getD (l : List Bool) (k : Nat) : nthBit l k = l.getD k false := by
  induction l generalizing k with
  | nil => rfl
  | cons b l ih =>
    cases k with
    | zero => rfl
    | succ k => simpa [nthBit] using ih k

theorem nthBit_map_range (f : Nat → Bool) (n k : Nat) :
    nthBit ((List.range n).map f) k = (decide (k < n) && f k) := by
  rw [nthBit_eq_getD, List.getD_eq_getElem?_getD, List.getElem?_map]
  by_cases h : k < n
  · rw [List.getElem?_range h]; simp [h]
  · rw [List.getElem?_eq_none (by simpa using h)]; simp [h]

theorem length_codeword (p d : Nat) : (codeword p d).length = (d >>> p) + 1 + p := by
  simp [codeword]; omega

theorem nthBit_codeword (p d j : Nat) :
    nthBit (codeword p d) j =
      (decide (j = d >>> p) ||
        (decide (d >>> p < j ∧ j ≤ (d >>> p) + p) && d.testBit (j - (d >>> p) - 1))) := by
  unfold codeword
  rw [List.append_assoc, nthBit_append, List.length_replicate]
  by_cases h1 : j < d >>> p
  · have e1 : ¬ j = d >>> p := by omega
    have e2 : ¬ (d >>> p < j ∧ j ≤ (d >>> p) + p) := by omega
    simp [h1, e1, e2, nthBit_replicate_false]
  · rw [if_neg h1, nthBit_append]
    by_cases h2 : j = d >>> p
    · simp [h2, nthBit]
    · have h3 : ¬ (j - d >>> p < [true].length) := by simp; omega
      rw [if_neg h3, nthBit_map_range]
      have e4 : j - d >>> p - [true].length = j - d >>> p - 1 := by simp
      rw [e4]
      by_cases h5 : j ≤ (d >>> p) + p
      · have e5 : j - d >>> p - 1 < p := by omega
        have e6 : d >>> p < j := by omega
        simp [h2, e5, e6, h5]
      · have e5 : ¬ j - d >>> p - 1 < p := by omega
        simp [h2, e5, h5]

theorem and_mask_eq_mod (d p : Nat) : d &&& ((1 <<< p) - 1) = d % 2 ^ p := by
  rw [Nat.one_shiftLeft, Nat.and_pow_two_sub_one_eq_mod]

theorem testBit_one_shl (j m : Nat) (_hj : j < 8) (hm : m < 8) :
    (toChar (1 <<< j)).testBit m = decide (m = j) := by
  unfold toChar
  rw [Nat.one_shiftLeft, show (256 : Nat) = 2 ^ 8 by norm_num, Nat.testBit_mod_two_pow,
    Nat.testBit_two_pow]
  by_cases h : j = m
  · simp [h, hm]
  · have : ¬ m = j := fun e => h e.symm
    simp [h, this]

theorem div_ceil_8 (a : Nat) : DIV_CEIL a 8 = (a + 7) / 8 := rfl

theorem encodeBit_spec (p : Nat) (hp : p < 31) (bits : List Bool) (st : EncState) (x : Nat)
    (hinv : EncInv bits st) :
    ∃ st', encodeBit p st x = .ok st' ∧ EncInv (bits ++ codeword p (x - st.prev_idx)) st' ∧
      st'.prev_idx = x := by
  obtain ⟨hlen, hres, hwf, hbits⟩ := hinv
  rw [div_ceil_8] at hlen
  generalize hd : x - st.prev_idx = d
  obtain ⟨q, hq⟩ : ∃ q, d >>> p = q := ⟨_, rfl⟩
  have hr : d % 2 ^ p < 2 ^ p := Nat.mod_lt _ (by positivity)
  -- the buffer after `resize`
  obtain ⟨c1, hc1⟩ : ∃ c1, resize st.compressed (DIV_CEIL (st.res_idx + (q + 1 + p)) 8) = c1 :=
    ⟨_, rfl⟩
  have hc1len := length_resize st.compressed (DIV_CEIL (st.res_idx + (q + 1 + p)) 8)
  have hgrow : st.compressed.length ≤ DIV_CEIL (st.res_idx + (q + 1 + p)) 8 := by
    rw [hlen, hres, div_ceil_8]; omega
  have hc1bits := fun k => bitAt_resize st.compressed _ k hgrow
  have hc1wf := wfBytes_resize st.compressed (DIV_CEIL (st.res_idx + (q + 1 + p)) 8) hwf
  rw [hc1] at hc1len hc1wf
  simp only [hc1] at hc1bits
  rw [div_ceil_8] at hc1len
  have hU : (st.res_idx + q) / 8 < c1.length := by
    rw [hc1len]; omega
  -- the terminator
  obtain ⟨c2, hc2⟩ : ∃ c2, c1.set ((st.res_idx + q) / 8)
      (c1.getD ((st.res_idx + q) / 8) 0 ||| toChar (1 <<< ((st.res_idx + q) % 8))) = c2 :=
    ⟨_, rfl⟩
  have hc2or := orAt_eq c1 ((st.res_idx + q) / 8) (toChar (1 <<< ((st.res_idx + q) % 8))) hU
  have hc2bits := fun k => bitAt_orAt c1 ((st.res_idx + q) / 8)
    (toChar (1 <<< ((st.res_idx + q) % 8))) k hU
  have hc2wf : wfBytes c2 := by
    rw [← hc2]
    exact wfBytes_set _ _ _ hc1wf (or_lt_256 _ _ (getD_lt_of_wf c1 _ hc1wf) (toChar_lt _))
  have hc2len : c2.length = c1.length := by rw [← hc2]; simp
  rw [hc2] at hc2or
  simp only [hc2] at hc2bits
  -- the remainder
  obtain ⟨c3, hc3, hc3len, hc3wf, hc3bits⟩ := writeRemainder_spec p (d % 2 ^ p)
    (st.res_idx + q + 1) hr p c2 0 ((st.res_idx + q + 1) % 8)
    ((st.res_idx + q + 1) / 8) (Nat.mod_lt _ (by omega)) (by omega)
    (by rw [hc2len, hc1len]; omega) (by omega) hc2wf
  refine ⟨⟨c3, st.res_idx + (q + 1 + p), x⟩, ?_, ⟨?_, ?_, hc3wf, ?_⟩, rfl⟩
  · have hp' : ¬ 31 ≤ p := by omega
    simp only [encodeBit, hd, hq, hp', and_mask_eq_mod, CHAR_SIZE, hc1, hc2or, hc3, bind,
      Except.bind, if_false, pure, Except.pure]
  · rw [hc3len, hc2len, hc1len, List.length_append, length_codeword, hres, div_ceil_8, hq]
  · simp only [List.length_append, length_codeword, hres, hq]
  · intro k
    rw [hc3bits k, hc2bits k, hc1bits k, hbits k, nthBit_append, nthBit_codeword,
      testBit_one_shl _ _ (Nat.mod_lt _ (by omega)) (Nat.mod_lt _ (by omega)),
      Nat.testBit_mod_two_pow, ← hres, Nat.add_zero, hq]
    by_cases h1 : k < st.res_idx
    · have e1 : ¬ (k / 8 = (st.res_idx + q) / 8 ∧ k % 8 = (st.res_idx + q) % 8) := by
        omega
      have e1' : (decide (k / 8 = (st.res_idx + q) / 8) &&
          decide (k % 8 = (st.res_idx + q) % 8)) = false := by simpa using e1
      have e2 : ¬ (st.res_idx + q + 1 ≤ k) := by omega
      simp only [e1', h1, e2, decide_False, Bool.false_and, Bool.or_false, if_true]
    · have hz : nthBit bits k = false := nthBit_of_ge bits k (by omega)
      rw [if_neg h1, hz]
      by_cases h2 : k = st.res_idx + q
      · have e1 : k - st.res_idx = q := by omega
        have e2 : k / 8 = (st.res_idx + q) / 8 := by rw [h2]
        have e3 : k % 8 = (st.res_idx + q) % 8 := by rw [h2]
        simp only [e1, e2, e3, decide_True, Bool.true_and, Bool.or_true, Bool.true_or,
          Bool.false_or]
      · have e1 : ¬ (k - st.res_idx = q) := by omega
        have e0 : ¬ (k / 8 = (st.res_idx + q) / 8 ∧ k % 8 = (st.res_idx + q) % 8) := by
          omega
        have e0' : (decide (k / 8 = (st.res_idx + q) / 8) &&
            decide (k % 8 = (st.res_idx + q) % 8)) = false := by simpa using e0
        rw [e0']
        by_cases h3 : st.res_idx + q + 1 ≤ k
        · by_cases h4 : k - (st.res_idx + q + 1) < p
          · have e5 : q < k - st.res_idx ∧ k - st.res_idx ≤ q + p := by omega
            have e6 : k - st.res_idx - q - 1 = k - (st.res_idx + q + 1) := by omega
            simp only [h3, h4, e1, e5, e6, decide_True, decide_False, Bool.true_and,
              Bool.false_or, and_self]
          · have e5 : ¬ (q < k - st.res_idx ∧ k - st.res_idx ≤ q + p) := by omega
            simp only [h3, h4, e1, e5, decide_True, decide_False, Bool.true_and,
              Bool.false_or, Bool.false_and]
        · have e5 : ¬ (q < k - st.res_idx ∧ k - st.res_idx ≤ q + p) := by omega
          simp only [h3, e1, e5, decide_False, Bool.false_or, Bool.false_and]

theorem byteBits_zero : byteBits 0 = [] := by decide

theorem gapsFrom_append : ∀ (l1 l2 : List Nat) (prev : Nat),
    gapsFrom prev (l1 ++ l2) = gapsFrom prev l1 ++ gapsFrom (lastPos prev l1) l2
  | [], _, _ => rfl
  | x :: l1, l2, _ => by
    show (x - _) :: gapsFrom x (l1 ++ l2) = (x - _) :: (gapsFrom x l1 ++ gapsFrom (lastPos x l1) l2)
    rw [gapsFrom_append l1 l2 x]

theorem lastPos_append : ∀ (l1 l2 : List Nat) (prev : Nat),
    lastPos prev (l1 ++ l2) = lastPos (lastPos prev l1) l2
  | [], _, _ => rfl
  | x :: l1, l2, _ => by
    simp only [List.cons_append, lastPos]
    exact lastPos_append l1 l2 x

theorem codewords_append (p : Nat) : ∀ (l1 l2 : List Nat),
    codewords p (l1 ++ l2) = codewords p l1 ++ codewords p l2
  | [], _ => rfl
  | d :: l1, l2 => by
    show codeword p d ++ codewords p (l1 ++ l2) = (codeword p d ++ codewords p l1) ++ codewords p l2
    rw [codewords_append p l1 l2, List.append_assoc]

theorem length_gapsFrom : ∀ (l : List Nat) (prev : Nat), (gapsFrom prev l).length = l.length
  | [], _ => rfl
  | x :: l, _ => by simp [gapsFrom, length_gapsFrom l x]

theorem encInner_spec (p : Nat) (hp : p < 31) :
    ∀ (fuel curr it : Nat) (st : EncState) (bits : List Bool),
      curr < 256 → (byteBits curr).length ≤ fuel → EncInv bits st →
      ∃ st', encInner fuel p it curr st = .ok st' ∧
        EncInv (bits ++ codewords p
          (gapsFrom st.prev_idx ((byteBits curr).map (fun k => 8 * it + k)))) st' ∧
        st'.prev_idx = lastPos st.prev_idx ((byteBits curr).map (fun k => 8 * it + k)) := by
  intro fuel
  induction fuel with
  | zero =>
    intro curr it st bits hc hf hinv
    have h0 : curr = 0 := by
      by_contra hne
      rw [(byteBits_step curr hc hne).1] at hf
      simp at hf
    subst h0
    refine ⟨st, by simp [encInner], ?_, ?_⟩
    · simpa [byteBits_zero, gapsFrom, codewords] using hinv
    · simp [byteBits_zero, lastPos]
  | succ fuel ih =>
    intro curr it st bits hc hf hinv
    by_cases h0 : curr = 0
    · subst h0
      refine ⟨st, by simp [encInner], ?_, ?_⟩
      · simpa [byteBits_zero, gapsFrom, codewords] using hinv
      · simp [byteBits_zero, lastPos]
    · obtain ⟨hstep, hlt⟩ := byteBits_step curr hc h0
      obtain ⟨st1, hst1, hinv1, hprev1⟩ :=
        encodeBit_spec p hp bits st (CTZ (toUInt (schar curr)) + it * CHAR_SIZE) hinv
      obtain ⟨st2, hst2, hinv2, hprev2⟩ := ih (clearLowest curr) it st1
        (bits ++ codeword p (CTZ (toUInt (schar curr)) + it * CHAR_SIZE - st.prev_idx)) hlt
        (by rw [hstep] at hf; simpa using hf) hinv1
      have hidx : 8 * it + CTZ (toUInt (schar curr)) = CTZ (toUInt (schar curr)) + it * CHAR_SIZE := by
        simp only [CHAR_SIZE]; omega
      refine ⟨st2, ?_, ?_, ?_⟩
      · simp only [encInner, h0, ne_eq, not_false_eq_true, if_true, hst1, bind, Except.bind]
        exact hst2
      · rw [hstep]
        simp only [List.map_cons, gapsFrom, codewords, hidx]
        rw [← List.append_assoc]
        rw [hprev1] at hinv2
        exact hinv2
      · rw [hprev2, hstep]
        simp only [List.map_cons, lastPos, hidx, hprev1]

theorem length_byteBits_le (b : Nat) : (byteBits b).length ≤ 8 := by
  unfold byteBits
  exact le_trans (List.length_filter_le _ _) (by simp)

theorem encOuter_spec (p : Nat) (hp : p < 31) :
    ∀ (s : List Nat) (it : Nat) (st : EncState) (bits : List Bool),
      wfBytes s → EncInv bits st →
      ∃ st', encOuter p s it st = .ok st' ∧
        EncInv (bits ++ codewords p (gapsFrom st.prev_idx (setBitsFrom it s))) st' ∧
        st'.prev_idx = lastPos st.prev_idx (setBitsFrom it s) := by
  intro s
  induction s with
  | nil =>
    intro it st bits _ hinv
    exact ⟨st, rfl, by simpa [setBitsFrom, gapsFrom, codewords] using hinv, rfl⟩
  | cons curr rest ih =>
    intro it st bits hw hinv
    obtain ⟨st1, hst1, hinv1, hprev1⟩ := encInner_spec p hp 8 curr it st bits
      (hw curr (List.mem_cons_self _ _)) (length_byteBits_le curr) hinv
    obtain ⟨st2, hst2, hinv2, hprev2⟩ := ih (it + 1) st1 _
      (fun b hb => hw b (List.mem_cons_of_mem _ hb)) hinv1
    refine ⟨st2, ?_, ?_, ?_⟩
    · simp only [encOuter, hst1, bind, Except.bind]
      exact hst2
    · simp only [setBitsFrom, gapsFrom_append, codewords_append]
      rw [← List.append_assoc, ← hprev1]
      exact hinv2
    · rw [hprev2, hprev1]
      simp only [setBitsFrom, lastPos_append]

theorem avgInner_spec :
    ∀ (fuel curr it : Nat) (st : AvgState),
      curr < 256 → (byteBits curr).length ≤ fuel →
      avgInner fuel it curr st = .ok
        { prev_idx := lastPos st.prev_idx ((byteBits curr).map (fun k => 8 * it + k)),
          avg := st.avg ++ gapsFrom st.prev_idx ((byteBits curr).map (fun k => 8 * it + k)),
          count := st.count + (byteBits curr).length } := by
  intro fuel
  induction fuel with
  | zero =>
    intro curr it st hc hf
    have h0 : curr = 0 := by
      by_contra hne
      rw [(byteBits_step curr hc hne).1] at hf
      simp at hf
    subst h0
    simp [avgInner, byteBits_zero, gapsFrom, lastPos]
  | succ fuel ih =>
    intro curr it st hc hf
    by_cases h0 : curr = 0
    · subst h0
      simp [avgInner, byteBits_zero, gapsFrom, lastPos]
    · obtain ⟨hstep, hlt⟩ := byteBits_step curr hc h0
      have hidx : 8 * it + CTZ (toUInt (schar curr)) = CTZ (toUInt (schar curr)) + it * CHAR_SIZE := by
        simp only [CHAR_SIZE]; omega
      simp only [avgInner, h0, ne_eq, not_false_eq_true, if_true]
      rw [ih (clearLowest curr) it _ hlt (by rw [hstep] at hf; simpa using hf)]
      rw [hstep]
      simp only [List.map_cons, gapsFrom, lastPos, hidx, List.append_assoc, List.singleton_append,
        List.length_cons, Nat.add_assoc, Nat.add_comm 1]

theorem avgOuter_spec :
    ∀ (s : List Nat) (it : Nat) (st : AvgState), wfBytes s →
      avgOuter s it st = .ok
        { prev_idx := lastPos st.prev_idx (setBitsFrom it s),
          avg := st.avg ++ gapsFrom st.prev_idx (setBitsFrom it s),
          count := st.count + (setBitsFrom it s).length } := by
  intro s
  induction s with
  | nil => intro it st _; simp [avgOuter, setBitsFrom, gapsFrom, lastPos]
  | cons curr rest ih =>
    intro it st hw
    simp only [avgOuter, bind, Except.bind]
    rw [avgInner_spec 8 curr it st (hw curr (List.mem_cons_self _ _)) (length_byteBits_le curr)]
    simp only []
    rw [ih (it + 1) _ (fun b hb => hw b (List.mem_cons_of_mem _ hb))]
    simp only [setBitsFrom, gapsFrom_append, lastPos_append, List.append_assoc, List.length_append,
      List.length_map, Nat.add_assoc]

theorem encInv_init : EncInv [] { compressed := [], res_idx := 0, prev_idx := 0 } := by
  refine ⟨rfl, rfl, ?_, ?_⟩
  · intro b hb; simp at hb
  · intro k; simp [bitAt, nthBit]

theorem golomb_compress_of_no_set_bit (estimate : List Nat → Nat) (s : List Nat) (div_param : Int)
    (hw : wfBytes s) (h : setBits s = []) :
    golomb_compress estimate s div_param = .ok { div := 0, compressed := [] } := by
  unfold setBits at h
  simp [golomb_compress, avgOuter_spec s 0 _ hw, h, bind, Except.bind, pure, Except.pure]

theorem golomb_compress_spec (estimate : List Nat → Nat) (s : List Nat) (div_param : Int)
    (hw : wfBytes s) (h : setBits s ≠ [])
    (hdiv : (if div_param ≥ 0 then div_param.toNat else estimate (gaps s)) < 31) :
    ∃ c, golomb_compress estimate s div_param =
        .ok { div := if div_param ≥ 0 then div_param.toNat else estimate (gaps s),
              compressed := c } ∧
      c.length = DIV_CEIL
        (codewords (if div_param ≥ 0 then div_param.toNat else estimate (gaps s)) (gaps s)).length 8 ∧
      wfBytes c ∧
      ∀ k, bitAt c k =
        nthBit (codewords (if div_param ≥ 0 then div_param.toNat else estimate (gaps s)) (gaps s)) k := by
  generalize hp : (if div_param ≥ 0 then div_param.toNat else estimate (gaps s)) = p at *
  obtain ⟨st, hst, ⟨hlen, _, hwf, hbits⟩, _⟩ := encOuter_spec p hdiv s 0 _ [] hw encInv_init
  have hcount : ¬ (setBitsFrom 0 s).length = 0 := by
    intro h0
    exact h (List.length_eq_zero.mp h0)
  refine ⟨st.compressed, ?_, ?_, hwf, ?_⟩
  · unfold gaps setBits at hp
    simp only [golomb_compress, avgOuter_spec s 0 _ hw, bind, Except.bind, pure, Except.pure,
      List.nil_append, Nat.zero_add, hcount, if_false, hp, hst]
  · simpa [gaps, setBits] using hlen
  · simpa [gaps, setBits] using hbits

/-! ## The decoder -/

theorem deref_eq (s : List Nat) (it : Nat) (h : it < s.length) : deref s it = .ok (s.getD it 0) := by
  simp [deref, h, List.getD_eq_getElem?_getD]

theorem bitAt_byte (s : List Nat) (it j : Nat) (hj : j < 8) :
    bitAt s (8 * it + j) = (s.getD it 0).testBit j := by
  unfold bitAt
  rw [show (8 * it + j) / 8 = it by omega, show (8 * it + j) % 8 = j by omega]

theorem lt_of_bitAt (s : List Nat) (k : Nat) (h : bitAt s k = true) : k < 8 * s.length := by
  by_contra hk
  rw [bitAt_eq_false_of_ge s k (by omega)] at h
  exact Bool.false_ne_true h

theorem shr_eq_zero_iff (b off : Nat) (hb : b < 256) :
    b >>> off = 0 ↔ ∀ j, off ≤ j → j < 8 → b.testBit j = false := by
  constructor
  · intro h j hj _
    have := Nat.testBit_shiftRight (i := off) (j := j - off) b
    rw [h, Nat.zero_testBit, show off + (j - off) = j by omega] at this
    exact this.symm
  · intro h
    apply Nat.eq_of_testBit_eq
    intro i
    rw [Nat.testBit_shiftRight, Nat.zero_testBit]
    by_cases hi : off + i < 8
    · exact h _ (by omega) hi
    · exact testBit_eq_false_of_lt b 8 _ (by simpa using hb) (by omega)

theorem skipZeros_found (s : List Nat) (hw : wfBytes s) (t : Nat) (ht : bitAt s t = true) :
    ∀ (fuel it offset quotient : Nat), offset < 8 → 8 * it + offset ≤ t →
      (∀ k, 8 * it + offset ≤ k → k < t → bitAt s k = false) → t / 8 - it < fuel →
      skipZeros fuel s it offset quotient =
        .ok (t / 8, (if t / 8 = it then offset else 0),
          quotient + (8 * (t / 8) + (if t / 8 = it then offset else 0) - (8 * it + offset))) := by
  have htl := lt_of_bitAt s t ht
  intro fuel
  induction fuel with
  | zero => intro it offset quotient _ _ _ hf; omega
  | succ fuel ih =>
    intro it offset quotient hoff hle hz hf
    have hit : it < s.length := by omega
    have hne : it ≠ s.length := by omega
    simp only [skipZeros, hne, ne_eq, not_false_eq_true, if_true, deref_eq s it hit, bind,
      Except.bind, CHAR_SIZE]
    by_cases hc : s.getD it 0 >>> offset = 0
    · have hzero := (shr_eq_zero_iff _ offset (getD_lt_of_wf s it hw)).mp hc
      have hge : 8 * (it + 1) ≤ t := by
        by_contra hlt
        have h1 := hzero (t % 8) (by omega) (Nat.mod_lt _ (by omega))
        rw [← bitAt_byte s it (t % 8) (Nat.mod_lt _ (by omega))] at h1
        rw [show 8 * it + t % 8 = t by omega, ht] at h1
        exact Bool.noConfusion h1
      have hne' : ¬ t / 8 = it := by omega
      rw [if_pos hc, ih (it + 1) 0 (quotient + (8 - offset)) (by omega) (by omega)
        (fun k hk hkt => by
          by_cases hk8 : 8 * (it + 1) ≤ k
          · exact hz k (by omega) hkt
          · omega) (by omega)]
      simp only [hne', if_false]
      by_cases h2 : t / 8 = it + 1
      · simp only [h2, if_true]
        congr 3
        omega
      · simp only [h2, if_false]
        congr 3
        omega
    · rw [if_neg hc]
      have hex : ¬ ∀ j, offset ≤ j → j < 8 → (s.getD it 0).testBit j = false :=
        fun h => hc ((shr_eq_zero_iff _ offset (getD_lt_of_wf s it hw)).mpr h)
      push_neg at hex
      obtain ⟨j, hj1, hj2, hj3⟩ := hex
      have hj4 : bitAt s (8 * it + j) = true := by
        rw [bitAt_byte s it j hj2]
        simpa using hj3
      have hle2 : t ≤ 8 * it + j := by
        by_contra hlt
        rw [hz (8 * it + j) (by omega) (by omega)] at hj4
        exact Bool.noConfusion hj4
      have heq : t / 8 = it := by omega
      simp only [heq, if_true, pure, Except.pure]
      congr 3
      omega

theorem skipZeros_end (s : List Nat) (hw : wfBytes s) :
    ∀ (fuel it offset quotient : Nat), offset < 8 → it ≤ s.length →
      (∀ k, 8 * it + offset ≤ k → bitAt s k = false) → s.length - it < fuel →
      ∃ off q, skipZeros fuel s it offset quotient = .ok (s.length, off, q) := by
  intro fuel
  induction fuel with
  | zero => intro it offset quotient _ _ _ hf; omega
  | succ fuel ih =>
    intro it offset quotient hoff hle hz hf
    by_cases hne : it = s.length
    · exact ⟨offset, quotient, by simp [skipZeros, hne, pure, Except.pure]⟩
    · have hit : it < s.length := by omega
      have hc : s.getD it 0 >>> offset = 0 := by
        rw [shr_eq_zero_iff _ offset (getD_lt_of_wf s it hw)]
        intro j hj1 hj2
        rw [← bitAt_byte s it j hj2]
        exact hz _ (by omega)
      obtain ⟨off, q, h⟩ := ih (it + 1) 0 (quotient + (8 - offset)) (by omega) (by omega)
        (fun k hk => hz k (by omega)) (by omega)
      refine ⟨off, q, ?_⟩
      simp only [skipZeros, hne, ne_eq, not_false_eq_true, if_true, deref_eq s it hit, bind,
        Except.bind, CHAR_SIZE, hc]
      exact h

theorem read_chunk (c bs bi nb d : Nat) (h : ∀ i < nb, c.testBit (bs + i) = d.testBit (bi + i))
    (h64 : bi + nb ≤ 64) :
    (d % 2 ^ bi) ||| ((((c >>> bs) &&& ((1 <<< nb) - 1)) <<< bi) % 2 ^ 64) = d % 2 ^ (bi + nb) := by
  apply Nat.eq_of_testBit_eq
  intro m
  rw [Nat.testBit_or, Nat.testBit_mod_two_pow, Nat.testBit_mod_two_pow, Nat.testBit_mod_two_pow,
    Nat.testBit_shiftLeft, Nat.testBit_and, Nat.testBit_shiftRight, Nat.one_shiftLeft,
    Nat.testBit_two_pow_sub_one]
  by_cases h1 : m < bi
  · have e1 : m < bi + nb := by omega
    have e2 : ¬ m ≥ bi := by omega
    simp only [h1, e1, e2, decide_True, decide_False, Bool.true_and, Bool.false_and,
      Bool.and_false, Bool.or_false]
  · by_cases h2 : m - bi < nb
    · have e1 : m < bi + nb := by omega
      have e2 : m ≥ bi := by omega
      have e3 : m < 64 := by omega
      have e4 := h (m - bi) h2
      rw [show bi + (m - bi) = m by omega] at e4
      simp only [h1, h2, e1, e2, e3, e4, decide_True, decide_False, Bool.true_and,
        Bool.false_and, Bool.and_true, Bool.false_or]
    · have e1 : ¬ m < bi + nb := by omega
      simp only [h1, h2, e1, decide_False, Bool.false_and, Bool.and_false, Bool.or_false]

theorem readRemainder_spec (s : List Nat) (p d U1 : Nat) (hp : p < 64)
    (hbits : ∀ j < p, bitAt s (U1 + j) = d.testBit j) (hlen : U1 + p ≤ 8 * s.length) :
    ∀ (fuel it bs bi : Nat), bs < 8 → 8 * it + bs = U1 + bi → bi ≤ p → p ≤ bi + fuel →
      readRemainder fuel s p it bs bi (d % 2 ^ bi) =
        .ok (if bi < p then (U1 + p - 1) / 8 + 1 else it, d % 2 ^ p) := by
  intro fuel
  induction fuel with
  | zero =>
    intro it bs bi _ _ hle hf
    have e : bi = p := by omega
    subst e
    simp [readRemainder]
  | succ fuel ih =>
    intro it bs bi hbs hpos hle hf
    by_cases hlt : bi < p
    · have hit : it < s.length := by omega
      have h64 : ¬ 64 ≤ bi := by omega
      have hchunk := read_chunk (s.getD it 0) bs bi (min (8 - bs) (p - bi)) d
        (fun i hi => by
          rw [← bitAt_byte s it (bs + i) (by omega), ← hbits (bi + i) (by omega)]
          congr 1
          omega) (by omega)
      simp only [readRemainder, hlt, if_true, deref_eq s it hit, bind, Except.bind, h64, if_false,
        CHAR_SIZE, hchunk, pure, Except.pure]
      by_cases hfin : bi + min (8 - bs) (p - bi) < p
      · rw [ih (it + 1) 0 (bi + min (8 - bs) (p - bi)) (by omega) (by omega) (by omega) (by omega)]
        simp only [hfin, if_true]
      · have e : bi + min (8 - bs) (p - bi) = p := by omega
        rw [e]
        have hi2 : it = (U1 + p - 1) / 8 := by omega
        cases fuel with
        | zero => simp [readRemainder, hi2]
        | succ fuel => simp [readRemainder, hi2]
    · have e : bi = p := by omega
      subst e
      simp [readRemainder]

theorem decodeStep_found (s : List Nat) (p t : Nat) (st : DecState) (hw : wfBytes s)
    (hoff : st.offset < 8) (hc : 8 * st.it + st.offset ≤ t)
    (hq0 : ∀ k, 8 * st.it + st.offset ≤ k → k < t → bitAt s k = false)
    (hq1 : bitAt s t = true) :
    decodeStep s p st =
      match readRemainder p s p ((t + 1) / 8) ((t + 1) % 8) 0 0 with
      | .error e => .error e
      | .ok (it, remainder) =>
        if 64 ≤ p then .error .undefinedBehaviour
        else
          match orAt st.res
            (((st.prefix_sum + ((((t - (8 * st.it + st.offset)) <<< p) % 2 ^ 64) ||| remainder))
              % 2 ^ 64) / 8)
            (toChar (1 <<< (((st.prefix_sum +
              ((((t - (8 * st.it + st.offset)) <<< p) % 2 ^ 64) ||| remainder)) % 2 ^ 64) % 8)))
          with
          | .error e => .error e
          | .ok res => .ok (some
            { it := it - (if p > 0 ∧ (t + 1 + p) % 8 ≠ 0 then 1 else 0),
              offset := (t + 1 + p) % 8,
              prefix_sum := (st.prefix_sum +
                ((((t - (8 * st.it + st.offset)) <<< p) % 2 ^ 64) ||| remainder)) % 2 ^ 64,
              res := res,
              trace := st.trace ++ [((st.prefix_sum +
                ((((t - (8 * st.it + st.offset)) <<< p) % 2 ^ 64) ||| remainder)) % 2 ^ 64,
                8 * (it - (if p > 0 ∧ (t + 1 + p) % 8 ≠ 0 then 1 else 0)) + (t + 1 + p) % 8)] })
    := by
  have htl := lt_of_bitAt s t hq1
  have hskip := skipZeros_found s hw t hq1 (s.length + 1) st.it st.offset 0 hoff hc hq0
    (by omega)
  obtain ⟨off, hoffdef⟩ : ∃ off, (if t / 8 = st.it then st.offset else 0) = off := ⟨_, rfl⟩
  rw [hoffdef] at hskip
  have hoff8 : off < 8 := by rw [← hoffdef]; split <;> omega
  have hoffle : off ≤ t % 8 := by rw [← hoffdef]; split <;> omega
  have hcur : 8 * st.it + st.offset ≤ 8 * (t / 8) + off := by rw [← hoffdef]; split <;> omega
  have hit : t / 8 < s.length := by omega
  have hne : ¬ t / 8 = s.length := by omega
  have hbyte : (s.getD (t / 8) 0).testBit (t % 8) = true := hq1
  have hnz : s.getD (t / 8) 0 >>> off ≠ 0 := by
    intro h0
    have := (shr_eq_zero_iff _ off (getD_lt_of_wf s _ hw)).mp h0 (t % 8) hoffle
      (Nat.mod_lt _ (by omega))
    rw [hbyte] at this
    exact Bool.noConfusion this
  obtain ⟨hz1, hz2, hz3⟩ := ctz_shift_spec (s.getD (t / 8) 0) (getD_lt_of_wf s _ hw) off hoff8 hnz
  obtain ⟨z, hzdef⟩ : ∃ z, CTZ (toByte (schar (s.getD (t / 8) 0) >>> off)) = z := ⟨_, rfl⟩
  rw [hzdef] at hz1 hz2 hz3
  have hzeq : off + z = t % 8 := by
    by_contra hne2
    rcases Nat.lt_or_gt_of_ne hne2 with hlt | hgt
    · have h1 := hq0 (8 * (t / 8) + (off + z)) (by omega) (by omega)
      rw [bitAt_byte s _ _ hz1, hz2] at h1
      exact Bool.noConfusion h1
    · have h1 := hz3 (t % 8 - off) (by omega)
      rw [show off + (t % 8 - off) = t % 8 by omega, hbyte] at h1
      exact Bool.noConfusion h1
  have hquot : 0 + (8 * (t / 8) + off - (8 * st.it + st.offset)) + z =
      t - (8 * st.it + st.offset) := by omega
  have e1 : t / 8 + (if (t + 1) % 8 = 0 then 1 else 0) = (t + 1) / 8 := by
    split <;> omega
  have e2 : (z + off + 1) % 8 = (t + 1) % 8 := by omega
  have e3 : (z + off + 1 + p) % 8 = (t + 1 + p) % 8 := by omega
  simp only [decodeStep, hskip, bind, Except.bind, hne, if_false, deref_eq s _ hit, hzdef,
    CHAR_SIZE, pure, Except.pure, hquot, e1, e2, e3]
  cases hrd : readRemainder p s p ((t + 1) / 8) ((t + 1) % 8) 0 0 with
  | error e => rfl
  | ok v =>
    obtain ⟨it, remainder⟩ := v
    simp only []
    by_cases h64 : 64 ≤ p
    · simp only [h64, if_true]
    · simp only [h64, if_false]
      cases orAt st.res
        (((st.prefix_sum + ((((t - (8 * st.it + st.offset)) <<< p) % 2 ^ 64) ||| remainder))
          % 2 ^ 64) / 8)
        (toChar (1 <<< (((st.prefix_sum +
          ((((t - (8 * st.it + st.offset)) <<< p) % 2 ^ 64) ||| remainder)) % 2 ^ 64) % 8))) <;>
        rfl

theorem decodeStep_spec (s : List Nat) (p q r : Nat) (st : DecState) (hw : wfBytes s)
    (hoff : st.offset < 8) (hp : p < 64) (hr : r < 2 ^ p)
    (hq0 : ∀ k, 8 * st.it + st.offset ≤ k → k < 8 * st.it + st.offset + q → bitAt s k = false)
    (hq1 : bitAt s (8 * st.it + st.offset + q) = true)
    (hrem : ∀ j < p, bitAt s (8 * st.it + st.offset + q + 1 + j) = r.testBit j)
    (hlen : 8 * st.it + st.offset + q + 1 + p ≤ 8 * s.length)
    (hres : ((st.prefix_sum + (((q <<< p) % 2 ^ 64) ||| r)) % 2 ^ 64) / 8 < st.res.length) :
    decodeStep s p st = .ok (some
      { it := (8 * st.it + st.offset + q + 1 + p) / 8,
        offset := (8 * st.it + st.offset + q + 1 + p) % 8,
        prefix_sum := (st.prefix_sum + (((q <<< p) % 2 ^ 64) ||| r)) % 2 ^ 64,
        res := st.res.set (((st.prefix_sum + (((q <<< p) % 2 ^ 64) ||| r)) % 2 ^ 64) / 8)
          (st.res.getD (((st.prefix_sum + (((q <<< p) % 2 ^ 64) ||| r)) % 2 ^ 64) / 8) 0 |||
            toChar (1 <<< (((st.prefix_sum + (((q <<< p) % 2 ^ 64) ||| r)) % 2 ^ 64) % 8))),
        trace := st.trace ++ [((st.prefix_sum + (((q <<< p) % 2 ^ 64) ||| r)) % 2 ^ 64,
          8 * st.it + st.offset + q + 1 + p)] }) := by
  obtain ⟨t, ht⟩ : ∃ t, 8 * st.it + st.offset + q = t := ⟨_, rfl⟩
  rw [ht] at hq0 hq1 hrem hlen
  have hread := readRemainder_spec s p r (t + 1) hp hrem hlen p ((t + 1) / 8) ((t + 1) % 8) 0
    (Nat.mod_lt _ (by omega)) (by omega) (by omega) (by omega)
  rw [Nat.pow_zero, Nat.mod_one, Nat.mod_eq_of_lt hr] at hread
  have h64 : ¬ 64 ≤ p := by omega
  have hq : t - (8 * st.it + st.offset) = q := by omega
  rw [decodeStep_found s p t st hw hoff (by omega) hq0 hq1, hread]
  simp only [h64, if_false, hq, orAt_eq st.res _ _ hres]
  have e1 : (if 0 < p then (t + 1 + p - 1) / 8 + 1 else (t + 1) / 8) -
      (if p > 0 ∧ (t + 1 + p) % 8 ≠ 0 then 1 else 0) = (t + 1 + p) / 8 := by
    split_ifs <;> omega
  rw [e1]
  have e3 : 8 * ((t + 1 + p) / 8) + (t + 1 + p) % 8 = t + 1 + p := by omega
  rw [e3, ht]

theorem decodeStep_end (s : List Nat) (p : Nat) (st : DecState) (hw : wfBytes s)
    (hoff : st.offset < 8) (hit : st.it ≤ s.length)
    (hz : ∀ k, 8 * st.it + st.offset ≤ k → bitAt s k = false) :
    decodeStep s p st = .ok none := by
  obtain ⟨off, q, h⟩ := skipZeros_end s hw (s.length + 1) st.it st.offset 0 hoff hit hz (by omega)
  simp [decodeStep, h, bind, Except.bind, pure, Except.pure]

theorem join_delta (d p : Nat) (hd : d < 2 ^ 64) :
    (((d >>> p) <<< p) % 2 ^ 64) ||| (d % 2 ^ p) = d := by
  apply Nat.eq_of_testBit_eq
  intro m
  rw [Nat.testBit_or, Nat.testBit_mod_two_pow, Nat.testBit_mod_two_pow, Nat.testBit_shiftLeft,
    Nat.testBit_shiftRight]
  by_cases h1 : m < p
  · have e1 : ¬ m ≥ p := by omega
    simp only [h1, e1, decide_True, decide_False, Bool.true_and, Bool.false_and, Bool.and_false,
      Bool.false_or]
  · have e1 : m ≥ p := by omega
    rw [show p + (m - p) = m by omega]
    by_cases h2 : m < 64
    · simp only [h1, e1, h2, decide_True, decide_False, Bool.true_and, Bool.false_and,
        Bool.or_false]
    · rw [testBit_eq_false_of_lt d 64 m hd (by omega)]
      simp only [Bool.and_false, Bool.or_false]

theorem bitAt_set_bit (s : List Nat) (x k : Nat) (h : x / 8 < s.length) :
    bitAt (s.set (x / 8) (s.getD (x / 8) 0 ||| toChar (1 <<< (x % 8)))) k =
      (bitAt s k || decide (k = x)) := by
  rw [bitAt_orAt s _ _ k h, testBit_one_shl _ _ (Nat.mod_lt _ (by omega)) (Nat.mod_lt _ (by omega))]
  congr 1
  by_cases hk : k = x
  · simp [hk]
  · have : ¬ (k / 8 = x / 8 ∧ k % 8 = x % 8) := by omega
    simpa [hk] using this

theorem decodeLoop_codewords (s : List Nat) (p : Nat) (hw : wfBytes s) (hp : p < 64) :
    ∀ (ds : List Nat) (fuel : Nat) (st : DecState),
      st.offset < 8 → st.it ≤ s.length → wfBytes st.res →
      (∀ j, bitAt s (8 * st.it + st.offset + j) = nthBit (codewords p ds) j) →
      8 * st.it + st.offset + (codewords p ds).length ≤ 8 * s.length →
      (∀ x ∈ sumsFrom st.prefix_sum ds, x < 8 * st.res.length) → 8 * st.res.length ≤ 2 ^ 64 →
      ds.length < fuel →
      ∃ st', decodeLoop fuel s p st = .ok st' ∧ st'.res.length = st.res.length ∧
        wfBytes st'.res ∧
        (∀ k, bitAt st'.res k = (bitAt st.res k || decide (k ∈ sumsFrom st.prefix_sum ds))) ∧
        st'.trace = st.trace ++ traceFrom p st.prefix_sum (8 * st.it + st.offset) ds := by
  intro ds
  induction ds with
  | nil =>
    intro fuel st hoff hit hwr hbits _ _ _ hf
    cases fuel with
    | zero => omega
    | succ fuel =>
      have hend := decodeStep_end s p st hw hoff hit (fun k hk => by
        have := hbits (k - (8 * st.it + st.offset))
        rw [show 8 * st.it + st.offset + (k - (8 * st.it + st.offset)) = k by omega] at this
        rw [this]; rfl)
      refine ⟨st, ?_, rfl, hwr, ?_, ?_⟩
      · simp [decodeLoop, hend, bind, Except.bind, pure, Except.pure]
      · intro k; simp [sumsFrom]
      · simp [traceFrom]
  | cons d ds ih =>
    intro fuel st hoff hit hwr hbits hlen hsum h64 hf
    cases fuel with
    | zero => omega
    | succ fuel =>
      have hd1 : st.prefix_sum + d < 8 * st.res.length :=
        hsum _ (by simp [sumsFrom])
      have hd : d < 2 ^ 64 := by omega
      have hcw : ∀ j, j < (d >>> p) + 1 + p →
          bitAt s (8 * st.it + st.offset + j) = nthBit (codeword p d) j := by
        intro j hj
        rw [hbits j]
        show nthBit (codeword p d ++ codewords p ds) j = _
        rw [nthBit_append, length_codeword, if_pos hj]
      have hlen' : 8 * st.it + st.offset + ((d >>> p) + 1 + p) + (codewords p ds).length
          ≤ 8 * s.length := by
        have : (codewords p (d :: ds)).length = ((d >>> p) + 1 + p) + (codewords p ds).length := by
          show (codeword p d ++ codewords p ds).length = _
          rw [List.length_append, length_codeword]
        omega
      have hdelta := join_delta d p hd
      have hps : (st.prefix_sum + d) % 2 ^ 64 = st.prefix_sum + d := Nat.mod_eq_of_lt (by omega)
      have hstep := decodeStep_spec s p (d >>> p) (d % 2 ^ p) st hw hoff hp
        (Nat.mod_lt _ (by positivity))
        (fun k hk1 hk2 => by
          have := hcw (k - (8 * st.it + st.offset)) (by omega)
          rw [show 8 * st.it + st.offset + (k - (8 * st.it + st.offset)) = k by omega] at this
          rw [this, nthBit_codeword]
          have e1 : ¬ (k - (8 * st.it + st.offset) = d >>> p) := by omega
          have e2 : ¬ (d >>> p < k - (8 * st.it + st.offset) ∧
            k - (8 * st.it + st.offset) ≤ d >>> p + p) := by omega
          simp only [e1, e2, decide_False, Bool.false_and, Bool.or_false])
        (by
          rw [hcw (d >>> p) (by omega), nthBit_codeword]
          simp)
        (fun j hj => by
          rw [show 8 * st.it + st.offset + d >>> p + 1 + j =
            8 * st.it + st.offset + (d >>> p + 1 + j) by omega, hcw _ (by omega), nthBit_codeword,
            Nat.testBit_mod_two_pow]
          have e1 : ¬ (d >>> p + 1 + j = d >>> p) := by omega
          have e2 : d >>> p < d >>> p + 1 + j ∧ d >>> p + 1 + j ≤ d >>> p + p := by omega
          have e3 : d >>> p + 1 + j - d >>> p - 1 = j := by omega
          simp only [e1, e2, e3, hj, decide_True, decide_False, Bool.true_and, Bool.false_or,
            and_self])
        (by omega)
        (by rw [hdelta, hps]; omega)
      rw [hdelta, hps] at hstep
      obtain ⟨st', hst', hl', hw', hb', ht'⟩ := ih fuel
        { it := (8 * st.it + st.offset + d >>> p + 1 + p) / 8,
          offset := (8 * st.it + st.offset + d >>> p + 1 + p) % 8,
          prefix_sum := st.prefix_sum + d,
          res := st.res.set ((st.prefix_sum + d) / 8)
            (st.res.getD ((st.prefix_sum + d) / 8) 0 ||| toChar (1 <<< ((st.prefix_sum + d) % 8))),
          trace := st.trace ++ [(st.prefix_sum + d, 8 * st.it + st.offset + d >>> p + 1 + p)] }
        (Nat.mod_lt _ (by omega)) (by simp only; omega)
        (wfBytes_set _ _ _ hwr (or_lt_256 _ _ (getD_lt_of_wf _ _ hwr) (toChar_lt _)))
        (fun j => by
          simp only
          rw [show 8 * ((8 * st.it + st.offset + d >>> p + 1 + p) / 8) +
            (8 * st.it + st.offset + d >>> p + 1 + p) % 8 + j =
            8 * st.it + st.offset + ((d >>> p + 1 + p) + j) by omega, hbits]
          show nthBit (codeword p d ++ codewords p ds) _ = _
          rw [nthBit_append, length_codeword, if_neg (by omega)]
          congr 1
          omega)
        (by simp only; omega)
        (fun x hx => by
          simp only [List.length_set]
          exact hsum x (by simp only [sumsFrom, List.mem_cons]; exact Or.inr hx))
        (by simpa using h64) (by simpa using hf)
      refine ⟨st', ?_, by simpa using hl', hw', ?_, ?_⟩
      · simp only [decodeLoop, hstep, bind, Except.bind]
        exact hst'
      · intro k
        rw [hb' k]
        simp only
        rw [bitAt_set_bit st.res _ k (by omega)]
        simp only [sumsFrom, List.mem_cons, Bool.decide_or, Bool.or_assoc]
      · rw [ht']
        simp only [traceFrom, List.append_assoc, List.singleton_append]
        congr 3
        all_goals omega

theorem readRemainder_done (fuel : Nat) (s : List Nat) (p it bs r : Nat) :
    readRemainder fuel s p it bs p r = .ok (it, r) := by
  cases fuel <;> simp [readRemainder]

theorem readRemainder_total (s : List Nat) (p U1 : Nat) :
    ∀ (fuel it bs bi rem : Nat), bs < 8 → 8 * it + bs = U1 + bi → bi ≤ p → p ≤ bi + fuel →
      readRemainder fuel s p it bs bi rem = .error .undefinedBehaviour ∨
      ∃ r, readRemainder fuel s p it bs bi rem =
          .ok (if bi < p then (U1 + p - 1) / 8 + 1 else it, r) ∧
        (bi < p → U1 + p ≤ 8 * s.length) := by
  intro fuel
  induction fuel with
  | zero =>
    intro it bs bi rem _ _ hle hf
    have e : ¬ bi < p := by omega
    exact Or.inr ⟨rem, by simp [readRemainder, e], fun h => absurd h e⟩
  | succ fuel ih =>
    intro it bs bi rem hbs hpos hle hf
    by_cases hlt : bi < p
    · by_cases hit : it < s.length
      · by_cases h64 : 64 ≤ bi
        · left
          simp only [readRemainder, hlt, if_true, deref_eq s it hit, bind, Except.bind, h64,
            throw, throwThe, MonadExceptOf.throw]
        · simp only [readRemainder, hlt, if_true, deref_eq s it hit, bind, Except.bind, h64,
            if_false, CHAR_SIZE, pure, Except.pure]
          by_cases hfin : bi + min (8 - bs) (p - bi) < p
          · rcases ih (it + 1) 0 (bi + min (8 - bs) (p - bi))
              (rem ||| ((((s.getD it 0 >>> bs) &&& ((1 <<< (min (8 - bs) (p - bi))) - 1)) <<< bi)
                % 2 ^ 64))
              (by omega) (by omega) (by omega) (by omega) with h | ⟨r, h, hb⟩
            · exact Or.inl h
            · right
              refine ⟨r, ?_, fun _ => hb hfin⟩
              rw [h]
              simp only [hfin, if_true]
          · right
            have e : bi + min (8 - bs) (p - bi) = p := by omega
            rw [e]
            have hi2 : it = (U1 + p - 1) / 8 := by omega
            have hlen : U1 + p ≤ 8 * s.length := by omega
            rw [readRemainder_done, ← hi2]
            exact ⟨_, rfl, fun _ => hlen⟩
      · left
        simp only [readRemainder, hlt, if_true, deref, hit, dite_false, bind, Except.bind]
    · exact Or.inr ⟨rem, by simp [readRemainder, hlt], fun h => absurd h hlt⟩

theorem decodeStep_progress (s : List Nat) (p : Nat) (st : DecState) (hw : wfBytes s)
    (hoff : st.offset < 8) (hit : st.it ≤ s.length) :
    decodeStep s p st = .error .undefinedBehaviour ∨ decodeStep s p st = .ok none ∨
      ∃ st', decodeStep s p st = .ok (some st') ∧ st'.offset < 8 ∧
        8 * st'.it + st'.offset ≤ 8 * s.length ∧
        8 * st.it + st.offset < 8 * st'.it + st'.offset ∧ st'.res.length = st.res.length := by
  by_cases hz : ∀ k, 8 * st.it + st.offset ≤ k → bitAt s k = false
  · exact Or.inr (Or.inl (decodeStep_end s p st hw hoff hit hz))
  · push_neg at hz
    have hex : ∃ k, 8 * st.it + st.offset ≤ k ∧ bitAt s k = true := by
      obtain ⟨k, hk1, hk2⟩ := hz
      exact ⟨k, hk1, by simpa using hk2⟩
    obtain ⟨ht1, ht2⟩ := Nat.find_spec hex
    have hmin : ∀ k, 8 * st.it + st.offset ≤ k → k < Nat.find hex → bitAt s k = false := by
      intro k hk1 hk2
      have := Nat.find_min hex hk2
      by_contra hne
      exact this ⟨hk1, by simpa using hne⟩
    generalize Nat.find hex = t at ht1 ht2 hmin
    have htl := lt_of_bitAt s t ht2
    rw [decodeStep_found s p t st hw hoff ht1 hmin ht2]
    rcases readRemainder_total s p (t + 1) p ((t + 1) / 8) ((t + 1) % 8) 0 0
      (Nat.mod_lt _ (by omega)) (by omega) (by omega) (by omega) with h | ⟨r, h, hb⟩
    · left; rw [h]
    · rw [h]
      simp only []
      by_cases h64 : 64 ≤ p
      · left; simp only [h64, if_true]
      · simp only [h64, if_false]
        by_cases hres : ((st.prefix_sum + ((((t - (8 * st.it + st.offset)) <<< p) % 2 ^ 64) ||| r))
            % 2 ^ 64) / 8 < st.res.length
        · right; right
          rw [orAt_eq st.res _ _ hres]
          refine ⟨_, rfl, Nat.mod_lt _ (by omega), ?_, ?_, by simp⟩
          · simp only
            by_cases hp0 : 0 < p
            · have := hb hp0
              split_ifs <;> omega
            · split_ifs <;> omega
          · simp only
            by_cases hp0 : 0 < p
            · have := hb hp0
              split_ifs <;> omega
            · split_ifs <;> omega
        · left
          simp only [orAt, hres, dite_false]

theorem decodeLoop_total (s : List Nat) (p : Nat) (hw : wfBytes s) :
    ∀ (fuel : Nat) (st : DecState), st.offset < 8 → 8 * st.it + st.offset ≤ 8 * s.length →
      8 * s.length < 8 * st.it + st.offset + fuel →
      decodeLoop fuel s p st = .error .undefinedBehaviour ∨
      ∃ st', decodeLoop fuel s p st = .ok st' ∧ st'.res.length = st.res.length := by
  intro fuel
  induction fuel with
  | zero => intro st hoff hit hf; omega
  | succ fuel ih =>
    intro st hoff hit hf
    rcases decodeStep_progress s p st hw hoff (by omega) with h | h | ⟨st1, h, h1, h2, h3, h4⟩
    · left
      simp only [decodeLoop, h, bind, Except.bind]
    · right
      exact ⟨st, by simp only [decodeLoop, h, bind, Except.bind, pure, Except.pure], rfl⟩
    · rcases ih st1 h1 h2 (by omega) with h5 | ⟨st2, h5, h6⟩
      · left
        simp only [decodeLoop, h, bind, Except.bind]
        exact h5
      · right
        refine ⟨st2, ?_, by rw [h6, h4]⟩
        simp only [decodeLoop, h, bind, Except.bind]
        exact h5

theorem golomb_decompress_total (s : List Nat) (p n : Nat) (hw : wfBytes s) (hne : s ≠ []) :
    golomb_decompress s p n = .error .undefinedBehaviour ∨
      ∃ res, golomb_decompress s p n = .ok res ∧ res.length = n := by
  rcases decodeLoop_total s p hw (CHAR_SIZE * s.length + 1)
    { it := 0, offset := 0, prefix_sum := 0, res := List.replicate n 0, trace := [] }
    (by simp) (by simp) (by simp only [CHAR_SIZE]; omega) with h | ⟨st, h, hl⟩
  · left
    simp only [golomb_decompress, golomb_decompress_run, hne, if_false, h, bind, Except.bind]
  · right
    refine ⟨st.res, ?_, by simpa using hl⟩
    simp only [golomb_decompress, golomb_decompress_run, hne, if_false, h, bind, Except.bind,
      pure, Except.pure]

/-! ## Set-bit positions and the round trip -/

theorem mem_byteBits (b k : Nat) : k ∈ byteBits b ↔ k < 8 ∧ b.testBit k = true := by
  simp [byteBits, List.mem_filter]

theorem bitAt_cons (b : Nat) (rest : List Nat) (m : Nat) :
    bitAt (b :: rest) m = if m < 8 then b.testBit m else bitAt rest (m - 8) := by
  unfold bitAt
  by_cases h : m < 8
  · rw [if_pos h, show m / 8 = 0 by omega, show m % 8 = m by omega]
    rfl
  · rw [if_neg h, show m / 8 = (m - 8) / 8 + 1 by omega, show m % 8 = (m - 8) % 8 by omega]
    rfl

theorem mem_setBitsFrom : ∀ (s : List Nat) (i k : Nat),
    k ∈ setBitsFrom i s ↔ 8 * i ≤ k ∧ bitAt s (k - 8 * i) = true := by
  intro s
  induction s with
  | nil => intro i k; simp [setBitsFrom, bitAt]
  | cons b rest ih =>
    intro i k
    simp only [setBitsFrom, List.mem_append, List.mem_map, mem_byteBits, ih, bitAt_cons]
    constructor
    · rintro (⟨j, ⟨hj1, hj2⟩, rfl⟩ | ⟨h1, h2⟩)
      · refine ⟨by omega, ?_⟩
        rw [if_pos (by omega), show 8 * i + j - 8 * i = j by omega]
        exact hj2
      · refine ⟨by omega, ?_⟩
        rw [if_neg (by omega), show k - 8 * i - 8 = k - 8 * (i + 1) by omega]
        exact h2
    · rintro ⟨h1, h2⟩
      by_cases h : k - 8 * i < 8
      · rw [if_pos h] at h2
        exact Or.inl ⟨k - 8 * i, ⟨h, h2⟩, by omega⟩
      · rw [if_neg h, show k - 8 * i - 8 = k - 8 * (i + 1) by omega] at h2
        exact Or.inr ⟨by omega, h2⟩

theorem mem_setBits (s : List Nat) (k : Nat) : k ∈ setBits s ↔ bitAt s k = true := by
  simp [setBits, mem_setBitsFrom]

theorem lt_of_mem_setBits (s : List Nat) (k : Nat) (h : k ∈ setBits s) : k < 8 * s.length :=
  lt_of_bitAt s k ((mem_setBits s k).mp h)

theorem sorted_byteBits (b : Nat) : (byteBits b).Pairwise (· < ·) :=
  List.Pairwise.filter _ (List.pairwise_lt_range 8)

theorem sorted_setBitsFrom : ∀ (s : List Nat) (i : Nat), (setBitsFrom i s).Pairwise (· < ·) := by
  intro s
  induction s with
  | nil => intro i; simp [setBitsFrom]
  | cons b rest ih =>
    intro i
    simp only [setBitsFrom]
    rw [List.pairwise_append]
    refine ⟨?_, ih (i + 1), ?_⟩
    · rw [List.pairwise_map]
      exact (sorted_byteBits b).imp (fun h => by omega)
    · intro x hx y hy
      rw [List.mem_map] at hx
      obtain ⟨j, hj, rfl⟩ := hx
      have := ((mem_byteBits b j).mp hj).1
      have := ((mem_setBitsFrom rest (i + 1) y).mp hy).1
      omega

theorem sorted_setBits (s : List Nat) : (setBits s).Pairwise (· < ·) :=
  sorted_setBitsFrom s 0

theorem sumsFrom_gapsFrom : ∀ (l : List Nat) (prev : Nat), (∀ x ∈ l, prev ≤ x) →
    l.Pairwise (· < ·) → sumsFrom prev (gapsFrom prev l) = l := by
  intro l
  induction l with
  | nil => intro prev _ _; rfl
  | cons x xs ih =>
    intro prev hle hs
    rw [List.pairwise_cons] at hs
    have h1 : prev ≤ x := hle x (List.mem_cons_self _ _)
    simp only [gapsFrom, sumsFrom]
    rw [show prev + (x - prev) = x by omega, ih x (fun y hy => le_of_lt (hs.1 y hy)) hs.2]

theorem sumsFrom_gaps (s : List Nat) : sumsFrom 0 (gaps s) = setBits s :=
  sumsFrom_gapsFrom _ 0 (fun _ _ => Nat.zero_le _) (sorted_setBits s)

theorem eq_of_bitAt_eq (s1 s2 : List Nat) (hlen : s1.length = s2.length) (h1 : wfBytes s1)
    (h2 : wfBytes s2) (h : ∀ k, bitAt s1 k = bitAt s2 k) : s1 = s2 := by
  apply List.ext_getElem hlen
  intro i hi1 hi2
  have e1 : s1.getD i 0 = s1[i] := by
    rw [List.getD_eq_getElem?_getD, List.getElem?_eq_getElem hi1]; rfl
  have e2 : s2.getD i 0 = s2[i] := by
    rw [List.getD_eq_getElem?_getD, List.getElem?_eq_getElem hi2]; rfl
  rw [← e1, ← e2]
  apply Nat.eq_of_testBit_eq
  intro j
  by_cases hj : j < 8
  · rw [← bitAt_byte s1 i j hj, ← bitAt_byte s2 i j hj]
    exact h _
  · rw [testBit_eq_false_of_lt _ 8 j (by simpa using getD_lt_of_wf s1 i h1) (by omega),
      testBit_eq_false_of_lt _ 8 j (by simpa using getD_lt_of_wf s2 i h2) (by omega)]

theorem length_le_codewords (p : Nat) : ∀ ds : List Nat, ds.length ≤ (codewords p ds).length
  | [] => Nat.le_refl _
  | d :: ds => by
    show ds.length + 1 ≤ (codeword p d ++ codewords p ds).length
    rw [List.length_append, length_codeword]
    have := length_le_codewords p ds
    generalize d >>> p = q
    omega

theorem length_codewords (p : Nat) : ∀ ds : List Nat, (codewords p ds).length = totalBits p ds
  | [] => rfl
  | d :: ds => by
    show (codeword p d ++ codewords p ds).length = _
    rw [List.length_append, length_codeword, length_codewords p ds]
    rfl

theorem bitAt_replicate_zero (n k : Nat) : bitAt (List.replicate n 0) k = false := by
  unfold bitAt
  rw [List.getD_eq_getElem?_getD, List.getElem?_replicate]
  split <;> simp

theorem wfBytes_replicate_zero (n : Nat) : wfBytes (List.replicate n 0) := by
  intro b hb
  have := List.eq_of_mem_replicate hb
  omega

theorem length_streamBits : ∀ s : List Nat, (streamBits s).length = 8 * s.length
  | [] => rfl
  | b :: rest => by
    show (byteToBits b ++ streamBits rest).length = _
    rw [List.length_append, length_streamBits rest]
    simp [byteToBits]
    omega

theorem nthBit_streamBits : ∀ (s : List Nat) (k : Nat), nthBit (streamBits s) k = bitAt s k
  | [], k => by simp [streamBits, nthBit, bitAt]
  | b :: rest, k => by
    show nthBit (byteToBits b ++ streamBits rest) k = _
    rw [nthBit_append, bitAt_cons]
    have hl : (byteToBits b).length = 8 := by simp [byteToBits]
    rw [hl]
    by_cases h : k < 8
    · rw [if_pos h, if_pos h]
      unfold byteToBits
      rw [nthBit_map_range]
      simp [h]
    · rw [if_neg h, if_neg h]
      exact nthBit_streamBits rest (k - 8)

theorem eq_of_nthBit_eq (l1 l2 : List Bool) (hlen : l1.length = l2.length)
    (h : ∀ k, nthBit l1 k = nthBit l2 k) : l1 = l2 := by
  apply List.ext_getElem hlen
  intro i h1 h2
  have := h i
  rw [nthBit_eq_getD, nthBit_eq_getD, List.getD_eq_getElem?_getD, List.getD_eq_getElem?_getD,
    List.getElem?_eq_getElem h1, List.getElem?_eq_getElem h2] at this
  simpa using this

theorem streamBits_of_bits (c : List Nat) (bits : List Bool)
    (hlen : c.length = DIV_CEIL bits.length 8) (h : ∀ k, bitAt c k = nthBit bits k) :
    streamBits c = bits ++ List.replicate (8 * c.length - bits.length) false := by
  rw [div_ceil_8] at hlen
  apply eq_of_nthBit_eq
  · rw [length_streamBits, List.length_append, List.length_replicate]
    omega
  · intro k
    rw [nthBit_streamBits, h k, nthBit_append]
    by_cases hk : k < bits.length
    · rw [if_pos hk]
    · rw [if_neg hk, nthBit_replicate_false, nthBit_of_ge bits k (by omega)]

theorem roundtrip_run (estimate : List Nat → Nat) (s : List Nat) (div_param : Int)
    (hw : wfBytes s) (h64 : 8 * s.length ≤ 2 ^ 64) (h : setBits s ≠ [])
    (hdiv : (if div_param ≥ 0 then div_param.toNat else estimate (gaps s)) < 31) :
    ∃ c st, golomb_compress estimate s div_param =
        .ok { div := if div_param ≥ 0 then div_param.toNat else estimate (gaps s),
              compressed := c } ∧
      golomb_decompress_run c (if div_param ≥ 0 then div_param.toNat else estimate (gaps s))
        s.length = .ok (some st) ∧
      st.res = s ∧
      st.trace = traceFrom (if div_param ≥ 0 then div_param.toNat else estimate (gaps s)) 0 0
        (gaps s) := by
  obtain ⟨c, hc, hclen, hcw, hcbits⟩ := golomb_compress_spec estimate s div_param hw h hdiv
  generalize (if div_param ≥ 0 then div_param.toNat else estimate (gaps s)) = p at *
  rw [div_ceil_8] at hclen
  have hgl : (gaps s).length = (setBits s).length := length_gapsFrom _ _
  have hpos : 0 < (setBits s).length := List.length_pos.mpr h
  have hle := length_le_codewords p (gaps s)
  have hcne : c ≠ [] := by
    intro h0
    rw [h0] at hclen
    simp at hclen
    omega
  obtain ⟨st, hst, hl, hwr, hb, ht⟩ := decodeLoop_codewords c p hcw (by omega) (gaps s)
    (CHAR_SIZE * c.length + 1)
    { it := 0, offset := 0, prefix_sum := 0, res := List.replicate s.length 0, trace := [] }
    (by simp) (by simp) (wfBytes_replicate_zero _)
    (fun j => by simpa using hcbits j) (by simp only [CHAR_SIZE]; omega)
    (fun x hx => by
      rw [sumsFrom_gaps] at hx
      simpa using lt_of_mem_setBits s x hx)
    (by simpa using h64) (by simp only [CHAR_SIZE]; omega)
  refine ⟨c, st, hc, ?_, ?_, ?_⟩
  · simp only [golomb_decompress_run, hcne, if_false, hst, bind, Except.bind, pure, Except.pure]
  · apply eq_of_bitAt_eq _ _ (by simpa using hl) hwr hw
    intro k
    rw [hb k, sumsFrom_gaps]
    simp only [bitAt_replicate_zero, Bool.false_or]
    by_cases hk : bitAt s k = true
    · rw [hk]; exact decide_eq_true ((mem_setBits s k).mpr hk)
    · rw [decide_eq_false (fun hm => hk ((mem_setBits s k).mp hm))]
      simpa using hk
  · simpa using ht

theorem golomb_roundtrip (estimate : List Nat → Nat) (B : List Nat) (div_param : Int)
    (hw : wfBytes B) (h64 : 8 * B.length ≤ 2 ^ 64) (hne : ∃ k, bitAt B k = true)
    (hp : chosenDiv estimate B div_param < 31) :
    ∃ c, golomb_compress estimate B div_param =
        .ok { div := chosenDiv estimate B div_param, compressed := c } ∧
      golomb_decompress c (chosenDiv estimate B div_param) B.length = .ok B := by
  have hnil : setBits B ≠ [] := by
    obtain ⟨k, hk⟩ := hne
    intro h0
    have := (mem_setBits B k).mpr hk
    rw [h0] at this
    exact absurd this (List.not_mem_nil _)
  obtain ⟨c, st, hc, hrun, hres, _⟩ := roundtrip_run estimate B div_param hw h64 hnil hp
  refine ⟨c, hc, ?_⟩
  unfold chosenDiv
  simp only [golomb_decompress, hrun, bind, Except.bind, pure, Except.pure, hres]

/-! ## Lemmas for the claims -/

theorem map_fst_traceFrom (p : Nat) : ∀ (ds : List Nat) (ps c : Nat),
    (traceFrom p ps c ds).map Prod.fst = sumsFrom ps ds
  | [], _, _ => rfl
  | d :: ds, ps, c => by
    simp only [traceFrom, sumsFrom, List.map_cons]
    rw [map_fst_traceFrom p ds]

theorem setBits_eq_nil_of_zero : ∀ (s : List Nat) (i : Nat), (∀ b ∈ s, b = 0) →
    setBitsFrom i s = []
  | [], _, _ => rfl
  | b :: rest, i, h => by
    have hb : b = 0 := h b (List.mem_cons_self _ _)
    subst hb
    simp only [setBitsFrom, byteBits_zero, List.map_nil, List.nil_append]
    exact setBits_eq_nil_of_zero rest (i + 1) (fun b hb => h b (List.mem_cons_of_mem _ hb))

theorem wfBytes_of_zero (s : List Nat) (h : ∀ b ∈ s, b = 0) : wfBytes s := by
  intro b hb
  rw [h b hb]
  omega

theorem toNat_ite (p : Nat) (e : Nat) : (if (p : Int) ≥ 0 then (p : Int).toNat else e) = p := by
  simp

/-- Position fidelity for `p < 31`: for a bitmap `B` of bytes, of at most `2 ^ 64` bits,
and a division parameter `p < 31` given as override, `golomb_compress` returns a
payload, `golomb_decompress` on it with `p` and the length of `B` runs to the
end, and the positions at which it sets a bit are, in order, exactly the
ascending list of set-bit positions of `B`: strictly increasing, and containing
`k` exactly when bit `k` of `B` is set, bit `0` and bit `8 * N - 1` included. -/
theorem position_fidelity_of_lt_31 (estimate : List Nat → Nat) (B : List Nat) (p : Nat)
    (hw : wfBytes B) (h64 : 8 * B.length ≤ 2 ^ 64) (hp : p < 31) :
    ∃ c r, golomb_compress estimate B (p : Int) = .ok c ∧
      golomb_decompress_run c.compressed p B.length = .ok r ∧
      writtenPositions r = setBits B ∧
      (writtenPositions r).Pairwise (· < ·) ∧
      (∀ k, k ∈ writtenPositions r ↔ bitAt B k = true) ∧
      (bitAt B 0 = true → 0 ∈ writtenPositions r) ∧
      (bitAt B (8 * B.length - 1) = true → 8 * B.length - 1 ∈ writtenPositions r) := by
  by_cases h : setBits B = []
  · refine ⟨_, none, golomb_compress_of_no_set_bit estimate B p hw h, rfl, ?_, ?_, ?_, ?_, ?_⟩
    · rw [h]; rfl
    · exact List.Pairwise.nil
    · intro k
      rw [← mem_setBits, h]
      rfl
    · intro h0
      have := (mem_setBits B 0).mpr h0
      rw [h] at this
      exact absurd this (List.not_mem_nil _)
    · intro h0
      have := (mem_setBits B _).mpr h0
      rw [h] at this
      exact absurd this (List.not_mem_nil _)
  · obtain ⟨c, st, hc, hrun, _, htr⟩ := roundtrip_run estimate B p hw h64 h
      (by rw [toNat_ite]; exact hp)
    rw [toNat_ite] at hc hrun htr
    have hwp : writtenPositions (some st) = setBits B := by
      show st.trace.map Prod.fst = _
      rw [htr, map_fst_traceFrom, sumsFrom_gaps]
    refine ⟨_, some st, hc, hrun, hwp, ?_, ?_, ?_, ?_⟩
    · rw [hwp]; exact sorted_setBits B
    · intro k; rw [hwp]; exact mem_setBits B k
    · intro h0; rw [hwp]; exact (mem_setBits B 0).mpr h0
    · intro h0; rw [hwp]; exact (mem_setBits B _).mpr h0

theorem setBits_ne_nil_of_bit (B : List Nat) (h : ∃ k, bitAt B k = true) : setBits B ≠ [] := by
  obtain ⟨k, hk⟩ := h
  intro h0
  have := (mem_setBits B k).mpr hk
  rw [h0] at this
  exact absurd this (List.not_mem_nil _)

theorem golomb_compress_stream (estimate : List Nat → Nat) (B : List Nat) (div_param : Int)
    (hw : wfBytes B) (hne : ∃ k, bitAt B k = true) (hp : chosenDiv estimate B div_param < 31) :
    ∃ c, golomb_compress estimate B div_param =
        .ok { div := chosenDiv estimate B div_param, compressed := c } ∧
      c.length = DIV_CEIL (totalBits (chosenDiv estimate B div_param) (gaps B)) 8 ∧
      wfBytes c ∧
      (∀ k, bitAt c k = nthBit (codewords (chosenDiv estimate B div_param) (gaps B)) k) ∧
      streamBits c = codewords (chosenDiv estimate B div_param) (gaps B) ++
        List.replicate (8 * c.length - totalBits (chosenDiv estimate B div_param) (gaps B)) false := by
  obtain ⟨c, hc, hlen, hcw, hbits⟩ :=
    golomb_compress_spec estimate B div_param hw (setBits_ne_nil_of_bit B hne) hp
  refine ⟨c, hc, ?_, hcw, hbits, ?_⟩
  · rw [← length_codewords]; exact hlen
  · rw [← length_codewords]; exact streamBits_of_bits c _ hlen hbits

theorem compress_ub_2_32 (estimate : List Nat → Nat) :
    golomb_compress estimate [2] 32 = .error .undefinedBehaviour := rfl

theorem compress_ub_01_64 (estimate : List Nat → Nat) :
    golomb_compress estimate [0, 1] 64 = .error .undefinedBehaviour := rfl

/-- Wire format for `p <= 30`: for every bitmap of bytes with at least one
set bit and every division parameter `p <= 30` (override or estimate), the
payload of `golomb_compress`, read as a bit stream least significant bit first
within each byte, is exactly the concatenation, in ascending set-bit order, of
one codeword per gap `d` (`d >> p` zero bits, a one bit, the `p` low bits of `d`
least significant first), followed by zero bits up to the end of the last byte. -/
theorem wire_format_of_lt_31 (estimate : List Nat → Nat) (B : List Nat) (div_param : Int)
    (hw : wfBytes B) (hne : ∃ k, bitAt B k = true) (hp : chosenDiv estimate B div_param < 31) :
    ∃ c, golomb_compress estimate B div_param =
        .ok { div := chosenDiv estimate B div_param, compressed := c } ∧
      streamBits c = codewords (chosenDiv estimate B div_param) (gaps B) ++
        List.replicate (8 * c.length - totalBits (chosenDiv estimate B div_param) (gaps B)) false := by
  obtain ⟨c, hc, _, _, _, hs⟩ := golomb_compress_stream estimate B div_param hw hne hp
  exact ⟨c, hc, hs⟩

/-- Override used verbatim for `div_param <= 30`: for every bitmap of bytes with at
least one set bit and every override `0 <= div_param <= 30`, `golomb_compress`
returns `div = div_param`, and the payload is the same for any two estimators:
the encoding of the gaps under `div_param`. -/
theorem override_verbatim_of_lt_31 (estimate estimate' : List Nat → Nat) (B : List Nat)
    (div_param : Int) (hw : wfBytes B) (hne : ∃ k, bitAt B k = true)
    (h0 : 0 ≤ div_param) (h31 : div_param < 31) :
    ∃ c, golomb_compress estimate B div_param = .ok c ∧ (c.div : Int) = div_param ∧
      golomb_compress estimate' B div_param = .ok c ∧
      streamBits c.compressed = codewords c.div (gaps B) ++
        List.replicate (8 * c.compressed.length - totalBits c.div (gaps B)) false := by
  have e1 : chosenDiv estimate B div_param = div_param.toNat := by
    simp [chosenDiv, h0]
  have e2 : chosenDiv estimate' B div_param = div_param.toNat := by
    simp [chosenDiv, h0]
  have hlt : div_param.toNat < 31 := by omega
  obtain ⟨c, hc, hl, hcw, hbits, hs⟩ :=
    golomb_compress_stream estimate B div_param hw hne (by rw [e1]; exact hlt)
  obtain ⟨c', hc', hl', hcw', hbits', _⟩ :=
    golomb_compress_stream estimate' B div_param hw hne (by rw [e2]; exact hlt)
  rw [e1] at hc hs hl hbits
  rw [e2] at hc' hl' hbits'
  have hcc : c' = c :=
    eq_of_bitAt_eq c' c (by rw [hl, hl']) hcw' hcw (fun k => by rw [hbits k, hbits' k])
  rw [hcc] at hc'
  exact ⟨_, hc, Int.toNat_of_nonneg h0, hc', hs⟩

theorem totalBits_zero_gapsFrom : ∀ (l : List Nat) (prev : Nat), (∀ x ∈ l, prev ≤ x) →
    l.Pairwise (· < ·) → totalBits 0 (gapsFrom prev l) + prev = lastPos prev l + l.length := by
  intro l
  induction l with
  | nil => intro prev _ _; simp [gapsFrom, totalBits, lastPos]
  | cons x xs ih =>
    intro prev hle hs
    rw [List.pairwise_cons] at hs
    have h1 : prev ≤ x := hle x (List.mem_cons_self _ _)
    have h2 := ih x (fun y hy => le_of_lt (hs.1 y hy)) hs.2
    simp only [gapsFrom, totalBits, lastPos, List.length_cons, Nat.shiftRight_zero]
    omega

theorem map_snd_traceFrom_zero : ∀ (ds : List Nat) (ps c : Nat),
    (traceFrom 0 ps c ds).map Prod.snd = sumsFrom c (ds.map (· + 1))
  | [], _, _ => rfl
  | d :: ds, ps, c => by
    simp only [traceFrom, sumsFrom, List.map_cons, Nat.shiftRight_zero, Nat.add_zero]
    rw [map_snd_traceFrom_zero ds]

theorem sums_succ_gapsFrom : ∀ (l : List Nat) (prev i0 : Nat), (∀ x ∈ l, prev ≤ x) →
    l.Pairwise (· < ·) →
    sumsFrom (prev + i0) ((gapsFrom prev l).map (· + 1)) =
      (List.range l.length).map (fun i => l.getD i 0 + (i0 + i) + 1) := by
  intro l
  induction l with
  | nil => intro prev i0 _ _; rfl
  | cons x xs ih =>
    intro prev i0 hle hs
    rw [List.pairwise_cons] at hs
    have h1 : prev ≤ x := hle x (List.mem_cons_self _ _)
    have h2 := ih x (i0 + 1) (fun y hy => le_of_lt (hs.1 y hy)) hs.2
    simp only [gapsFrom, sumsFrom, List.map_cons, List.length_cons, List.range_succ_eq_map,
      List.map_map]
    rw [show prev + i0 + (x - prev + 1) = x + (i0 + 1) by omega, h2]
    congr 1
    apply List.map_congr_left
    intro i _
    simp only [Function.comp, List.getD_cons_succ]
    omega

theorem lt_of_mem_sums_succ : ∀ (ds : List Nat) (c y : Nat),
    y ∈ sumsFrom c (ds.map (· + 1)) → c < y := by
  intro ds
  induction ds with
  | nil => intro c y h; simp [sumsFrom] at h
  | cons d ds ih =>
    intro c y h
    simp only [List.map_cons, sumsFrom, List.mem_cons] at h
    rcases h with h | h
    · omega
    · have := ih _ _ h
      omega

theorem nthBit_codewords_zero : ∀ (ds : List Nat) (c k : Nat),
    nthBit (codewords 0 ds) k = decide (c + k + 1 ∈ sumsFrom c (ds.map (· + 1))) := by
  intro ds
  induction ds with
  | nil => intro c k; simp [codewords, nthBit, sumsFrom]
  | cons d ds ih =>
    intro c k
    show nthBit (codeword 0 d ++ codewords 0 ds) k = _
    rw [nthBit_append, length_codeword, nthBit_codeword]
    simp only [Nat.shiftRight_zero, Nat.add_zero, List.map_cons, sumsFrom, List.mem_cons]
    by_cases h1 : k < d + 1
    · rw [if_pos h1]
      have e2 : ¬ (d < k ∧ k ≤ d) := by omega
      have e3 : ¬ (c + k + 1 ∈ sumsFrom (c + (d + 1)) (ds.map (· + 1))) := by
        intro hm
        have := lt_of_mem_sums_succ _ _ _ hm
        omega
      by_cases h2 : k = d
      · subst h2
        have e4 : c + k + 1 = c + (k + 1) := by omega
        simp only [e4, decide_True, Bool.true_or, true_or]
      · have e4 : ¬ c + k + 1 = c + (d + 1) := by omega
        simp only [h2, e2, e3, e4, decide_False, Bool.false_and, Bool.or_false, or_self]
    · rw [if_neg h1, ih (c + (d + 1)) (k - (d + 1))]
      have e4 : ¬ c + k + 1 = c + (d + 1) := by omega
      rw [show c + (d + 1) + (k - (d + 1)) + 1 = c + k + 1 by omega]
      simp only [e4, false_or]

theorem readRemainder_zero (fuel : Nat) (s : List Nat) (it binary_start binary_idx remainder : Nat) :
    readRemainder fuel s 0 it binary_start binary_idx remainder = .ok (it, remainder) := by
  cases fuel <;> simp [readRemainder]

/-! ## The scan, folds, truncated and padded payloads -/

theorem scanInner_eq : ∀ (fuel curr it : Nat), curr < 256 → (byteBits curr).length ≤ fuel →
    scanInner fuel it curr = .ok ((byteBits curr).map (fun k => 8 * it + k)) := by
  intro fuel
  induction fuel with
  | zero =>
    intro curr it hc hf
    have h0 : curr = 0 := by
      by_contra hne
      rw [(byteBits_step curr hc hne).1] at hf
      simp at hf
    subst h0
    simp [scanInner, byteBits_zero]
  | succ fuel ih =>
    intro curr it hc hf
    by_cases h0 : curr = 0
    · subst h0
      simp [scanInner, byteBits_zero]
    · obtain ⟨hstep, hlt⟩ := byteBits_step curr hc h0
      have hidx : CTZ (toUInt (schar curr)) + it * CHAR_SIZE = 8 * it + CTZ (toUInt (schar curr)) := by
        simp only [CHAR_SIZE]; omega
      simp only [scanInner, h0, ne_eq, not_false_eq_true, if_true, bind, Except.bind,
        ih (clearLowest curr) it hlt (by rw [hstep] at hf; simpa using hf), pure, Except.pure, hidx]
      rw [hstep]
      rfl

theorem scanOuter_eq : ∀ (s : List Nat) (it : Nat), wfBytes s →
    scanOuter s it = .ok (setBitsFrom it s) := by
  intro s
  induction s with
  | nil => intro it _; rfl
  | cons curr rest ih =>
    intro it hw
    simp only [scanOuter, bind, Except.bind, pure, Except.pure, setBitsFrom,
      scanInner_eq 8 curr it (hw curr (List.mem_cons_self _ _)) (length_byteBits_le curr),
      ih (it + 1) (fun b hb => hw b (List.mem_cons_of_mem _ hb))]

theorem encFold_append (p : Nat) : ∀ (l1 l2 : List Nat) (st : EncState),
    encFold p st (l1 ++ l2) =
      match encFold p st l1 with
      | .error e => .error e
      | .ok st1 => encFold p st1 l2 := by
  intro l1
  induction l1 with
  | nil => intro l2 st; rfl
  | cons x xs ih =>
    intro l2 st
    simp only [List.cons_append, encFold, bind, Except.bind]
    cases encodeBit p st x with
    | error e => rfl
    | ok st1 => exact ih l2 st1

theorem encInner_eq_fold (p : Nat) : ∀ (fuel curr it : Nat) (st : EncState),
    curr < 256 → (byteBits curr).length ≤ fuel →
    encInner fuel p it curr st = encFold p st ((byteBits curr).map (fun k => 8 * it + k)) := by
  intro fuel
  induction fuel with
  | zero =>
    intro curr it st hc hf
    have h0 : curr = 0 := by
      by_contra hne
      rw [(byteBits_step curr hc hne).1] at hf
      simp at hf
    subst h0
    simp [encInner, byteBits_zero, encFold]
  | succ fuel ih =>
    intro curr it st hc hf
    by_cases h0 : curr = 0
    · subst h0
      simp [encInner, byteBits_zero, encFold]
    · obtain ⟨hstep, hlt⟩ := byteBits_step curr hc h0
      have hidx : CTZ (toUInt (schar curr)) + it * CHAR_SIZE = 8 * it + CTZ (toUInt (schar curr)) := by
        simp only [CHAR_SIZE]; omega
      rw [hstep]
      simp only [encInner, h0, ne_eq, not_false_eq_true, if_true, bind, Except.bind, hidx,
        List.map_cons, encFold]
      cases encodeBit p st (8 * it + CTZ (toUInt (schar curr))) with
      | error e => rfl
      | ok st1 => exact ih (clearLowest curr) it st1 hlt (by rw [hstep] at hf; simpa using hf)

theorem encOuter_eq_fold (p : Nat) : ∀ (s : List Nat) (it : Nat) (st : EncState), wfBytes s →
    encOuter p s it st = encFold p st (setBitsFrom it s) := by
  intro s
  induction s with
  | nil => intro it st _; rfl
  | cons curr rest ih =>
    intro it st hw
    simp only [encOuter, bind, Except.bind, setBitsFrom, encFold_append,
      encInner_eq_fold p 8 curr it st (hw curr (List.mem_cons_self _ _)) (length_byteBits_le curr)]
    cases encFold p st ((byteBits curr).map (fun k => 8 * it + k)) with
    | error e => rfl
    | ok st1 => exact ih (it + 1) st1 (fun b hb => hw b (List.mem_cons_of_mem _ hb))

theorem encodeBit_eq_split (div : Nat) (st : EncState) (curr_idx : Nat) :
    encodeBit div st curr_idx =
      match splitGap div (curr_idx - st.prev_idx) with
      | .error e => .error e
      | .ok (quotient, remainder) => writeGap div st curr_idx quotient remainder := by
  by_cases h : 31 ≤ div
  · simp [encodeBit, splitGap, h, bind, Except.bind, throw, throwThe, MonadExceptOf.throw]
  · simp only [encodeBit, splitGap, writeGap, h, if_false, bind, Except.bind, pure, Except.pure]

theorem encodeBit_ub (div : Nat) (st : EncState) (curr_idx : Nat) (h : 31 ≤ div) :
    encodeBit div st curr_idx = .error .undefinedBehaviour := by
  simp [encodeBit, h, bind, Except.bind, throw, throwThe, MonadExceptOf.throw]

theorem golomb_compress_eq_fold (estimate : List Nat → Nat) (s : List Nat) (div_param : Int)
    (hw : wfBytes s) :
    golomb_compress estimate s div_param =
      if (setBits s).length = 0 then .ok { div := 0, compressed := [] }
      else
        match encFold (chosenDiv estimate s div_param)
          { compressed := [], res_idx := 0, prev_idx := 0 } (setBits s) with
        | .error e => .error e
        | .ok e => .ok { div := chosenDiv estimate s div_param, compressed := e.compressed } := by
  unfold setBits chosenDiv gaps setBits
  simp only [golomb_compress, avgOuter_spec s 0 _ hw, bind, Except.bind, pure, Except.pure,
    List.nil_append, Nat.zero_add, encOuter_eq_fold _ s 0 _ hw]
  by_cases h : (setBitsFrom 0 s).length = 0
  · simp only [h, if_true]
  · simp only [h, if_false]
    generalize encFold _ _ _ = r
    cases r <;> rfl

theorem golomb_compress_ub (estimate : List Nat → Nat) (s : List Nat) (div_param : Int)
    (hw : wfBytes s) (hne : setBits s ≠ []) (h : 31 ≤ chosenDiv estimate s div_param) :
    golomb_compress estimate s div_param = .error .undefinedBehaviour := by
  rw [golomb_compress_eq_fold estimate s div_param hw]
  have hl : ¬ (setBits s).length = 0 := fun h0 => hne (List.length_eq_zero.mp h0)
  rw [if_neg hl]
  cases hs : setBits s with
  | nil => exact absurd hs hne
  | cons x xs => simp only [encFold, encodeBit_ub _ _ _ h, bind, Except.bind]

theorem splitGap_exact (p d : Nat) (hp : p < 31) (hd : d < 2 ^ 64) :
    splitGap p d = .ok (d >>> p, d % 2 ^ p) ∧
      (((d >>> p) <<< p) % 2 ^ 64) ||| (d % 2 ^ p) = d := by
  have h : ¬ 31 ≤ p := by omega
  exact ⟨by simp only [splitGap, h, if_false, and_mask_eq_mod], join_delta d p hd⟩

theorem writeRemainder_inbounds (p r U1 : Nat) :
    ∀ (fuel : Nat) (c : List Nat) (bi bs i : Nat),
      bs < 8 → 8 * i + bs = U1 + bi → U1 + p ≤ 8 * c.length → p ≤ bi + fuel →
      ∃ c', writeRemainder fuel p r c bi bs i = .ok c' ∧ c'.length = c.length := by
  intro fuel
  induction fuel with
  | zero =>
    intro c bi bs i _ _ _ hf
    exact ⟨c, by simp [writeRemainder]; omega, rfl⟩
  | succ fuel ih =>
    intro c bi bs i hbs hpos hlen hf
    by_cases hlt : bi < p
    · have hi : i < c.length := by omega
      obtain ⟨c', hc', hl'⟩ := ih (c.set i (c.getD i 0 ||| toChar ((r >>> bi) <<< bs)))
        (bi + (8 - bs)) 0 (i + 1) (by omega) (by omega) (by simpa using hlen) (by omega)
      refine ⟨c', ?_, by simpa using hl'⟩
      simp only [writeRemainder, hlt, if_true, orAt_eq c i _ hi, CHAR_SIZE, bind, Except.bind]
      exact hc'
    · exact ⟨c, by simp [writeRemainder, hlt], rfl⟩

theorem writeGap_total (div : Nat) (st : EncState) (curr_idx quotient remainder : Nat) :
    (st.res_idx + quotient) / 8 < DIV_CEIL (st.res_idx + (quotient + 1 + div)) 8 ∧
    ∃ st', writeGap div st curr_idx quotient remainder = .ok st' ∧
      st'.compressed.length = DIV_CEIL (st.res_idx + (quotient + 1 + div)) 8 ∧
      st'.res_idx = st.res_idx + (quotient + 1 + div) ∧ st'.prev_idx = curr_idx := by
  have hc1len := length_resize st.compressed (DIV_CEIL (st.res_idx + (quotient + 1 + div)) 8)
  obtain ⟨c1, hc1⟩ : ∃ c1, resize st.compressed (DIV_CEIL (st.res_idx + (quotient + 1 + div)) 8)
      = c1 := ⟨_, rfl⟩
  rw [hc1] at hc1len
  rw [div_ceil_8] at hc1len ⊢
  have hU : (st.res_idx + quotient) / 8 < c1.length := by rw [hc1len]; omega
  have hc2or := orAt_eq c1 ((st.res_idx + quotient) / 8)
    (toChar (1 <<< ((st.res_idx + quotient) % 8))) hU
  obtain ⟨c2, hc2⟩ : ∃ c2, c1.set ((st.res_idx + quotient) / 8)
      (c1.getD ((st.res_idx + quotient) / 8) 0 ||| toChar (1 <<< ((st.res_idx + quotient) % 8)))
      = c2 := ⟨_, rfl⟩
  have hc2len : c2.length = c1.length := by rw [← hc2]; simp
  rw [hc2] at hc2or
  obtain ⟨c3, hc3, hc3len⟩ := writeRemainder_inbounds div remainder (st.res_idx + quotient + 1)
    div c2 0 ((st.res_idx + quotient + 1) % 8) ((st.res_idx + quotient + 1) / 8)
    (Nat.mod_lt _ (by omega)) (by omega) (by rw [hc2len, hc1len]; omega) (by omega)
  refine ⟨by omega, ⟨c3, st.res_idx + (quotient + 1 + div), curr_idx⟩, ?_, ?_, rfl, rfl⟩
  · simp only [writeGap, CHAR_SIZE, hc1, hc2or, hc3, bind, Except.bind, pure, Except.pure]
  · simp only [hc3len, hc2len, hc1len]

theorem encFold_eq_gapFold (div : Nat) : ∀ (xs : List Nat) (st : EncState),
    encFold div st xs = encGapFold div st xs (gapsFrom st.prev_idx xs) := by
  intro xs
  induction xs with
  | nil => intro st; rfl
  | cons x xs ih =>
    intro st
    simp only [encFold, gapsFrom, encGapFold, bind, Except.bind, encodeBit_eq_split]
    cases hs : splitGap div (x - st.prev_idx) with
    | error e => rfl
    | ok v =>
      obtain ⟨q, r⟩ := v
      simp only []
      obtain ⟨_, st1, h1, _, _, hprev⟩ := writeGap_total div st x q r
      rw [h1]
      simp only []
      rw [ih st1, hprev]

theorem sumsFrom_take : ∀ (ds : List Nat) (ps n : Nat),
    sumsFrom ps (ds.take n) = (sumsFrom ps ds).take n := by
  intro ds
  induction ds with
  | nil => intro ps n; simp [sumsFrom]
  | cons d ds ih =>
    intro ps n
    cases n with
    | zero => simp [sumsFrom]
    | succ n => simp [sumsFrom, ih]

theorem sumsFrom_append : ∀ (l1 l2 : List Nat) (ps : Nat),
    ∃ ps', sumsFrom ps (l1 ++ l2) = sumsFrom ps l1 ++ sumsFrom ps' l2 := by
  intro l1
  induction l1 with
  | nil => intro l2 ps; exact ⟨ps, rfl⟩
  | cons d ds ih =>
    intro l2 ps
    obtain ⟨ps', h⟩ := ih l2 (ps + d)
    exact ⟨ps', by simp [sumsFrom, h]⟩

theorem bitAt_take (s : List Nat) (m k : Nat) :
    bitAt (s.take m) k = (decide (k < 8 * m) && bitAt s k) := by
  unfold bitAt
  simp only [List.getD_eq_getElem?_getD, List.getElem?_take]
  by_cases h : k < 8 * m
  · have : k / 8 < m := by omega
    simp [h, this]
  · have : ¬ k / 8 < m := by omega
    simp [h, this]

theorem wfBytes_take (s : List Nat) (m : Nat) (h : wfBytes s) : wfBytes (s.take m) :=
  fun b hb => h b (List.mem_of_mem_take hb)

theorem totalBits_append (p : Nat) : ∀ (l1 l2 : List Nat),
    totalBits p (l1 ++ l2) = totalBits p l1 + totalBits p l2
  | [], _ => by simp [totalBits]
  | d :: l1, l2 => by
    show (d >>> p + 1 + p) + totalBits p (l1 ++ l2) = (d >>> p + 1 + p) + totalBits p l1 + _
    rw [totalBits_append p l1 l2]
    omega

theorem decode_stream (s : List Nat) (p L : Nat) (ds : List Nat) (hw : wfBytes s) (hne : s ≠ [])
    (hp : p < 64) (hbits : ∀ j, bitAt s j = nthBit (codewords p ds) j)
    (hlen : totalBits p ds ≤ 8 * s.length)
    (hsum : ∀ x ∈ sumsFrom 0 ds, x < 8 * L) (h64 : 8 * L ≤ 2 ^ 64) :
    ∃ st, golomb_decompress_run s p L = .ok (some st) ∧
      golomb_decompress s p L = .ok st.res ∧ st.res.length = L ∧ wfBytes st.res ∧
      (∀ k, bitAt st.res k = decide (k ∈ sumsFrom 0 ds)) ∧
      st.trace = traceFrom p 0 0 ds := by
  have hle := length_le_codewords p ds
  rw [length_codewords] at hle
  obtain ⟨st, hst, hl, hwr, hb, ht⟩ := decodeLoop_codewords s p hw hp ds
    (CHAR_SIZE * s.length + 1)
    { it := 0, offset := 0, prefix_sum := 0, res := List.replicate L 0, trace := [] }
    (by simp) (by simp) (wfBytes_replicate_zero _)
    (fun j => by simpa using hbits j)
    (by rw [length_codewords]; simpa using hlen)
    (fun x hx => by simpa using hsum x hx)
    (by simpa using h64) (by simp only [CHAR_SIZE]; omega)
  have hrun : golomb_decompress_run s p L = .ok (some st) := by
    simp only [golomb_decompress_run, hne, if_false, hst, bind, Except.bind, pure, Except.pure]
  refine ⟨st, hrun, ?_, by simpa using hl, hwr, ?_, by simpa using ht⟩
  · simp only [golomb_decompress, hrun, bind, Except.bind, pure, Except.pure]
  · intro k
    rw [hb k]
    simp only [bitAt_replicate_zero, Bool.false_or]

theorem compress_ok_cases (estimate : List Nat → Nat) (B : List Nat) (div_param : Int)
    (c : GolombCompressed) (hw : wfBytes B) (hne : ∃ k, bitAt B k = true)
    (hc : golomb_compress estimate B div_param = .ok c) :
    chosenDiv estimate B div_param < 31 ∧ c.div = chosenDiv estimate B div_param ∧
      c.compressed ≠ [] ∧
      c.compressed.length = DIV_CEIL (totalBits c.div (gaps B)) 8 ∧ wfBytes c.compressed ∧
      (∀ k, bitAt c.compressed k = nthBit (codewords c.div (gaps B)) k) := by
  have hnil := setBits_ne_nil_of_bit B hne
  have hp : chosenDiv estimate B div_param < 31 := by
    by_contra h
    rw [golomb_compress_ub estimate B div_param hw hnil (by omega)] at hc
    cases hc
  obtain ⟨c', hc', hl, hcw, hbits, _⟩ := golomb_compress_stream estimate B div_param hw hne hp
  have hc'ne : c' ≠ [] := by
    intro h0
    rw [h0, div_ceil_8] at hl
    have hle := length_le_codewords (chosenDiv estimate B div_param) (gaps B)
    rw [length_codewords] at hle
    have hgl : (gaps B).length = (setBits B).length := length_gapsFrom _ _
    have hpos : 0 < (setBits B).length := List.length_pos.mpr hnil
    simp only [List.length_nil] at hl
    omega
  rw [hc] at hc'
  injection hc' with hc'
  subst hc'
  exact ⟨hp, rfl, hc'ne, hl, hcw, hbits⟩

theorem decode_valid (estimate : List Nat → Nat) (B : List Nat) (div_param : Int)
    (c : GolombCompressed) (L : Nat) (hw : wfBytes B) (hne : ∃ k, bitAt B k = true)
    (hc : golomb_compress estimate B div_param = .ok c) (hL : B.length ≤ L)
    (h64 : 8 * L ≤ 2 ^ 64) :
    ∃ st, golomb_decompress_run c.compressed c.div L = .ok (some st) ∧
      golomb_decompress c.compressed c.div L = .ok st.res ∧ st.res.length = L ∧
      wfBytes st.res ∧ (∀ k, bitAt st.res k = bitAt B k) ∧
      st.trace = traceFrom c.div 0 0 (gaps B) := by
  obtain ⟨hp, _, hcne, hl, hcw, hbits⟩ := compress_ok_cases estimate B div_param c hw hne hc
  rw [div_ceil_8] at hl
  obtain ⟨st, h1, h2, h3, h4, h5, h6⟩ := decode_stream c.compressed c.div L (gaps B) hcw hcne
    (by omega) hbits (by omega)
    (fun x hx => by
      rw [sumsFrom_gaps] at hx
      have := lt_of_mem_setBits B x hx
      omega) h64
  refine ⟨st, h1, h2, h3, h4, fun k => ?_, h6⟩
  rw [h5 k, sumsFrom_gaps]
  by_cases hk : bitAt B k = true
  · rw [hk]; exact decide_eq_true ((mem_setBits B k).mpr hk)
  · rw [decide_eq_false (fun hm => hk ((mem_setBits B k).mp hm))]
    simpa using hk

theorem decode_truncated (estimate : List Nat → Nat) (B : List Nat) (div_param : Int)
    (c : GolombCompressed) (m : Nat) (ds1 ds2 : List Nat) (hw : wfBytes B)
    (h64 : 8 * B.length ≤ 2 ^ 64) (hne : ∃ k, bitAt B k = true)
    (hc : golomb_compress estimate B div_param = .ok c)
    (hm0 : 0 < m) (hm : m < c.compressed.length) (hsplit : gaps B = ds1 ++ ds2)
    (hfit : totalBits c.div ds1 ≤ 8 * m)
    (hcut : ∀ d ∈ ds2.head?, 8 * m ≤ totalBits c.div ds1 + (d >>> c.div)) :
    ∃ st, golomb_decompress_run (c.compressed.take m) c.div B.length = .ok (some st) ∧
      golomb_decompress (c.compressed.take m) c.div B.length = .ok st.res ∧
      st.res.length = B.length ∧
      writtenPositions (some st) = (setBits B).take ds1.length ∧
      (∀ k, bitAt st.res k = decide (k ∈ (setBits B).take ds1.length)) := by
  obtain ⟨hp, _, hcne, hl, hcw, hbits⟩ := compress_ok_cases estimate B div_param c hw hne hc
  have hsums : sumsFrom 0 ds1 = (setBits B).take ds1.length := by
    rw [← sumsFrom_gaps, ← sumsFrom_take, hsplit, List.take_left]
  have hPlen : (c.compressed.take m).length = m := by
    rw [List.length_take]; omega
  have hPne : c.compressed.take m ≠ [] := by
    intro h0
    rw [h0] at hPlen
    simp at hPlen
    omega
  obtain ⟨st, h1, h2, h3, _, h5, h6⟩ := decode_stream (c.compressed.take m) c.div B.length ds1
    (wfBytes_take _ _ hcw) hPne (by omega)
    (fun j => by
      rw [bitAt_take, hbits j, hsplit, codewords_append, nthBit_append, length_codewords]
      by_cases hj : j < totalBits c.div ds1
      · have : j < 8 * m := by omega
        simp only [hj, this, decide_True, Bool.true_and, if_true]
      · rw [if_neg hj, nthBit_of_ge _ j (by rw [length_codewords]; omega)]
        by_cases hj2 : j < 8 * m
        · simp only [hj2, decide_True, Bool.true_and]
          cases ds2 with
          | nil => rfl
          | cons d rest =>
            have hd := hcut d (by simp)
            show nthBit (codeword c.div d ++ codewords c.div rest) _ = false
            rw [nthBit_append, length_codeword, if_pos (by omega), nthBit_codeword]
            have e1 : ¬ (j - totalBits c.div ds1 = d >>> c.div) := by omega
            have e2 : ¬ (d >>> c.div < j - totalBits c.div ds1 ∧
              j - totalBits c.div ds1 ≤ d >>> c.div + c.div) := by omega
            simp only [e1, e2, decide_False, Bool.false_and, Bool.or_false]
        · simp only [hj2, decide_False, Bool.false_and])
    (by rw [hPlen]; exact hfit)
    (fun x hx => by
      rw [hsums] at hx
      exact lt_of_mem_setBits B x (List.mem_of_mem_take hx)) h64
  refine ⟨st, h1, h2, h3, ?_, fun k => by rw [h5 k, hsums]⟩
  show st.trace.map Prod.fst = _
  rw [h6, map_fst_traceFrom, hsums]

theorem bitAt_append_zeros (s : List Nat) (k j : Nat) :
    bitAt (s ++ List.replicate k 0) j = bitAt s j := by
  unfold bitAt
  simp only [List.getD_eq_getElem?_getD]
  by_cases h : j / 8 < s.length
  · rw [List.getElem?_append_left h]
  · rw [List.getElem?_append_right (by omega), List.getElem?_eq_none (by omega : s.length ≤ j / 8),
      List.getElem?_replicate]
    split <;> simp

theorem wfBytes_append_zeros (s : List Nat) (k : Nat) (h : wfBytes s) :
    wfBytes (s ++ List.replicate k 0) := by
  intro b hb
  rcases List.mem_append.mp hb with hb | hb
  · exact h b hb
  · have := List.eq_of_mem_replicate hb
    omega

theorem deref_append (s z : List Nat) (it c : Nat) (h : deref s it = .ok c) :
    deref (s ++ z) it = .ok c := by
  by_cases hit : it < s.length
  · rw [deref_eq s it hit] at h
    rw [deref_eq (s ++ z) it (by simp; omega)]
    rw [← h]
    simp only [List.getD_eq_getElem?_getD, List.getElem?_append_left hit]
  · simp [deref, hit] at h

theorem readRemainder_append (s z : List Nat) (p : Nat) :
    ∀ (fuel it bs bi r : Nat) (v : Nat × Nat),
      readRemainder fuel s p it bs bi r = .ok v → readRemainder fuel (s ++ z) p it bs bi r = .ok v := by
  intro fuel
  induction fuel with
  | zero =>
    intro it bs bi r v h
    by_cases hlt : bi < p
    · simp [readRemainder, hlt] at h
    · simpa [readRemainder, hlt] using h
  | succ fuel ih =>
    intro it bs bi r v h
    by_cases hlt : bi < p
    · simp only [readRemainder, hlt, if_true, bind, Except.bind] at h ⊢
      cases hd : deref s it with
      | error e => rw [hd] at h; cases h
      | ok c =>
        rw [hd] at h
        rw [deref_append s z it c hd]
        simp only [] at h ⊢
        by_cases h64 : 64 ≤ bi
        · simp [h64, throw, throwThe, MonadExceptOf.throw] at h
        · simp only [h64, if_false, pure, Except.pure] at h ⊢
          exact ih _ _ _ _ v h
    · simpa [readRemainder, hlt] using h

theorem decodeStep_append (s : List Nat) (k p : Nat) (st : DecState) (r : Option DecState)
    (hw : wfBytes s) (hoff : st.offset < 8) (hit : st.it ≤ s.length)
    (h : decodeStep s p st = .ok r) :
    decodeStep (s ++ List.replicate k 0) p st = .ok r := by
  by_cases hz : ∀ j, 8 * st.it + st.offset ≤ j → bitAt s j = false
  · rw [decodeStep_end s p st hw hoff hit hz] at h
    rw [decodeStep_end (s ++ List.replicate k 0) p st (wfBytes_append_zeros s k hw) hoff
      (by simp; omega) (fun j hj => by rw [bitAt_append_zeros]; exact hz j hj)]
    exact h
  · push_neg at hz
    have hex : ∃ j, 8 * st.it + st.offset ≤ j ∧ bitAt s j = true := by
      obtain ⟨j, hj1, hj2⟩ := hz
      exact ⟨j, hj1, by simpa using hj2⟩
    obtain ⟨ht1, ht2⟩ := Nat.find_spec hex
    have hmin : ∀ j, 8 * st.it + st.offset ≤ j → j < Nat.find hex → bitAt s j = false := by
      intro j hj1 hj2
      have := Nat.find_min hex hj2
      by_contra hne
      exact this ⟨hj1, by simpa using hne⟩
    generalize Nat.find hex = t at ht1 ht2 hmin
    rw [decodeStep_found s p t st hw hoff ht1 hmin ht2] at h
    rw [decodeStep_found (s ++ List.replicate k 0) p t st (wfBytes_append_zeros s k hw) hoff ht1
      (fun j hj1 hj2 => by rw [bitAt_append_zeros]; exact hmin j hj1 hj2)
      (by rw [bitAt_append_zeros]; exact ht2)]
    cases hrd : readRemainder p s p ((t + 1) / 8) ((t + 1) % 8) 0 0 with
    | error e => rw [hrd] at h; cases h
    | ok v =>
      rw [readRemainder_append s _ p p _ _ _ _ v hrd]
      rw [hrd] at h
      exact h

theorem decodeLoop_append (s : List Nat) (k p : Nat) (hw : wfBytes s) :
    ∀ (fuel fuel' : Nat) (st stf : DecState), st.offset < 8 →
      8 * st.it + st.offset ≤ 8 * s.length → fuel ≤ fuel' →
      decodeLoop fuel s p st = .ok stf →
      decodeLoop fuel' (s ++ List.replicate k 0) p st = .ok stf := by
  intro fuel
  induction fuel with
  | zero => intro fuel' st stf _ _ _ h; simp [decodeLoop] at h
  | succ fuel ih =>
    intro fuel' st stf hoff hcur hf h
    cases fuel' with
    | zero => omega
    | succ fuel' =>
      simp only [decodeLoop, bind, Except.bind] at h ⊢
      cases hs : decodeStep s p st with
      | error e => rw [hs] at h; cases h
      | ok r =>
        rw [hs] at h
        rw [decodeStep_append s k p st r hw hoff (by omega) hs]
        cases r with
        | none => exact h
        | some st1 =>
          simp only [] at h ⊢
          rcases decodeStep_progress s p st hw hoff (by omega) with h1 | h1 | ⟨st', h1, h2, h3, _, _⟩
          · rw [h1] at hs; cases hs
          · rw [h1] at hs; cases hs
          · rw [h1] at hs
            injection hs with hs
            injection hs with hs
            subst hs
            exact ih fuel' st' stf h2 h3 (by omega) h

theorem golomb_decompress_append_zeros (s : List Nat) (k p L : Nat) (res : List Nat)
    (hw : wfBytes s) (hne : s ≠ []) (h : golomb_decompress s p L = .ok res) :
    golomb_decompress (s ++ List.replicate k 0) p L = .ok res := by
  have hne' : s ++ List.replicate k 0 ≠ [] := by
    intro h0
    exact hne (List.append_eq_nil.mp h0).1
  simp only [golomb_decompress, golomb_decompress_run, hne, hne', if_false, bind, Except.bind,
    pure, Except.pure] at h ⊢
  cases hl : decodeLoop (CHAR_SIZE * s.length + 1) s p
      { it := 0, offset := 0, prefix_sum := 0, res := List.replicate L 0, trace := [] } with
  | error e => rw [hl] at h; cases h
  | ok stf =>
    rw [hl] at h
    have h2 := decodeLoop_append s k p hw (CHAR_SIZE * s.length + 1)
      (CHAR_SIZE * (s ++ List.replicate k 0).length + 1) _ stf
      (by simp) (by simp) (by simp only [CHAR_SIZE, List.length_append]; omega) hl
    rw [h2]
    exact h

theorem golomb_decompress_all_zero (s : List Nat) (p L : Nat) (hne : s ≠ [])
    (hz : ∀ b ∈ s, b = 0) :
    golomb_decompress s p L = .ok (List.replicate L 0) := by
  have hw := wfBytes_of_zero s hz
  have hbits : ∀ j, bitAt s j = false := by
    intro j
    by_cases hb : bitAt s j = true
    · have := (mem_setBits s j).mpr hb
      rw [show setBits s = setBitsFrom 0 s from rfl, setBits_eq_nil_of_zero s 0 hz] at this
      exact absurd this (List.not_mem_nil _)
    · simpa using hb
  have hend := decodeStep_end s p
    { it := 0, offset := 0, prefix_sum := 0, res := List.replicate L 0, trace := [] } hw
    (by simp) (by simp) (fun j _ => hbits j)
  simp only [golomb_decompress, golomb_decompress_run, hne, if_false, decodeLoop, hend, bind,
    Except.bind, pure, Except.pure]

theorem decodeStep_shape (s : List Nat) (p : Nat) (st st' : DecState) (hw : wfBytes s)
    (hoff : st.offset < 8) (hit : st.it ≤ s.length)
    (h : decodeStep s p st = .ok (some st')) :
    ∃ x e, x / 8 < st.res.length ∧ st'.prefix_sum = x ∧
      st'.res = st.res.set (x / 8) (st.res.getD (x / 8) 0 ||| toChar (1 <<< (x % 8))) ∧
      st'.trace = st.trace ++ [(x, e)] := by
  by_cases hz : ∀ k, 8 * st.it + st.offset ≤ k → bitAt s k = false
  · rw [decodeStep_end s p st hw hoff hit hz] at h
    cases h
  · push_neg at hz
    have hex : ∃ k, 8 * st.it + st.offset ≤ k ∧ bitAt s k = true := by
      obtain ⟨k, hk1, hk2⟩ := hz
      exact ⟨k, hk1, by simpa using hk2⟩
    obtain ⟨ht1, ht2⟩ := Nat.find_spec hex
    have hmin : ∀ k, 8 * st.it + st.offset ≤ k → k < Nat.find hex → bitAt s k = false := by
      intro k hk1 hk2
      have := Nat.find_min hex hk2
      by_contra hne
      exact this ⟨hk1, by simpa using hne⟩
    generalize Nat.find hex = t at ht1 ht2 hmin
    rw [decodeStep_found s p t st hw hoff ht1 hmin ht2] at h
    cases hrd : readRemainder p s p ((t + 1) / 8) ((t + 1) % 8) 0 0 with
    | error e => rw [hrd] at h; cases h
    | ok v =>
      obtain ⟨it, r⟩ := v
      rw [hrd] at h
      simp only [] at h
      by_cases h64 : 64 ≤ p
      · simp only [h64, if_true] at h
        cases h
      · simp only [h64, if_false] at h
        obtain ⟨x, hx⟩ : ∃ x, (st.prefix_sum +
            ((((t - (8 * st.it + st.offset)) <<< p) % 2 ^ 64) ||| r)) % 2 ^ 64 = x := ⟨_, rfl⟩
        rw [hx] at h
        by_cases hres : x / 8 < st.res.length
        · rw [orAt_eq st.res _ _ hres] at h
          injection h with h
          injection h with h
          subst h
          exact ⟨x, _, hres, rfl, rfl, rfl⟩
        · simp only [orAt, hres, dite_false] at h
          cases h

theorem decodeStep_trace (s : List Nat) (p : Nat) (st st' : DecState) (hw : wfBytes s)
    (hoff : st.offset < 8) (hit : st.it ≤ s.length)
    (h : decodeStep s p st = .ok (some st')) :
    st'.trace.length = st.trace.length + 1 := by
  obtain ⟨x, e, _, _, _, ht⟩ := decodeStep_shape s p st st' hw hoff hit h
  rw [ht]
  simp

theorem decodeLoop_bits (s : List Nat) (p : Nat) (hw : wfBytes s) :
    ∀ (fuel : Nat) (st stf : DecState), st.offset < 8 → 8 * st.it + st.offset ≤ 8 * s.length →
      decodeLoop fuel s p st = .ok stf →
      (∀ k, bitAt st.res k = decide (k ∈ st.trace.map Prod.fst)) →
      ∀ k, bitAt stf.res k = decide (k ∈ stf.trace.map Prod.fst) := by
  intro fuel
  induction fuel with
  | zero => intro st stf _ _ h; simp [decodeLoop] at h
  | succ fuel ih =>
    intro st stf hoff hcur h hinv
    simp only [decodeLoop, bind, Except.bind] at h
    cases hs : decodeStep s p st with
    | error e => rw [hs] at h; cases h
    | ok r =>
      rw [hs] at h
      cases r with
      | none =>
        simp only [pure, Except.pure] at h
        injection h with h
        subst h
        exact hinv
      | some st1 =>
        simp only [] at h
        obtain ⟨x, e, hx, _, hres, htr⟩ := decodeStep_shape s p st st1 hw hoff (by omega) hs
        rcases decodeStep_progress s p st hw hoff (by omega) with h1 | h1 | ⟨st', h1, h2, h3, _, _⟩
        · rw [h1] at hs; cases hs
        · rw [h1] at hs; cases hs
        · rw [h1] at hs
          injection hs with hs
          injection hs with hs
          subst hs
          refine ih st' stf h2 h3 h (fun k => ?_)
          rw [hres, htr, bitAt_set_bit st.res x k hx, hinv k]
          simp only [List.map_append, List.map_cons, List.map_nil, List.mem_append,
            List.mem_singleton, Bool.decide_or]

theorem golomb_decompress_run_bits (s : List Nat) (p L : Nat) (st : DecState) (hw : wfBytes s)
    (h : golomb_decompress_run s p L = .ok (some st)) :
    s ≠ [] ∧ golomb_decompress s p L = .ok st.res ∧ st.res.length = L ∧
      ∀ k, bitAt st.res k = true ↔ k ∈ writtenPositions (some st) := by
  have hne : s ≠ [] := by
    intro h0
    subst h0
    simp [golomb_decompress_run] at h
  refine ⟨hne, ?_, ?_, ?_⟩
  · simp only [golomb_decompress, h, bind, Except.bind, pure, Except.pure]
  · rcases golomb_decompress_total s p L hw hne with h1 | ⟨res, h1, h2⟩
    · simp only [golomb_decompress, h, bind, Except.bind, pure, Except.pure] at h1
      cases h1
    · simp only [golomb_decompress, h, bind, Except.bind, pure, Except.pure] at h1
      injection h1 with h1
      rw [h1]
      exact h2
  · simp only [golomb_decompress_run, hne, if_false, bind, Except.bind, pure, Except.pure] at h
    cases hl : decodeLoop (CHAR_SIZE * s.length + 1) s p
        { it := 0, offset := 0, prefix_sum := 0, res := List.replicate L 0, trace := [] } with
    | error e => rw [hl] at h; cases h
    | ok stf =>
      rw [hl] at h
      injection h with h
      injection h with h
      subst h
      have := decodeLoop_bits s p hw _ _ _ (by simp) (by simp) hl
        (fun k => by simp [bitAt_replicate_zero])
      intro k
      rw [this k]
      simp [writtenPositions]

theorem decodeLoop_iterations (s : List Nat) (p : Nat) (hw : wfBytes s) :
    ∀ (fuel : Nat) (st stf : DecState), st.offset < 8 → 8 * st.it + st.offset ≤ 8 * s.length →
      decodeLoop fuel s p st = .ok stf →
      stf.trace.length + (8 * st.it + st.offset) ≤ st.trace.length + 8 * s.length := by
  intro fuel
  induction fuel with
  | zero => intro st stf _ _ h; simp [decodeLoop] at h
  | succ fuel ih =>
    intro st stf hoff hcur h
    simp only [decodeLoop, bind, Except.bind] at h
    cases hs : decodeStep s p st with
    | error e => rw [hs] at h; cases h
    | ok r =>
      rw [hs] at h
      cases r with
      | none =>
        simp only [pure, Except.pure] at h
        injection h with h
        subst h
        omega
      | some st1 =>
        simp only [] at h
        have htr := decodeStep_trace s p st st1 hw hoff (by omega) hs
        rcases decodeStep_progress s p st hw hoff (by omega) with h1 | h1 | ⟨st', h1, h2, h3, h4, _⟩
        · rw [h1] at hs; cases hs
        · rw [h1] at hs; cases hs
        · rw [h1] at hs
          injection hs with hs
          injection hs with hs
          subst hs
          have := ih st' stf h2 h3 h
          omega

theorem golomb_decompress_run_terminates (s : List Nat) (p L : Nat) (hw : wfBytes s) :
    golomb_decompress_run s p L ≠ .error .outOfFuel ∧
      ∀ st, golomb_decompress_run s p L = .ok (some st) → st.trace.length ≤ 8 * s.length := by
  by_cases hne : s = []
  · subst hne
    exact ⟨by simp [golomb_decompress_run], fun st h => by simp [golomb_decompress_run] at h⟩
  · constructor
    · rcases decodeLoop_total s p hw (CHAR_SIZE * s.length + 1)
        { it := 0, offset := 0, prefix_sum := 0, res := List.replicate L 0, trace := [] }
        (by simp) (by simp) (by simp only [CHAR_SIZE]; omega) with h | ⟨st, h, _⟩
      · simp only [golomb_decompress_run, hne, if_false, h, bind, Except.bind]
        intro hc; cases hc
      · simp only [golomb_decompress_run, hne, if_false, h, bind, Except.bind, pure, Except.pure]
        intro hc; cases hc
    · intro st h
      simp only [golomb_decompress_run, hne, if_false, bind, Except.bind, pure, Except.pure] at h
      cases hl : decodeLoop (CHAR_SIZE * s.length + 1) s p
          { it := 0, offset := 0, prefix_sum := 0, res := List.replicate L 0, trace := [] } with
      | error e => rw [hl] at h; cases h
      | ok stf =>
        rw [hl] at h
        injection h with h
        injection h with h
        subst h
        have := decodeLoop_iterations s p hw _ _ _ (by simp) (by simp) hl
        simpa using this

theorem golomb_compress_terminates (estimate : List Nat → Nat) (B : List Nat) (div_param : Int)
    (hw : wfBytes B) :
    golomb_compress estimate B div_param = .error .undefinedBehaviour ∨
      ∃ c, golomb_compress estimate B div_param = .ok c := by
  by_cases hnil : setBits B = []
  · exact Or.inr ⟨_, golomb_compress_of_no_set_bit estimate B div_param hw hnil⟩
  · by_cases hp : chosenDiv estimate B div_param < 31
    · obtain ⟨c, hc, _⟩ := golomb_compress_spec estimate B div_param hw hnil hp
      exact Or.inr ⟨_, hc⟩
    · exact Or.inl (golomb_compress_ub estimate B div_param hw hnil (by omega))

theorem exists_bits (f : Nat → Bool) : ∀ p : Nat, ∃ r, r < 2 ^ p ∧ ∀ j < p, r.testBit j = f j := by
  intro p
  induction p with
  | zero => exact ⟨0, by simp, fun j hj => by omega⟩
  | succ p ih =>
    obtain ⟨r, hr, hb⟩ := ih
    refine ⟨r ||| ((if f p then 1 else 0) <<< p), ?_, ?_⟩
    · apply Nat.or_lt_two_pow (lt_of_lt_of_le hr (Nat.pow_le_pow_right (by omega) (by omega)))
      rw [Nat.shiftLeft_eq, Nat.pow_succ]
      split
      · have : 0 < 2 ^ p := by positivity
        omega
      · simp
    · intro j hj
      rw [Nat.testBit_or, Nat.testBit_shiftLeft]
      by_cases hjp : j < p
      · have e : ¬ j ≥ p := by omega
        simp only [hb j hjp, e, decide_False, Bool.false_and, Bool.or_false]
      · have e : j = p := by omega
        subst e
        rw [testBit_eq_false_of_lt r j j hr (Nat.le_refl _)]
        cases f j <;> simp

theorem sum_gapsFrom : ∀ (l : List Nat) (prev : Nat), (∀ x ∈ l, prev ≤ x) →
    l.Pairwise (· < ·) → (gapsFrom prev l).sum + prev = lastPos prev l
  | [], _, _, _ => by simp [gapsFrom, lastPos]
  | x :: xs, prev, hle, hs => by
    have hx : prev ≤ x := hle x (List.mem_cons_self _ _)
    have hs' := List.pairwise_cons.mp hs
    have ih := sum_gapsFrom xs x (fun y hy => Nat.le_of_lt (hs'.1 y hy)) hs'.2
    simp only [gapsFrom, lastPos, List.sum_cons]
    omega

theorem gapsFrom_pos : ∀ (l : List Nat) (prev : Nat), (∀ x ∈ l, prev < x) →
    l.Pairwise (· < ·) → ∀ d ∈ gapsFrom prev l, 1 ≤ d
  | [], _, _, _ => by simp [gapsFrom]
  | x :: xs, prev, hlt, hs => by
    have hx : prev < x := hlt x (List.mem_cons_self _ _)
    have hs' := List.pairwise_cons.mp hs
    have ih := gapsFrom_pos xs x hs'.1 hs'.2
    intro d hd
    simp only [gapsFrom, List.mem_cons] at hd
    rcases hd with hd | hd
    · omega
    · exact ih d hd

theorem tail_gapsFrom_pos (l : List Nat) (prev : Nat) (hs : l.Pairwise (· < ·)) :
    ∀ d ∈ (gapsFrom prev l).tail, 1 ≤ d := by
  cases l with
  | nil => simp [gapsFrom]
  | cons x xs =>
    have hs' := List.pairwise_cons.mp hs
    simpa [gapsFrom] using gapsFrom_pos xs x hs'.1 hs'.2

theorem getD_gapsFrom_succ : ∀ (l : List Nat) (prev i : Nat), i + 1 < l.length →
    (gapsFrom prev l).getD (i + 1) 0 = l.getD (i + 1) 0 - l.getD i 0
  | [], _, _, h => by simp at h
  | [_], _, _, h => by simp at h
  | x :: y :: ys, prev, 0, _ => by simp [gapsFrom]
  | x :: y :: ys, prev, i + 1, h => by
    have ih := getD_gapsFrom_succ (y :: ys) x i (by simpa using h)
    simpa [gapsFrom] using ih

theorem getD_lt_of_pairwise : ∀ (l : List Nat) (i : Nat), l.Pairwise (· < ·) →
    i + 1 < l.length → l.getD i 0 < l.getD (i + 1) 0
  | [], _, _, h => by simp at h
  | [_], _, _, h => by simp at h
  | x :: y :: ys, 0, hs, _ => by
    have hs' := List.pairwise_cons.mp hs
    simpa using hs'.1 y (List.mem_cons_self _ _)
  | x :: y :: ys, i + 1, hs, h => by
    have hs' := List.pairwise_cons.mp hs
    simpa using getD_lt_of_pairwise (y :: ys) i hs'.2 (by simpa using h)

theorem setBitsFrom_append : ∀ (s t : List Nat) (i : Nat),
    setBitsFrom i (s ++ t) = setBitsFrom i s ++ setBitsFrom (i + s.length) t
  | [], t, i => by simp [setBitsFrom]
  | b :: rest, t, i => by
    have ih := setBitsFrom_append rest t (i + 1)
    rw [show i + 1 + rest.length = i + (rest.length + 1) by omega] at ih
    show List.map (fun k => 8 * i + k) (byteBits b) ++ setBitsFrom (i + 1) (rest ++ t) = _
    rw [ih]
    simp only [setBitsFrom, List.length_cons, List.append_assoc]

theorem setBits_append_zeros (B : List Nat) (k : Nat) :
    setBits (B ++ List.replicate k 0) = setBits B := by
  unfold setBits
  rw [setBitsFrom_append, setBits_eq_nil_of_zero (List.replicate k 0) _
    (fun b hb => (List.mem_replicate.mp hb).2), List.append_nil]

theorem golomb_compress_congr (estimate : List Nat → Nat) (B1 B2 : List Nat) (div_param : Int)
    (h1 : wfBytes B1) (h2 : wfBytes B2) (h : setBits B1 = setBits B2) :
    golomb_compress estimate B1 div_param = golomb_compress estimate B2 div_param := by
  rw [golomb_compress_eq_fold estimate B1 div_param h1,
    golomb_compress_eq_fold estimate B2 div_param h2]
  have hd : chosenDiv estimate B1 div_param = chosenDiv estimate B2 div_param := by
    simp only [chosenDiv, gaps, h]
  rw [h, hd]

theorem encodeBit_clean (p : Nat) (hp : p < 31) (bits : List Bool) (st : EncState) (x : Nat)
    (hinv : EncInv bits st) :
    ∃ st', encodeBit p st x = .ok st' ∧
      st'.res_idx = st.res_idx + (((x - st.prev_idx) >>> p) + 1 + p) ∧
      st'.compressed.length = DIV_CEIL (st.res_idx + (((x - st.prev_idx) >>> p) + 1 + p)) 8 ∧
      (∀ k, k < st.res_idx → bitAt st'.compressed k = bitAt st.compressed k) ∧
      (∀ k, st.res_idx + (((x - st.prev_idx) >>> p) + 1 + p) ≤ k →
        bitAt st'.compressed k = false) := by
  obtain ⟨st', h1, h2, _⟩ := encodeBit_spec p hp bits st x hinv
  obtain ⟨a1, a2, _, a4⟩ := hinv
  obtain ⟨b1, b2, _, b4⟩ := h2
  have hl : (bits ++ codeword p (x - st.prev_idx)).length =
      st.res_idx + (((x - st.prev_idx) >>> p) + 1 + p) := by
    rw [List.length_append, length_codeword, a2]
  refine ⟨st', h1, ?_, ?_, ?_, ?_⟩
  · rw [b2, hl]
  · rw [b1, hl]
  · intro k hk
    rw [b4, a4, nthBit_append]
    simp only [show k < bits.length by omega, if_true]
  · intro k hk
    rw [b4]
    exact nthBit_of_ge _ _ (by omega)

theorem popcount_clearLowest (b : Nat) (hb : b < 256) (h0 : b ≠ 0) :
    (byteBits (clearLowest b)).length + 1 = (byteBits b).length ∧ clearLowest b < 256 := by
  obtain ⟨h1, h2⟩ := byteBits_step b hb h0
  refine ⟨?_, h2⟩
  rw [h1]
  simp

theorem setBits_eq_of_bitAt_eq (B1 B2 : List Nat) (h : ∀ j, bitAt B1 j = bitAt B2 j) :
    setBits B1 = setBits B2 := by
  have hp : (setBits B1).Perm (setBits B2) := by
    refine (List.perm_ext_iff_of_nodup ?_ ?_).mpr (fun a => ?_)
    · exact (sorted_setBits B1).imp (fun h => Nat.ne_of_lt h)
    · exact (sorted_setBits B2).imp (fun h => Nat.ne_of_lt h)
    · rw [mem_setBits, mem_setBits, h a]
  exact List.eq_of_perm_of_sorted hp (sorted_setBits B1) (sorted_setBits B2)

theorem golomb_compress_ub_iff (estimate : List Nat → Nat) (B : List Nat) (div_param : Int)
    (hw : wfBytes B) :
    golomb_compress estimate B div_param = .error .undefinedBehaviour ↔
      (setBits B ≠ [] ∧ 31 ≤ chosenDiv estimate B div_param) := by
  by_cases h0 : setBits B = []
  · rw [golomb_compress_of_no_set_bit estimate B div_param hw h0]
    constructor
    · intro h; cases h
    · intro h; exact absurd h0 h.1
  · by_cases hp : 31 ≤ chosenDiv estimate B div_param
    · exact ⟨fun _ => ⟨h0, hp⟩, fun _ => golomb_compress_ub estimate B div_param hw h0 hp⟩
    · obtain ⟨x, hx⟩ := List.exists_mem_of_ne_nil _ h0
      obtain ⟨c, hc, _⟩ := golomb_compress_stream estimate B div_param hw
        ⟨x, (mem_setBits B x).mp hx⟩ (by omega)
      rw [hc]
      constructor
      · intro h; cases h
      · intro h; exact absurd h.2 hp

theorem writeGap_spec (p d : Nat) (bits : List Bool) (st : EncState) (x : Nat)
    (hinv : EncInv bits st) :
    ∃ st', writeGap p st x (d >>> p) (d % 2 ^ p) = .ok st' ∧
      EncInv (bits ++ codeword p d) st' ∧ st'.prev_idx = x := by
  obtain ⟨hlen, hres, hwf, hbits⟩ := hinv
  rw [div_ceil_8] at hlen
  obtain ⟨q, hq⟩ : ∃ q, d >>> p = q := ⟨_, rfl⟩
  have hr : d % 2 ^ p < 2 ^ p := Nat.mod_lt _ (by positivity)
  obtain ⟨c1, hc1⟩ : ∃ c1, resize st.compressed (DIV_CEIL (st.res_idx + (q + 1 + p)) 8) = c1 :=
    ⟨_, rfl⟩
  have hc1len := length_resize st.compressed (DIV_CEIL (st.res_idx + (q + 1 + p)) 8)
  have hgrow : st.compressed.length ≤ DIV_CEIL (st.res_idx + (q + 1 + p)) 8 := by
    rw [hlen, hres, div_ceil_8]; omega
  have hc1bits := fun k => bitAt_resize st.compressed _ k hgrow
  have hc1wf := wfBytes_resize st.compressed (DIV_CEIL (st.res_idx + (q + 1 + p)) 8) hwf
  rw [hc1] at hc1len hc1wf
  simp only [hc1] at hc1bits
  rw [div_ceil_8] at hc1len
  have hU : (st.res_idx + q) / 8 < c1.length := by
    rw [hc1len]; omega
  obtain ⟨c2, hc2⟩ : ∃ c2, c1.set ((st.res_idx + q) / 8)
      (c1.getD ((st.res_idx + q) / 8) 0 ||| toChar (1 <<< ((st.res_idx + q) % 8))) = c2 :=
    ⟨_, rfl⟩
  have hc2or := orAt_eq c1 ((st.res_idx + q) / 8) (toChar (1 <<< ((st.res_idx + q) % 8))) hU
  have hc2bits := fun k => bitAt_orAt c1 ((st.res_idx + q) / 8)
    (toChar (1 <<< ((st.res_idx + q) % 8))) k hU
  have hc2wf : wfBytes c2 := by
    rw [← hc2]
    exact wfBytes_set _ _ _ hc1wf (or_lt_256 _ _ (getD_lt_of_wf c1 _ hc1wf) (toChar_lt _))
  have hc2len : c2.length = c1.length := by rw [← hc2]; simp
  rw [hc2] at hc2or
  simp only [hc2] at hc2bits
  obtain ⟨c3, hc3, hc3len, hc3wf, hc3bits⟩ := writeRemainder_spec p (d % 2 ^ p)
    (st.res_idx + q + 1) hr p c2 0 ((st.res_idx + q + 1) % 8)
    ((st.res_idx + q + 1) / 8) (Nat.mod_lt _ (by omega)) (by omega)
    (by rw [hc2len, hc1len]; omega) (by omega) hc2wf
  refine ⟨⟨c3, st.res_idx + (q + 1 + p), x⟩, ?_, ⟨?_, ?_, hc3wf, ?_⟩, rfl⟩
  · simp only [writeGap, hq, CHAR_SIZE, hc1, hc2or, hc3, bind, Except.bind, pure, Except.pure]
  · rw [hc3len, hc2len, hc1len, List.length_append, length_codeword, hres, div_ceil_8, hq]
  · simp only [List.length_append, length_codeword, hres, hq]
  · intro k
    rw [hc3bits k, hc2bits k, hc1bits k, hbits k, nthBit_append, nthBit_codeword,
      testBit_one_shl _ _ (Nat.mod_lt _ (by omega)) (Nat.mod_lt _ (by omega)),
      Nat.testBit_mod_two_pow, ← hres, Nat.add_zero, hq]
    by_cases h1 : k < st.res_idx
    · have e1 : ¬ (k / 8 = (st.res_idx + q) / 8 ∧ k % 8 = (st.res_idx + q) % 8) := by
        omega
      have e1' : (decide (k / 8 = (st.res_idx + q) / 8) &&
          decide (k % 8 = (st.res_idx + q) % 8)) = false := by simpa using e1
      have e2 : ¬ (st.res_idx + q + 1 ≤ k) := by omega
      simp only [e1', h1, e2, decide_False, Bool.false_and, Bool.or_false, if_true]
    · have hz : nthBit bits k = false := nthBit_of_ge bits k (by omega)
      rw [if_neg h1, hz]
      by_cases h2 : k = st.res_idx + q
      · have e1 : k - st.res_idx = q := by omega
        have e2 : k / 8 = (st.res_idx + q) / 8 := by rw [h2]
        have e3 : k % 8 = (st.res_idx + q) % 8 := by rw [h2]
        simp only [e1, e2, e3, decide_True, Bool.true_and, Bool.or_true, Bool.true_or,
          Bool.false_or]
      · have e1 : ¬ (k - st.res_idx = q) := by omega
        have e0 : ¬ (k / 8 = (st.res_idx + q) / 8 ∧ k % 8 = (st.res_idx + q) % 8) := by
          omega
        have e0' : (decide (k / 8 = (st.res_idx + q) / 8) &&
            decide (k % 8 = (st.res_idx + q) % 8)) = false := by simpa using e0
        rw [e0']
        by_cases h3 : st.res_idx + q + 1 ≤ k
        · by_cases h4 : k - (st.res_idx + q + 1) < p
          · have e5 : q < k - st.res_idx ∧ k - st.res_idx ≤ q + p := by omega
            have e6 : k - st.res_idx - q - 1 = k - (st.res_idx + q + 1) := by omega
            simp only [h3, h4, e1, e5, e6, decide_True, decide_False, Bool.true_and,
              Bool.false_or, and_self]
          · have e5 : ¬ (q < k - st.res_idx ∧ k - st.res_idx ≤ q + p) := by omega
            simp only [h3, h4, e1, e5, decide_True, decide_False, Bool.true_and,
              Bool.false_or, Bool.false_and]
        · have e5 : ¬ (q < k - st.res_idx ∧ k - st.res_idx ≤ q + p) := by omega
          simp only [h3, e1, e5, decide_False, Bool.false_or, Bool.false_and]

theorem shl_or_eq (p q r : Nat) (hr : r < 2 ^ p) :
    ((q <<< p) ||| r) >>> p = q ∧ ((q <<< p) ||| r) % 2 ^ p = r := by
  constructor
  · apply Nat.eq_of_testBit_eq
    intro m
    rw [Nat.testBit_shiftRight, Nat.testBit_or, Nat.testBit_shiftLeft,
      testBit_eq_false_of_lt r p (p + m) hr (by omega)]
    simp
  · apply Nat.eq_of_testBit_eq
    intro m
    rw [Nat.testBit_mod_two_pow, Nat.testBit_or, Nat.testBit_shiftLeft]
    by_cases h : m < p
    · have e : ¬ m ≥ p := by omega
      simp [h, e]
    · rw [testBit_eq_false_of_lt r p m hr (by omega)]
      simp [h]

theorem writeGap_codeword (p q r : Nat) (hr : r < 2 ^ p) (bits : List Bool) (st : EncState)
    (x : Nat) (hinv : EncInv bits st) :
    ∃ st', writeGap p st x q r = .ok st' ∧
      EncInv (bits ++ codeword p ((q <<< p) ||| r)) st' ∧ st'.prev_idx = x := by
  have h := writeGap_spec p ((q <<< p) ||| r) bits st x hinv
  rw [(shl_or_eq p q r hr).1, (shl_or_eq p q r hr).2] at h
  exact h

theorem and_lt_of_lt (d M p : Nat) (hM : M < 2 ^ p) : d &&& M < 2 ^ p :=
  lt_of_le_of_lt Nat.and_le_right hM

theorem maskedGap_shr (M p d : Nat) (hM : M < 2 ^ p) : maskedGap M p d >>> p = d >>> p :=
  (shl_or_eq p (d >>> p) (d &&& M) (and_lt_of_lt d M p hM)).1

theorem maskedGap_testBit (M p d m : Nat) :
    (maskedGap M p d).testBit m = ((decide (p ≤ m) || M.testBit m) && d.testBit m) := by
  unfold maskedGap
  rw [Nat.testBit_or, Nat.testBit_shiftLeft, Nat.testBit_shiftRight, Nat.testBit_and]
  by_cases h : p ≤ m
  · rw [show p + (m - p) = m by omega]
    have h' : m ≥ p := h
    simp only [h, h', decide_True, Bool.true_and, Bool.true_or]
    cases d.testBit m <;> simp
  · have h' : ¬ m ≥ p := h
    simp only [h, h', decide_False, Bool.false_and, Bool.false_or]
    exact Bool.and_comm _ _

theorem maskedGap_exact (p d : Nat) : maskedGap (2 ^ p - 1) p d = d := by
  apply Nat.eq_of_testBit_eq
  intro m
  rw [maskedGap_testBit, Nat.testBit_two_pow_sub_one]
  by_cases h : p ≤ m
  · simp [h]
  · have : m < p := by omega
    simp [h, this]

theorem totalBits_map_maskedGap (M p : Nat) (hM : M < 2 ^ p) : ∀ ds : List Nat,
    totalBits p (ds.map (maskedGap M p)) = totalBits p ds
  | [] => rfl
  | d :: ds => by
    simp only [List.map_cons, totalBits, maskedGap_shr M p d hM, totalBits_map_maskedGap M p hM ds]

theorem encodeBitMask_eq (M p : Nat) (st : EncState) (x : Nat) :
    encodeBitMask M p st x =
      if 64 ≤ p then .error .undefinedBehaviour
      else writeGap p st x ((x - st.prev_idx) >>> p) ((x - st.prev_idx) &&& M) := by
  by_cases h : 64 ≤ p
  · simp [encodeBitMask, h, bind, Except.bind, throw, throwThe, MonadExceptOf.throw]
  · simp only [encodeBitMask, writeGap, h, if_false, bind, Except.bind, pure, Except.pure]

theorem encodeBit_eq_mask (p : Nat) (hp : p < 31) (st : EncState) (x : Nat) :
    encodeBit p st x = encodeBitMask (2 ^ p - 1) p st x := by
  have h1 : ¬ 31 ≤ p := by omega
  have h2 : ¬ 64 ≤ p := by omega
  rw [encodeBit_eq_split, encodeBitMask_eq]
  simp only [splitGap, h1, h2, if_false, Nat.one_shiftLeft]

theorem encFold_eq_mask (p : Nat) (hp : p < 31) : ∀ (xs : List Nat) (st : EncState),
    encFold p st xs = encFoldMask (2 ^ p - 1) p st xs := by
  intro xs
  induction xs with
  | nil => intro st; rfl
  | cons x xs ih =>
    intro st
    simp only [encFold, encFoldMask, bind, Except.bind, encodeBit_eq_mask p hp]
    cases encodeBitMask (2 ^ p - 1) p st x with
    | error e => rfl
    | ok st1 => exact ih st1

theorem encFoldMask_append (M p : Nat) : ∀ (l1 l2 : List Nat) (st : EncState),
    encFoldMask M p st (l1 ++ l2) =
      match encFoldMask M p st l1 with
      | .error e => .error e
      | .ok st1 => encFoldMask M p st1 l2 := by
  intro l1
  induction l1 with
  | nil => intro l2 st; rfl
  | cons x xs ih =>
    intro l2 st
    simp only [List.cons_append, encFoldMask, bind, Except.bind]
    cases encodeBitMask M p st x with
    | error e => rfl
    | ok st1 => exact ih l2 st1

theorem encInnerMask_eq_fold (M p : Nat) : ∀ (fuel curr it : Nat) (st : EncState),
    curr < 256 → (byteBits curr).length ≤ fuel →
    encInnerMask M fuel p it curr st =
      encFoldMask M p st ((byteBits curr).map (fun k => 8 * it + k)) := by
  intro fuel
  induction fuel with
  | zero =>
    intro curr it st hc hf
    have h0 : curr = 0 := by
      by_contra hne
      rw [(byteBits_step curr hc hne).1] at hf
      simp at hf
    subst h0
    simp [encInnerMask, byteBits_zero, encFoldMask]
  | succ fuel ih =>
    intro curr it st hc hf
    by_cases h0 : curr = 0
    · subst h0
      simp [encInnerMask, byteBits_zero, encFoldMask]
    · obtain ⟨hstep, hlt⟩ := byteBits_step curr hc h0
      have hidx : CTZ (toUInt (schar curr)) + it * CHAR_SIZE = 8 * it + CTZ (toUInt (schar curr)) := by
        simp only [CHAR_SIZE]; omega
      rw [hstep]
      simp only [encInnerMask, h0, ne_eq, not_false_eq_true, if_true, bind, Except.bind, hidx,
        List.map_cons, encFoldMask]
      cases encodeBitMask M p st (8 * it + CTZ (toUInt (schar curr))) with
      | error e => rfl
      | ok st1 => exact ih (clearLowest curr) it st1 hlt (by rw [hstep] at hf; simpa using hf)

theorem encOuterMask_eq_fold (M p : Nat) : ∀ (s : List Nat) (it : Nat) (st : EncState),
    wfBytes s → encOuterMask M p s it st = encFoldMask M p st (setBitsFrom it s) := by
  intro s
  induction s with
  | nil => intro it st _; rfl
  | cons curr rest ih =>
    intro it st hw
    simp only [encOuterMask, bind, Except.bind, setBitsFrom, encFoldMask_append,
      encInnerMask_eq_fold M p 8 curr it st (hw curr (List.mem_cons_self _ _))
        (length_byteBits_le curr)]
    cases encFoldMask M p st ((byteBits curr).map (fun k => 8 * it + k)) with
    | error e => rfl
    | ok st1 => exact ih (it + 1) st1 (fun b hb => hw b (List.mem_cons_of_mem _ hb))

theorem encOuter_eq_mask (p : Nat) (hp : p < 31) (s : List Nat) (it : Nat) (st : EncState)
    (hw : wfBytes s) : encOuter p s it st = encOuterMask (2 ^ p - 1) p s it st := by
  rw [encOuter_eq_fold p s it st hw, encOuterMask_eq_fold _ p s it st hw, encFold_eq_mask p hp]

theorem encodeBitMask_spec (M p : Nat) (hp : p < 64) (hM : M < 2 ^ p) (bits : List Bool)
    (st : EncState) (x : Nat) (hinv : EncInv bits st) :
    ∃ st', encodeBitMask M p st x = .ok st' ∧
      EncInv (bits ++ codeword p (maskedGap M p (x - st.prev_idx))) st' ∧ st'.prev_idx = x := by
  have h : ¬ 64 ≤ p := by omega
  rw [encodeBitMask_eq, if_neg h]
  exact writeGap_codeword p _ _ (and_lt_of_lt _ M p hM) bits st x hinv

theorem encFoldMask_spec (M p : Nat) (hp : p < 64) (hM : M < 2 ^ p) :
    ∀ (xs : List Nat) (bits : List Bool) (st : EncState), EncInv bits st →
      ∃ st', encFoldMask M p st xs = .ok st' ∧
        EncInv (bits ++ codewords p ((gapsFrom st.prev_idx xs).map (maskedGap M p))) st' := by
  intro xs
  induction xs with
  | nil =>
    intro bits st hinv
    exact ⟨st, rfl, by simpa [gapsFrom, codewords] using hinv⟩
  | cons x xs ih =>
    intro bits st hinv
    obtain ⟨st1, h1, h2, h3⟩ := encodeBitMask_spec M p hp hM bits st x hinv
    obtain ⟨st', h4, h5⟩ := ih _ st1 h2
    refine ⟨st', ?_, ?_⟩
    · simp only [encFoldMask, h1, bind, Except.bind]
      exact h4
    · rw [h3] at h5
      simpa [gapsFrom, codewords, List.append_assoc] using h5

theorem encFoldMask_size (M p : Nat) (hp : p < 64) :
    ∀ (xs : List Nat) (st : EncState),
      ∃ st', encFoldMask M p st xs = .ok st' ∧
        st'.res_idx = st.res_idx + totalBits p (gapsFrom st.prev_idx xs) ∧
        (xs = [] ∨ st'.compressed.length = DIV_CEIL st'.res_idx 8) := by
  intro xs
  induction xs with
  | nil => intro st; exact ⟨st, rfl, by simp [gapsFrom, totalBits], Or.inl rfl⟩
  | cons x xs ih =>
    intro st
    have h : ¬ 64 ≤ p := by omega
    obtain ⟨_, st1, h1, h2, h3, h4⟩ :=
      writeGap_total p st x ((x - st.prev_idx) >>> p) ((x - st.prev_idx) &&& M)
    obtain ⟨st', h5, h6, h7⟩ := ih st1
    refine ⟨st', ?_, ?_, Or.inr ?_⟩
    · simp only [encFoldMask, encodeBitMask_eq, if_neg h, h1, bind, Except.bind]
      exact h5
    · rw [h6, h3, h4]
      simp only [gapsFrom, totalBits]
      omega
    · rcases h7 with h7 | h7
      · subst h7
        simp only [encFoldMask] at h5
        injection h5 with h5
        subst h5
        rw [h2, h3]
      · exact h7

theorem totalBits_pos (p : Nat) : ∀ ds : List Nat, ds ≠ [] → 0 < totalBits p ds
  | [], h => absurd rfl h
  | d :: ds, _ => by
    simp only [totalBits]
    generalize d >>> p = q
    omega

theorem gaps_ne_nil (B : List Nat) (h : setBits B ≠ []) : gaps B ≠ [] := by
  intro h0
  have := length_gapsFrom (setBits B) 0
  unfold gaps at h0
  rw [h0] at this
  exact h (List.length_eq_zero.mp this.symm)

theorem encMask_payload (M p : Nat) (B : List Nat) (hw : wfBytes B) (hne : setBits B ≠ [])
    (hp : p < 64) (hM : M < 2 ^ p) :
    ∃ e, encOuterMask M p B 0 { compressed := [], res_idx := 0, prev_idx := 0 } = .ok e ∧
      e.compressed.length = DIV_CEIL (totalBits p (gaps B)) 8 ∧ wfBytes e.compressed ∧
      e.compressed ≠ [] ∧
      ∀ k, bitAt e.compressed k = nthBit (codewords p ((gaps B).map (maskedGap M p))) k := by
  obtain ⟨e, h1, h2, h3, h4, h5⟩ := encFoldMask_spec M p hp hM (setBits B) [] _ encInv_init
  rw [List.nil_append] at h2 h3 h5
  rw [length_codewords, totalBits_map_maskedGap M p hM] at h2
  have hlen : e.compressed.length = DIV_CEIL (totalBits p (gaps B)) 8 := h2
  refine ⟨e, ?_, hlen, h4, ?_, h5⟩
  · rw [encOuterMask_eq_fold M p B 0 _ hw]
    exact h1
  · intro h0
    have hpos := totalBits_pos p (gaps B) (gaps_ne_nil B hne)
    rw [h0, div_ceil_8] at hlen
    simp only [List.length_nil] at hlen
    omega

theorem encMask_size (M p : Nat) (B : List Nat) (hw : wfBytes B) (hne : setBits B ≠ [])
    (hp : p < 64) :
    ∃ e, encOuterMask M p B 0 { compressed := [], res_idx := 0, prev_idx := 0 } = .ok e ∧
      e.compressed.length = DIV_CEIL (totalBits p (gaps B)) 8 ∧
      e.res_idx = totalBits p (gaps B) := by
  obtain ⟨e, h1, h2, h3⟩ := encFoldMask_size M p hp (setBits B)
    { compressed := [], res_idx := 0, prev_idx := 0 }
  simp only [Nat.zero_add] at h2
  refine ⟨e, ?_, ?_, h2⟩
  · rw [encOuterMask_eq_fold M p B 0 _ hw]
    exact h1
  · rcases h3 with h3 | h3
    · exact absurd h3 hne
    · rw [h3, h2]
      rfl

theorem golomb_compress_eq_mask (estimate : List Nat → Nat) (s : List Nat) (div_param : Int)
    (hw : wfBytes s) :
    golomb_compress estimate s div_param =
      if (setBits s).length = 0 then .ok { div := 0, compressed := [] }
      else if 31 ≤ chosenDiv estimate s div_param then .error .undefinedBehaviour
      else
        match encOuterMask (2 ^ chosenDiv estimate s div_param - 1)
          (chosenDiv estimate s div_param) s 0
          { compressed := [], res_idx := 0, prev_idx := 0 } with
        | .error e => .error e
        | .ok e => .ok { div := chosenDiv estimate s div_param, compressed := e.compressed } := by
  by_cases h0 : (setBits s).length = 0
  · rw [golomb_compress_eq_fold estimate s div_param hw]
    simp only [h0, if_true]
  · by_cases h31 : 31 ≤ chosenDiv estimate s div_param
    · rw [golomb_compress_ub estimate s div_param hw
        (fun h => h0 (by rw [h]; rfl)) h31]
      simp only [h0, h31, if_true, if_false]
    · rw [golomb_compress_eq_fold estimate s div_param hw]
      simp only [h0, h31, if_false]
      rw [encOuterMask_eq_fold _ _ s 0 _ hw, encFold_eq_mask _ (by omega)]
      rfl

theorem writeGap_clean (p q r : Nat) (hr : r < 2 ^ p) (bits : List Bool) (st : EncState)
    (x : Nat) (hinv : EncInv bits st) :
    ∃ st', writeGap p st x q r = .ok st' ∧
      st'.res_idx = st.res_idx + (q + 1 + p) ∧
      st'.compressed.length = DIV_CEIL (st.res_idx + (q + 1 + p)) 8 ∧
      (∀ k, k < st.res_idx → bitAt st'.compressed k = bitAt st.compressed k) ∧
      (∀ k, st.res_idx + (q + 1 + p) ≤ k → bitAt st'.compressed k = false) := by
  obtain ⟨st', h1, h2, _⟩ := writeGap_codeword p q r hr bits st x hinv
  obtain ⟨a1, a2, _, a4⟩ := hinv
  obtain ⟨b1, b2, _, b4⟩ := h2
  have hl : (bits ++ codeword p ((q <<< p) ||| r)).length = st.res_idx + (q + 1 + p) := by
    rw [List.length_append, length_codeword, a2, (shl_or_eq p q r hr).1]
  refine ⟨st', h1, ?_, ?_, ?_, ?_⟩
  · rw [b2, hl]
  · rw [b1, hl]
  · intro k hk
    rw [b4, a4, nthBit_append]
    simp only [show k < bits.length by omega, if_true]
  · intro k hk
    rw [b4]
    exact nthBit_of_ge _ _ (by omega)

/-! ## The claims -/

/-- C1 (round trip), evaluated at the failing input: the one-byte bitmap `[0]`
compresses to `{div = 0, compressed = ""}`, and decompressing that payload with
length 1 returns the empty string, not `[0]`. -/
theorem C1_roundtrip_zero_bitmap (estimate : List Nat → Nat) :
    golomb_compress estimate [0] 0 = .ok { div := 0, compressed := [] } ∧
      golomb_decompress [] 0 1 = .ok [] ∧
      golomb_decompress [] 0 1 ≠ .ok [0] := by
  refine ⟨rfl, rfl, by decide⟩

/-- C2 (position fidelity), evaluated on the code at the bitmap `[0x02]` (one
set bit, at position 1) with `div = 32`: the mask `(1 << 32) - 1` of line 74 is
an `int` shifted by the width of `int`, so `golomb_compress` yields no payload
and no run of the pair writes the position 1. On a build where that shift
leaves 1 (mask 0) the encoding pass writes `[0x01, 0, 0, 0, 0]`, the remainder
bit of the gap 1 being lost, and `golomb_decompress` on it with `div = 32` and
length 1 writes the position 0 and returns `[0x01]`, not `[0x02]`. -/
theorem C2_position_fidelity_at_32 :
    setBits [2] = [1] ∧
    golomb_compress (fun _ => 0) [2] 32 = .error .undefinedBehaviour ∧
    (¬ ∃ c r, golomb_compress (fun _ => 0) [2] 32 = .ok c ∧
      golomb_decompress_run c.compressed 32 [2].length = .ok r ∧
      writtenPositions r = setBits [2]) ∧
    encOuterMask 0 32 [2] 0 ⟨[], 0, 0⟩ = .ok ⟨[1, 0, 0, 0, 0], 33, 1⟩ ∧
    golomb_decompress_run [1, 0, 0, 0, 0] 32 [2].length =
      .ok (some ⟨4, 1, 0, [1], [(0, 33)]⟩) ∧
    writtenPositions (some ⟨4, 1, 0, [1], [(0, 33)]⟩) = [0] ∧
    golomb_decompress [1, 0, 0, 0, 0] 32 [2].length = .ok [1] := by
  refine ⟨by decide, by decide, ?_, by decide, by decide, by decide, by decide⟩
  rintro ⟨c, r, h, _⟩
  rw [show golomb_compress (fun _ => 0) [2] 32 = .error .undefinedBehaviour by decide] at h
  cases h

/-- C3 (empty decode), evaluated on the code: `golomb_decompress` on the empty
payload returns the empty string for every `div` and every length, so for the
length 1 the result is not the all-zero bitmap `[0]`. -/
theorem C3_empty_payload_returns_empty :
    (∀ div filter_length : Nat, golomb_decompress [] div filter_length = .ok []) ∧
      golomb_decompress [] 0 1 ≠ .ok (List.replicate 1 0) := by
  refine ⟨fun _ _ => rfl, by decide⟩

/-- C4 (empty compress): for every bitmap all of whose bytes are zero (the empty
string included) and every `div_param`, `golomb_compress` returns exactly
`{div = 0, compressed = ""}`. -/
theorem C4_empty_compress (estimate : List Nat → Nat) (B : List Nat) (div_param : Int)
    (h : ∀ b ∈ B, b = 0) :
    golomb_compress estimate B div_param = .ok { div := 0, compressed := [] } :=
  golomb_compress_of_no_set_bit estimate B div_param (wfBytes_of_zero B h)
    (setBits_eq_nil_of_zero B 0 h)

/-- Witness of C4 on three zero bytes with the override `5`. -/
theorem C4_empty_compress_witness :
    (∀ b ∈ [0, 0, 0], b = 0) ∧
      golomb_compress (fun _ => 7) [0, 0, 0] 5 = .ok { div := 0, compressed := [] } :=
  ⟨by decide, C4_empty_compress (fun _ => 7) [0, 0, 0] 5 (by decide)⟩

/-- C5 (wire format), evaluated on the code at the bitmap `[0x02]` (gap 1) with
`div = 32`: the wire format asks for the codeword of the gap 1, a one bit
followed by the 32 low bits of 1, so stream bits 0 and 1 are set; the mask
`(1 << 32) - 1` of line 74 is undefined and `golomb_compress` yields no payload,
and on a build where that shift leaves 1 (mask 0) the encoding pass writes
`[0x01, 0, 0, 0, 0]`, whose stream bit 1 is clear. -/
theorem C5_wire_format_at_32 :
    gaps [2] = [1] ∧ codewords 32 (gaps [2]) = codeword 32 1 ∧
    nthBit (codewords 32 (gaps [2])) 0 = true ∧ nthBit (codewords 32 (gaps [2])) 1 = true ∧
    golomb_compress (fun _ => 0) [2] 32 = .error .undefinedBehaviour ∧
    encOuterMask 0 32 [2] 0 ⟨[], 0, 0⟩ = .ok ⟨[1, 0, 0, 0, 0], 33, 1⟩ ∧
    bitAt [1, 0, 0, 0, 0] 1 = false ∧
    streamBits [1, 0, 0, 0, 0] ≠ codewords 32 (gaps [2]) ++ List.replicate 7 false := by
  decide

/-- C6 (concrete vector): on the bitmap `[0b00001001, 0b00000010]` (set
positions 0, 3, 9) with the override `div = 0`, the averaging pass sums the gaps
`[0, 3, 6]`, and `golomb_compress` returns `div = 0` with the two-byte payload
`[0b00010001, 0b00001000]`, whose bit stream is the 12 bits `1`, `0001`,
`0000001` followed by four zero bits. -/
theorem C6_concrete_vector (estimate : List Nat → Nat) :
    setBits [0b00001001, 0b00000010] = [0, 3, 9] ∧
      avgOuter [0b00001001, 0b00000010] 0 { prev_idx := 0, avg := [], count := 0 } =
        .ok { prev_idx := 9, avg := [0, 3, 6], count := 3 } ∧
      gaps [0b00001001, 0b00000010] = [0, 3, 6] ∧
      golomb_compress estimate [0b00001001, 0b00000010] 0 =
        .ok { div := 0, compressed := [0b00010001, 0b00001000] } ∧
      codeword 0 0 = [true] ∧
      codeword 0 3 = [false, false, false, true] ∧
      codeword 0 6 = [false, false, false, false, false, false, true] ∧
      totalBits 0 [0, 3, 6] = 12 ∧
      streamBits [0b00010001, 0b00001000] =
        codeword 0 0 ++ codeword 0 3 ++ codeword 0 6 ++ [false, false, false, false] := by
  have h1 : avgOuter [0b00001001, 0b00000010] 0 { prev_idx := 0, avg := [], count := 0 } =
      .ok { prev_idx := 9, avg := [0, 3, 6], count := 3 } := by decide
  have h2 : encOuter 0 [0b00001001, 0b00000010] 0
      { compressed := [], res_idx := 0, prev_idx := 0 } =
      .ok { compressed := [0b00010001, 0b00001000], res_idx := 12, prev_idx := 9 } := by decide
  refine ⟨by decide, h1, by decide, ?_, by decide, by decide, by decide, by decide, by decide⟩
  simp [golomb_compress, h1, h2, bind, Except.bind, pure, Except.pure]

/-- C7 (output length), as amended: the third argument of `golomb_decompress`
is the target length in bytes. For every non-empty payload of bytes and every
`div`, the run either is undefined behaviour of the C++ (a read outside the
payload, a write outside the result, a shift by 64 or more) or returns a
bitmap of exactly `filter_length` bytes; it never fails to terminate. In
particular the payload `[0b00010001, 0b00001000]` with `div = 0` and
`filter_length = 2` returns exactly `[0b00001001, 0b00000010]`. -/
theorem C7_output_length (payload : List Nat) (div filter_length : Nat)
    (hw : wfBytes payload) (hne : payload ≠ []) :
    (golomb_decompress payload div filter_length = .error .undefinedBehaviour ∨
      ∃ res, golomb_decompress payload div filter_length = .ok res ∧
        res.length = filter_length) ∧
    golomb_decompress [0b00010001, 0b00001000] 0 2 = .ok [0b00001001, 0b00000010] :=
  ⟨golomb_decompress_total payload div filter_length hw hne, by decide⟩

/-- Witness of C7 on the payload `[0x11, 0x08]` with `div = 0` and length 2. -/
theorem C7_output_length_witness :
    wfBytes [17, 8] ∧ ([17, 8] : List Nat) ≠ [] ∧
    ((golomb_decompress [17, 8] 0 2 = .error .undefinedBehaviour ∨
      ∃ res, golomb_decompress [17, 8] 0 2 = .ok res ∧ res.length = 2) ∧
    golomb_decompress [0b00010001, 0b00001000] 0 2 = .ok [0b00001001, 0b00000010]) :=
  ⟨by decide, by decide, C7_output_length [17, 8] 0 2 (by decide) (by decide)⟩

/-- C7 as stated fails on the concrete vector: with the third argument 10 the
decoder returns ten bytes (80 bits), not the two-byte bitmap
`[0b00001001, 0b00000010]`. -/
theorem C7_output_length_counterexample :
    golomb_decompress [0b00010001, 0b00001000] 0 10 =
        .ok [0b00001001, 0b00000010, 0, 0, 0, 0, 0, 0, 0, 0] ∧
      (streamBits [0b00001001, 0b00000010, 0, 0, 0, 0, 0, 0, 0, 0]).length = 80 ∧
      golomb_decompress [0b00010001, 0b00001000] 0 10 ≠ .ok [0b00001001, 0b00000010] := by
  refine ⟨by decide, by decide, by decide⟩

/-- C8 (override used verbatim), evaluated on the code at the bitmap `[0x02]`
with `div_param = 32`: line 60 takes the override verbatim (`div = 32` for
every estimator), but the payload is not the encoding of the gap 1 under
`div = 32`: the mask `(1 << 32) - 1` of line 74 is undefined, so
`golomb_compress` yields no result for any estimator, and on a build where that
shift leaves 1 (mask 0) the payload written is `[0x01, 0, 0, 0, 0]`, which is
the codeword of the gap 0, not of the gap 1. -/
theorem C8_override_verbatim_at_32 :
    (∀ estimate : List Nat → Nat, chosenDiv estimate [2] 32 = 32) ∧
    (∀ estimate : List Nat → Nat,
      golomb_compress estimate [2] 32 = .error .undefinedBehaviour) ∧
    gaps [2] = [1] ∧
    encOuterMask 0 32 [2] 0 ⟨[], 0, 0⟩ = .ok ⟨[1, 0, 0, 0, 0], 33, 1⟩ ∧
    streamBits [1, 0, 0, 0, 0] = codewords 32 [0] ++ List.replicate 7 false ∧
    streamBits [1, 0, 0, 0, 0] ≠ codewords 32 (gaps [2]) ++ List.replicate 7 false := by
  refine ⟨fun _ => rfl, fun e => compress_ub_2_32 e, by decide, by decide, by decide, by decide⟩

/-- C9 (unary degeneration): with `div = 0` every codeword is exactly `gap + 1`
bits long. For every bitmap of bytes (of at most `2 ^ 64` bits) whose ascending
set-bit positions are `p_0 < ... < p_(n-1)`, `n >= 1`, `golomb_compress` with
the override 0 returns `div = 0` and a payload that is the concatenation of
these codewords, has exactly `DIV_CEIL(p_(n-1) + n, 8)` bytes, and whose set
stream bits are exactly the positions `p_i + i`; `golomb_decompress` with
`div = 0` on it advances its cursor by exactly `gap + 1` bits per codeword
(the cursors are the running sums of `gap + 1`), writes exactly the positions
`p_i`, and its remainder loop reads nothing. -/
theorem C9_unary_degeneration (estimate : List Nat → Nat) (B : List Nat) (hw : wfBytes B)
    (h64 : 8 * B.length ≤ 2 ^ 64) (hne : ∃ k, bitAt B k = true) :
    (∀ d, (codeword 0 d).length = d + 1) ∧
    (∀ fuel s it binary_start binary_idx remainder,
      readRemainder fuel s 0 it binary_start binary_idx remainder = .ok (it, remainder)) ∧
    ∃ c r, golomb_compress estimate B 0 = .ok { div := 0, compressed := c } ∧
      streamBits c = codewords 0 (gaps B) ++
        List.replicate (8 * c.length - totalBits 0 (gaps B)) false ∧
      c.length = DIV_CEIL (lastPos 0 (setBits B) + (setBits B).length) 8 ∧
      (∀ k, bitAt c k = true ↔ ∃ i, i < (setBits B).length ∧ k = (setBits B).getD i 0 + i) ∧
      golomb_decompress_run c 0 B.length = .ok r ∧
      cursorsAfter r = sumsFrom 0 ((gaps B).map (· + 1)) ∧
      writtenPositions r = setBits B := by
  refine ⟨fun d => by rw [length_codeword]; simp, readRemainder_zero, ?_⟩
  have hnil := setBits_ne_nil_of_bit B hne
  obtain ⟨c, st, hc, hrun, _, htr⟩ := roundtrip_run estimate B 0 hw h64 hnil (by simp)
  obtain ⟨c', hc', hl, _, hbits, hs⟩ :=
    golomb_compress_stream estimate B 0 hw hne (by simp [chosenDiv])
  have e1 : chosenDiv estimate B 0 = 0 := rfl
  have e0 : (if (0 : Int) ≥ 0 then (0 : Int).toNat else estimate (gaps B)) = 0 := rfl
  rw [e1] at hc' hl hbits hs
  rw [e0] at hc hrun htr
  have hcc : c = c' := by
    have := hc.symm.trans hc'
    injection this with h1
    injection h1
  subst hcc
  have htot : totalBits 0 (gaps B) = lastPos 0 (setBits B) + (setBits B).length := by
    have := totalBits_zero_gapsFrom (setBits B) 0 (fun _ _ => Nat.zero_le _) (sorted_setBits B)
    simpa [gaps] using this
  have hsums := sums_succ_gapsFrom (setBits B) 0 0 (fun _ _ => Nat.zero_le _) (sorted_setBits B)
  refine ⟨c, some st, hc, hs, by rw [hl, htot], ?_, hrun, ?_, ?_⟩
  · intro k
    rw [hbits k, nthBit_codewords_zero (gaps B) 0 k]
    simp only [gaps, Nat.zero_add, decide_eq_true_eq]
    rw [show sumsFrom 0 ((gapsFrom 0 (setBits B)).map (· + 1)) =
      sumsFrom (0 + 0) ((gapsFrom 0 (setBits B)).map (· + 1)) from rfl, hsums]
    simp only [List.mem_map, List.mem_range, Nat.zero_add]
    constructor
    · rintro ⟨i, hi, he⟩
      exact ⟨i, hi, by omega⟩
    · rintro ⟨i, hi, he⟩
      exact ⟨i, hi, by omega⟩
  · show st.trace.map Prod.snd = _
    rw [htr, map_snd_traceFrom_zero]
  · show st.trace.map Prod.fst = _
    rw [htr, map_fst_traceFrom, sumsFrom_gaps]

/-- Witness of C9 on the bitmap `[0x09, 0x02]`. -/
theorem C9_unary_degeneration_witness :
    wfBytes [9, 2] ∧ 8 * [9, 2].length ≤ 2 ^ 64 ∧ (∃ k, bitAt [9, 2] k = true) ∧
    ((∀ d, (codeword 0 d).length = d + 1) ∧
    (∀ fuel s it binary_start binary_idx remainder,
      readRemainder fuel s 0 it binary_start binary_idx remainder = .ok (it, remainder)) ∧
    ∃ c r, golomb_compress (fun _ => 0) [9, 2] 0 = .ok { div := 0, compressed := c } ∧
      streamBits c = codewords 0 (gaps [9, 2]) ++
        List.replicate (8 * c.length - totalBits 0 (gaps [9, 2])) false ∧
      c.length = DIV_CEIL (lastPos 0 (setBits [9, 2]) + (setBits [9, 2]).length) 8 ∧
      (∀ k, bitAt c k = true ↔
        ∃ i, i < (setBits [9, 2]).length ∧ k = (setBits [9, 2]).getD i 0 + i) ∧
      golomb_decompress_run c 0 [9, 2].length = .ok r ∧
      cursorsAfter r = sumsFrom 0 ((gaps [9, 2]).map (· + 1)) ∧
      writtenPositions r = setBits [9, 2]) :=
  ⟨by decide, by decide, ⟨0, by decide⟩,
    C9_unary_degeneration (fun _ => 0) [9, 2] (by decide) (by decide) ⟨0, by decide⟩⟩

/-- C10 (payload size), as amended: for every bitmap of bytes with at least one
set bit and every `div <= 63`, the payload written by the encoding pass of
`golomb_compress` has exactly `DIV_CEIL(totalBits, 8)` bytes, where `totalBits`
is the sum over the gaps `d` of `(d >> div) + 1 + div`, whatever value `M'` the
mask of line 74 has; each resize keeps the bits already there and adds zero
bytes only; and when the mask `M` has no bit at or above `div`, the payload
bits are exactly the codeword bits OR-ed in (a bit is set only where a
terminator or a set remainder bit was written), every other bit, those at or
after `totalBits` included, being zero. With the exact mask `2^div - 1` the
codewords are those of the gaps themselves; `golomb_compress` is undefined from
`div = 31` on (the `int` mask) and otherwise returns this payload with the exact
mask. -/
theorem C10_payload_size (estimate : List Nat → Nat) (B : List Nat) (div_param : Int)
    (div M M' : Nat) (hw : wfBytes B) (hne : ∃ k, bitAt B k = true) (hdiv : div < 64)
    (hM : M < 2 ^ div) :
    (∃ e, encOuterMask M' div B 0 { compressed := [], res_idx := 0, prev_idx := 0 } = .ok e ∧
      e.compressed.length = DIV_CEIL (totalBits div (gaps B)) 8 ∧
      e.res_idx = totalBits div (gaps B)) ∧
    (∃ e, encOuterMask M div B 0 { compressed := [], res_idx := 0, prev_idx := 0 } = .ok e ∧
      e.compressed.length = DIV_CEIL (totalBits div (gaps B)) 8 ∧
      (∀ k, bitAt e.compressed k =
        nthBit (codewords div ((gaps B).map (maskedGap M div))) k) ∧
      (∀ k, totalBits div (gaps B) ≤ k → bitAt e.compressed k = false)) ∧
    (∀ d, maskedGap (2 ^ div - 1) div d = d) ∧
    (∀ (s : List Nat) (n k : Nat), s.length ≤ n → bitAt (resize s n) k = bitAt s k) ∧
    golomb_compress estimate B div_param =
      (if 31 ≤ chosenDiv estimate B div_param then .error .undefinedBehaviour
       else
        match encOuterMask (2 ^ chosenDiv estimate B div_param - 1)
          (chosenDiv estimate B div_param) B 0
          { compressed := [], res_idx := 0, prev_idx := 0 } with
        | .error e => .error e
        | .ok e => .ok { div := chosenDiv estimate B div_param, compressed := e.compressed }) ∧
    (chosenDiv estimate B div_param < 31 →
      ∃ c, golomb_compress estimate B div_param =
          .ok { div := chosenDiv estimate B div_param, compressed := c } ∧
        c.length = DIV_CEIL (totalBits (chosenDiv estimate B div_param) (gaps B)) 8 ∧
        (∀ k, bitAt c k = nthBit (codewords (chosenDiv estimate B div_param) (gaps B)) k) ∧
        (∀ k, totalBits (chosenDiv estimate B div_param) (gaps B) ≤ k → bitAt c k = false)) := by
  have hs := setBits_ne_nil_of_bit B hne
  refine ⟨encMask_size M' div B hw hs hdiv, ?_, maskedGap_exact div,
    fun s n k h => bitAt_resize s n k h, ?_, ?_⟩
  · obtain ⟨e, h1, h2, _, _, h5⟩ := encMask_payload M div B hw hs hdiv hM
    refine ⟨e, h1, h2, h5, fun k hk => ?_⟩
    rw [h5 k]
    exact nthBit_of_ge _ k (by
      rw [length_codewords, totalBits_map_maskedGap M div hM]; exact hk)
  · have h0 : ¬ (setBits B).length = 0 := fun h => hs (List.length_eq_zero.mp h)
    exact (golomb_compress_eq_mask estimate B div_param hw).trans (if_neg h0)
  · intro hp
    obtain ⟨c, hc, hl, _, hbits, _⟩ := golomb_compress_stream estimate B div_param hw hne hp
    refine ⟨c, hc, hl, hbits, fun k hk => ?_⟩
    rw [hbits k]
    exact nthBit_of_ge _ k (by rw [length_codewords]; exact hk)

/-- Witness of C10 on the bitmap `[0x00, 0x01, 0x40]` with `div = 40`, the
masks `255` and `2^64 - 1`, and the estimate `4` for `golomb_compress`. -/
theorem C10_payload_size_witness :
    wfBytes [0, 1, 64] ∧ (∃ k, bitAt [0, 1, 64] k = true) ∧ 40 < 64 ∧ 255 < 2 ^ 40 ∧
    chosenDiv (fun _ => 4) [0, 1, 64] (-1) < 31 ∧
    (∃ e, encOuterMask (2 ^ 64 - 1) 40 [0, 1, 64] 0
        { compressed := [], res_idx := 0, prev_idx := 0 } = .ok e ∧
      e.compressed.length = DIV_CEIL (totalBits 40 (gaps [0, 1, 64])) 8 ∧
      e.res_idx = totalBits 40 (gaps [0, 1, 64])) ∧
    (∃ e, encOuterMask 255 40 [0, 1, 64] 0
        { compressed := [], res_idx := 0, prev_idx := 0 } = .ok e ∧
      e.compressed.length = DIV_CEIL (totalBits 40 (gaps [0, 1, 64])) 8 ∧
      (∀ k, bitAt e.compressed k =
        nthBit (codewords 40 ((gaps [0, 1, 64]).map (maskedGap 255 40))) k) ∧
      (∀ k, totalBits 40 (gaps [0, 1, 64]) ≤ k → bitAt e.compressed k = false)) ∧
    (∃ c, golomb_compress (fun _ => 4) [0, 1, 64] (-1) =
        .ok { div := chosenDiv (fun _ => 4) [0, 1, 64] (-1), compressed := c } ∧
      c.length = DIV_CEIL (totalBits (chosenDiv (fun _ => 4) [0, 1, 64] (-1))
        (gaps [0, 1, 64])) 8 ∧
      (∀ k, bitAt c k =
        nthBit (codewords (chosenDiv (fun _ => 4) [0, 1, 64] (-1)) (gaps [0, 1, 64])) k) ∧
      (∀ k, totalBits (chosenDiv (fun _ => 4) [0, 1, 64] (-1)) (gaps [0, 1, 64]) ≤ k →
        bitAt c k = false)) :=
  have h := C10_payload_size (fun _ => 4) [0, 1, 64] (-1) 40 255 (2 ^ 64 - 1) (by decide)
    ⟨8, by decide⟩ (by decide) (by decide)
  ⟨by decide, ⟨8, by decide⟩, by decide, by decide, by decide, h.1, h.2.1,
    h.2.2.2.2.2 (by decide)⟩

/-- C10 as stated fails at `div = 64` on the bitmap `[0x00, 0x01]`: the run is
undefined (`delta >> 64` shifts a `size_t` by its width, the mask is an `int`
shift by more than its width), so no payload of the stated size is returned;
the encoding pass is undefined there whatever the value of the mask. -/
theorem C10_payload_size_counterexample :
    golomb_compress (fun _ => 0) [0, 1] 64 = .error .undefinedBehaviour ∧
    (¬ ∃ c, golomb_compress (fun _ => 0) [0, 1] 64 = .ok c ∧
      c.compressed.length = DIV_CEIL (totalBits 64 (gaps [0, 1])) 8) ∧
    ∀ M : Nat, encOuterMask M 64 [0, 1] 0 { compressed := [], res_idx := 0, prev_idx := 0 } =
      .error .undefinedBehaviour := by
  refine ⟨compress_ub_01_64 _, ?_, fun _ => rfl⟩
  rintro ⟨c, h, _⟩
  rw [compress_ub_01_64] at h
  cases h

/-- C11 (truncated input), as amended: for every bitmap `B` of bytes with at
least one set bit, every `div` for which `golomb_compress` returns a payload,
and every non-empty proper prefix `P` of the payload (its first `m` bytes) that
holds the first codewords `ds1` of the gap sequence whole and ends at or before
the terminator of the next codeword (so `P` does not cut a codeword between its
terminator and the last of its remainder bits): `golomb_decompress(P, div,
len(B))` halts without a read outside `P` or a write outside the result and
returns a bitmap of `len(B)` bytes whose set bits are exactly the first
`ds1.length` ascending set-bit positions of `B`, an initial segment of them. -/
theorem C11_truncated_prefix (estimate : List Nat → Nat) (B : List Nat) (div_param : Int)
    (c : GolombCompressed) (m : Nat) (ds1 ds2 : List Nat) (hw : wfBytes B)
    (h64 : 8 * B.length ≤ 2 ^ 64) (hne : ∃ k, bitAt B k = true)
    (hc : golomb_compress estimate B div_param = .ok c)
    (hm0 : 0 < m) (hm : m < c.compressed.length) (hsplit : gaps B = ds1 ++ ds2)
    (hfit : totalBits c.div ds1 ≤ 8 * m)
    (hcut : ∀ d ∈ ds2.head?, 8 * m ≤ totalBits c.div ds1 + (d >>> c.div)) :
    ∃ st, golomb_decompress_run (c.compressed.take m) c.div B.length = .ok (some st) ∧
      golomb_decompress (c.compressed.take m) c.div B.length = .ok st.res ∧
      st.res.length = B.length ∧
      writtenPositions (some st) = (setBits B).take ds1.length ∧
      (setBits B).take ds1.length <+: setBits B ∧
      (∀ k, bitAt st.res k = decide (k ∈ (setBits B).take ds1.length)) := by
  obtain ⟨st, h1, h2, h3, h4, h5⟩ :=
    decode_truncated estimate B div_param c m ds1 ds2 hw h64 hne hc hm0 hm hsplit hfit hcut
  exact ⟨st, h1, h2, h3, h4, List.take_prefix _ _, h5⟩

/-- Witness of C11 on the bitmap `[0x01, 0x00, 0x00, 0x80]` (bits 0 and 31) with
`div = 1`: the payload is `[0x01, 0x00, 0x06]`, its first two bytes hold the
codeword of the gap 0 and end inside the unary prefix of the gap 31. -/
theorem C11_truncated_prefix_witness :
    wfBytes [1, 0, 0, 128] ∧ 8 * [1, 0, 0, 128].length ≤ 2 ^ 64 ∧
    (∃ k, bitAt [1, 0, 0, 128] k = true) ∧
    golomb_compress (fun _ => 0) [1, 0, 0, 128] 1 = .ok ⟨1, [1, 0, 6]⟩ ∧
    0 < 2 ∧ 2 < [1, 0, 6].length ∧
    gaps [1, 0, 0, 128] = [0] ++ [31] ∧ totalBits 1 [0] ≤ 8 * 2 ∧
    (∀ d ∈ [31].head?, 8 * 2 ≤ totalBits 1 [0] + (d >>> 1)) ∧
    ∃ st, golomb_decompress_run ([1, 0, 6].take 2) 1 [1, 0, 0, 128].length = .ok (some st) ∧
      golomb_decompress ([1, 0, 6].take 2) 1 [1, 0, 0, 128].length = .ok st.res ∧
      st.res.length = [1, 0, 0, 128].length ∧
      writtenPositions (some st) = (setBits [1, 0, 0, 128]).take [0].length ∧
      (setBits [1, 0, 0, 128]).take [0].length <+: setBits [1, 0, 0, 128] ∧
      (∀ k, bitAt st.res k = decide (k ∈ (setBits [1, 0, 0, 128]).take [0].length)) :=
  ⟨by decide, by decide, ⟨0, by decide⟩, by decide, by decide, by decide, by decide, by decide,
    by simp [totalBits],
    C11_truncated_prefix (fun _ => 0) [1, 0, 0, 128] 1 ⟨1, [1, 0, 6]⟩ 2 [0] [31] (by decide)
      (by decide) ⟨0, by decide⟩ (by decide) (by decide) (by decide) (by decide) (by decide)
      (by simp [totalBits])⟩

/-- C11 as stated fails on the bitmap `[0x01]` with `div = 16`: the payload is
`[0x01, 0x00, 0x00]` (the terminator, then sixteen remainder bits), and on its
one-byte prefix `[0x01]` the remainder loop reads `*it` at the end of the
prefix, which is undefined behaviour. -/
theorem C11_truncated_prefix_counterexample :
    golomb_compress (fun _ => 0) [1] 16 = .ok ⟨16, [1, 0, 0]⟩ ∧
    [1, 0, 0].take 1 = [1] ∧ 0 < 1 ∧ 1 < [1, 0, 0].length ∧
    readRemainder 16 [1] 16 0 1 0 0 = .error .undefinedBehaviour ∧
    golomb_decompress ([1, 0, 0].take 1) 16 [1].length = .error .undefinedBehaviour := by
  decide

/-- C12 (quotient/remainder split), evaluated on the code at the gap `d = 1`
and `div = 32`: the mask `(1 << div) - 1` of line 74 is an `int` shifted by the
width of `int`, which is undefined, so the loop body and the whole of
`golomb_compress` on the bitmap `[0x02]` yield no result, and there is no
quotient and remainder with `remainder = 1 mod 2^32`; at `div = 30`, the widest
defined mask, the split of `2^30 + 5` is `(1, 5)`. -/
theorem C12_split_int_mask :
    splitGap 32 1 = .error .undefinedBehaviour ∧
    encodeBit 32 ⟨[], 0, 0⟩ 1 = .error .undefinedBehaviour ∧
    golomb_compress (fun _ => 0) [2] 32 = .error .undefinedBehaviour ∧
    (¬ ∃ q r, splitGap 32 1 = .ok (q, r) ∧ r = 1 % 2 ^ 32 ∧ ((q <<< 32) ||| r) = 1) ∧
    splitGap 30 (2 ^ 30 + 5) = .ok (1, 5) := by
  refine ⟨by decide, by decide, by decide, ?_, by decide⟩
  rintro ⟨q, r, h, _⟩
  rw [show splitGap 32 1 = .error .undefinedBehaviour by decide] at h
  cases h

/-- C14 (delta extraction): for every bitmap `B` of bytes, the
count-trailing-zeros / clear-lowest-set-bit scan shared by both passes of
`golomb_compress` visits exactly the set-bit positions `8 * byteIndex +
bitIndex` of `B`, each once, in strictly ascending order (for bytes with bit 7
set as for the others); the gap sequence has one gap per position, the first
gap is the first position, each later gap is the difference of two consecutive
positions and is at least 1, and the gaps sum to the last set-bit position. The
averaging pass adds exactly these gaps to `avg` and counts the positions, and
the encoding pass hands the same gaps, in the same order, to the
quotient/remainder split. -/
theorem C14_delta_extraction (B : List Nat) (div : Nat) (hw : wfBytes B) :
    scanOuter B 0 = .ok (setBits B) ∧
    (setBits B).Pairwise (· < ·) ∧ (setBits B).Nodup ∧
    (∀ k, k ∈ setBits B ↔ bitAt B k = true) ∧
    (gaps B).length = (setBits B).length ∧
    (gaps B).getD 0 0 = (setBits B).getD 0 0 ∧
    (∀ i, i + 1 < (setBits B).length →
      (setBits B).getD i 0 < (setBits B).getD (i + 1) 0 ∧
      (gaps B).getD (i + 1) 0 = (setBits B).getD (i + 1) 0 - (setBits B).getD i 0) ∧
    (∀ d ∈ (gaps B).tail, 1 ≤ d) ∧
    (gaps B).sum = lastPos 0 (setBits B) ∧
    avgOuter B 0 { prev_idx := 0, avg := [], count := 0 } =
      .ok { prev_idx := lastPos 0 (setBits B), avg := gaps B, count := (setBits B).length } ∧
    encOuter div B 0 { compressed := [], res_idx := 0, prev_idx := 0 } =
      encGapFold div { compressed := [], res_idx := 0, prev_idx := 0 } (setBits B) (gaps B) := by
  have hs := sorted_setBits B
  refine ⟨scanOuter_eq B 0 hw, hs, ?_, mem_setBits B, length_gapsFrom _ _, ?_, ?_, ?_, ?_, ?_, ?_⟩
  · exact hs.imp (fun h => Nat.ne_of_lt h)
  · unfold gaps
    cases setBits B <;> simp [gapsFrom]
  · intro i hi
    exact ⟨getD_lt_of_pairwise _ i hs hi, getD_gapsFrom_succ _ 0 i hi⟩
  · exact tail_gapsFrom_pos _ 0 hs
  · have := sum_gapsFrom (setBits B) 0 (fun _ _ => Nat.zero_le _) hs
    simpa [gaps] using this
  · have := avgOuter_spec B 0 { prev_idx := 0, avg := [], count := 0 } hw
    simpa [gaps, setBits] using this
  · rw [encOuter_eq_fold div B 0 _ hw, encFold_eq_gapFold]
    rfl

/-- Witness of C14 on the bitmap `[0x81, 0x00, 0xFF]`, two of whose bytes are
negative as a signed `char`, with `div = 3`. -/
theorem C14_delta_extraction_witness :
    wfBytes [129, 0, 255] ∧
    setBits [129, 0, 255] = [0, 7, 16, 17, 18, 19, 20, 21, 22, 23] ∧
    gaps [129, 0, 255] = [0, 7, 9, 1, 1, 1, 1, 1, 1, 1] ∧
    (scanOuter [129, 0, 255] 0 = .ok (setBits [129, 0, 255]) ∧
    (setBits [129, 0, 255]).Pairwise (· < ·) ∧ (setBits [129, 0, 255]).Nodup ∧
    (∀ k, k ∈ setBits [129, 0, 255] ↔ bitAt [129, 0, 255] k = true) ∧
    (gaps [129, 0, 255]).length = (setBits [129, 0, 255]).length ∧
    (gaps [129, 0, 255]).getD 0 0 = (setBits [129, 0, 255]).getD 0 0 ∧
    (∀ i, i + 1 < (setBits [129, 0, 255]).length →
      (setBits [129, 0, 255]).getD i 0 < (setBits [129, 0, 255]).getD (i + 1) 0 ∧
      (gaps [129, 0, 255]).getD (i + 1) 0 =
        (setBits [129, 0, 255]).getD (i + 1) 0 - (setBits [129, 0, 255]).getD i 0) ∧
    (∀ d ∈ (gaps [129, 0, 255]).tail, 1 ≤ d) ∧
    (gaps [129, 0, 255]).sum = lastPos 0 (setBits [129, 0, 255]) ∧
    avgOuter [129, 0, 255] 0 { prev_idx := 0, avg := [], count := 0 } =
      .ok { prev_idx := lastPos 0 (setBits [129, 0, 255]), avg := gaps [129, 0, 255],
            count := (setBits [129, 0, 255]).length } ∧
    encOuter 3 [129, 0, 255] 0 { compressed := [], res_idx := 0, prev_idx := 0 } =
      encGapFold 3 { compressed := [], res_idx := 0, prev_idx := 0 } (setBits [129, 0, 255])
        (gaps [129, 0, 255])) :=
  ⟨by decide, by decide, by decide, C14_delta_extraction [129, 0, 255] 3 (by decide)⟩

/-- C15 (decoder cursor), as amended: for every payload of bytes, every
`div <= 63` and every decoder state whose cursor is the bit index
`c = 8 * it + offset` with `offset < 8`, if the stream has `q` zero bits from
`c` on and then a set bit, and the `div` bits after it lie inside the payload,
then the remainder loop returns the number `r < 2^div` whose bit `j` is the
stream bit `c + q + 1 + j`, and the iteration either writes outside the result
(position `prefix_sum + ((q << div) | r)` beyond it, undefined behaviour) or
ends with `offset < 8`, the cursor at exactly `c + q + 1 + div` and that
position as the new `prefix_sum`; this holds for `div = 0` and `div > 0`,
whether or not the codeword ends on a byte boundary. -/
theorem C15_cursor_invariant (s : List Nat) (div q : Nat) (st : DecState) (hw : wfBytes s)
    (hoff : st.offset < 8) (hdiv : div < 64)
    (hq0 : ∀ k, 8 * st.it + st.offset ≤ k → k < 8 * st.it + st.offset + q → bitAt s k = false)
    (hq1 : bitAt s (8 * st.it + st.offset + q) = true)
    (hlen : 8 * st.it + st.offset + q + 1 + div ≤ 8 * s.length) :
    ∃ r, r < 2 ^ div ∧
      (∀ j < div, r.testBit j = bitAt s (8 * st.it + st.offset + q + 1 + j)) ∧
      (∃ it', readRemainder div s div ((8 * st.it + st.offset + q + 1) / 8)
        ((8 * st.it + st.offset + q + 1) % 8) 0 0 = .ok (it', r)) ∧
      ((decodeStep s div st = .error .undefinedBehaviour ∧
          st.res.length ≤ ((st.prefix_sum + (((q <<< div) % 2 ^ 64) ||| r)) % 2 ^ 64) / 8) ∨
        ∃ st', decodeStep s div st = .ok (some st') ∧ st'.offset < 8 ∧
          8 * st'.it + st'.offset = 8 * st.it + st.offset + q + 1 + div ∧
          st'.prefix_sum = (st.prefix_sum + (((q <<< div) % 2 ^ 64) ||| r)) % 2 ^ 64) := by
  obtain ⟨r, hr, hbits⟩ := exists_bits (fun j => bitAt s (8 * st.it + st.offset + q + 1 + j)) div
  have hrem : ∀ j < div, bitAt s (8 * st.it + st.offset + q + 1 + j) = r.testBit j :=
    fun j hj => (hbits j hj).symm
  have hread := readRemainder_spec s div r (8 * st.it + st.offset + q + 1) hdiv hrem hlen div
    ((8 * st.it + st.offset + q + 1) / 8) ((8 * st.it + st.offset + q + 1) % 8) 0
    (Nat.mod_lt _ (by omega)) (by omega) (by omega) (by omega)
  rw [Nat.pow_zero, Nat.mod_one, Nat.mod_eq_of_lt hr] at hread
  refine ⟨r, hr, hbits, ⟨_, hread⟩, ?_⟩
  by_cases hres : ((st.prefix_sum + (((q <<< div) % 2 ^ 64) ||| r)) % 2 ^ 64) / 8 < st.res.length
  · right
    refine ⟨_, decodeStep_spec s div q r st hw hoff hdiv hr hq0 hq1 hrem hlen hres, ?_, ?_, rfl⟩
    · exact Nat.mod_lt _ (by omega)
    · show 8 * ((8 * st.it + st.offset + q + 1 + div) / 8) +
        (8 * st.it + st.offset + q + 1 + div) % 8 = _
      omega
  · left
    refine ⟨?_, by omega⟩
    have h64 : ¬ 64 ≤ div := by omega
    have hq : 8 * st.it + st.offset + q - (8 * st.it + st.offset) = q := by omega
    rw [decodeStep_found s div (8 * st.it + st.offset + q) st hw hoff (by omega) hq0 hq1, hread]
    simp only [h64, if_false, hq, orAt, hres, dite_false]

/-- Witness of C15 on the payload `[0x60, 0x01]` with `div = 3` from the cursor
`0`: five zero bits, the terminator at bit 5, and the remainder bits 6, 7, 8
(crossing into the second byte). -/
theorem C15_cursor_invariant_witness :
    wfBytes [96, 1] ∧ (0 : Nat) < 8 ∧ 3 < 64 ∧
    (∀ k, 8 * 0 + 0 ≤ k → k < 8 * 0 + 0 + 5 → bitAt [96, 1] k = false) ∧
    bitAt [96, 1] (8 * 0 + 0 + 5) = true ∧ 8 * 0 + 0 + 5 + 1 + 3 ≤ 8 * [96, 1].length ∧
    ∃ r, r < 2 ^ 3 ∧
      (∀ j < 3, r.testBit j = bitAt [96, 1] (8 * 0 + 0 + 5 + 1 + j)) ∧
      (∃ it', readRemainder 3 [96, 1] 3 ((8 * 0 + 0 + 5 + 1) / 8)
        ((8 * 0 + 0 + 5 + 1) % 8) 0 0 = .ok (it', r)) ∧
      ((decodeStep [96, 1] 3 ⟨0, 0, 0, [0, 0, 0, 0, 0, 0], []⟩ = .error .undefinedBehaviour ∧
          [0, 0, 0, 0, 0, 0].length ≤ ((0 + (((5 <<< 3) % 2 ^ 64) ||| r)) % 2 ^ 64) / 8) ∨
        ∃ st', decodeStep [96, 1] 3 ⟨0, 0, 0, [0, 0, 0, 0, 0, 0], []⟩ = .ok (some st') ∧
          st'.offset < 8 ∧
          8 * st'.it + st'.offset = 8 * 0 + 0 + 5 + 1 + 3 ∧
          st'.prefix_sum = (0 + (((5 <<< 3) % 2 ^ 64) ||| r)) % 2 ^ 64) :=
  ⟨by decide, by decide, by decide,
    fun k _ hk => by interval_cases k <;> rfl,
    by decide, by decide,
    C15_cursor_invariant [96, 1] 3 5 ⟨0, 0, 0, [0, 0, 0, 0, 0, 0], []⟩ (by decide) (by decide)
      (by decide) (fun k _ hk => by interval_cases k <;> rfl) (by decide) (by decide)⟩

/-- C15 as stated fails at `div = 65` on the payload
`[0x01, 0, 0, 0, 0, 0, 0, 0, 0x02]` from the cursor `0`: the terminator is bit 0
(`q = 0`), all nine remainder reads are inside the payload, the stream bit
`65 = c + q + 1 + 64` is set, yet the remainder formed is `0` (the 64-bit
`remainder` cannot hold 65 bits), and the iteration then shifts a `size_t` by
65, which is undefined, so no cursor is left. -/
theorem C15_cursor_invariant_counterexample :
    bitAt [1, 0, 0, 0, 0, 0, 0, 0, 2] 0 = true ∧
    0 + 0 + 1 + 65 ≤ 8 * [1, 0, 0, 0, 0, 0, 0, 0, 2].length ∧
    readRemainder 65 [1, 0, 0, 0, 0, 0, 0, 0, 2] 65 0 1 0 0 = .ok (9, 0) ∧
    bitAt [1, 0, 0, 0, 0, 0, 0, 0, 2] (0 + 0 + 1 + 64) = true ∧
    (0 : Nat).testBit 64 = false ∧
    decodeStep [1, 0, 0, 0, 0, 0, 0, 0, 2] 65 ⟨0, 0, 0, List.replicate 16 0, []⟩ =
      .error .undefinedBehaviour := by
  decide

/-- C16 (exhausted stream): for every non-empty payload `z` whose bytes are all
zero, every `div` and every length `L`, `golomb_decompress` returns `L` zero
bytes, and so it does with `k` further zero bytes appended. More generally, for
every payload `s` that holds the codewords of a gap sequence `ds` followed by
zero bits only (byte padding of any length), with `p <= 63` and every running
sum inside the result, the run returns a bitmap of `n` bytes whose set bits are
exactly the running sums of `ds`, and the same result when `k` zero bytes are
appended; and for every payload on which the run returns, appending zero bytes
leaves the result unchanged and the set bits of the result are exactly the
positions written for the terminators found. -/
theorem C16_exhausted_stream (z : List Nat) (div L k : Nat)
    (hz : ∀ b ∈ z, b = 0) (hzne : z ≠ []) :
    golomb_decompress z div L = .ok (List.replicate L 0) ∧
    golomb_decompress (z ++ List.replicate k 0) div L = .ok (List.replicate L 0) ∧
    (∀ (s ds : List Nat) (p n : Nat), wfBytes s → s ≠ [] → p < 64 →
      (∀ j, bitAt s j = nthBit (codewords p ds) j) → totalBits p ds ≤ 8 * s.length →
      (∀ x ∈ sumsFrom 0 ds, x < 8 * n) → 8 * n ≤ 2 ^ 64 →
      ∃ res, golomb_decompress s p n = .ok res ∧
        golomb_decompress (s ++ List.replicate k 0) p n = .ok res ∧ res.length = n ∧
        ∀ j, bitAt res j = decide (j ∈ sumsFrom 0 ds)) ∧
    (∀ (t : List Nat) (p n : Nat) (st : DecState), wfBytes t →
      golomb_decompress_run t p n = .ok (some st) →
      golomb_decompress t p n = .ok st.res ∧
      golomb_decompress (t ++ List.replicate k 0) p n = .ok st.res ∧
      ∀ j, bitAt st.res j = true ↔ j ∈ writtenPositions (some st)) := by
  have h1 := golomb_decompress_all_zero z div L hzne hz
  refine ⟨h1, ?_, ?_, ?_⟩
  · exact golomb_decompress_append_zeros z k div L _ (wfBytes_of_zero z hz) hzne h1
  · intro s ds p n hw hne hp hbits hlen hsum h64
    obtain ⟨st, _, h2, h3, _, h5, _⟩ := decode_stream s p n ds hw hne hp hbits hlen hsum h64
    exact ⟨st.res, h2, golomb_decompress_append_zeros s k p n st.res hw hne h2, h3, h5⟩
  · intro t p n st hwt hrun
    obtain ⟨h1, h2, _, h4⟩ := golomb_decompress_run_bits t p n st hwt hrun
    exact ⟨h2, golomb_decompress_append_zeros t k p n st.res hwt h1 h2, h4⟩

/-- Witness of C16 on the all-zero payload `[0, 0]` with `div = 70`, and, for
the general part, on the payload `[0x11, 0x08]` (the codewords of the gaps
`[0, 3, 6]` with `div = 0` and four padding bits), with three zero bytes
appended. -/
theorem C16_exhausted_stream_witness :
    (∀ b ∈ [0, 0], b = 0) ∧ [0, 0] ≠ ([] : List Nat) ∧
    golomb_decompress [0, 0] 70 2 = .ok (List.replicate 2 0) ∧
    golomb_decompress ([0, 0] ++ List.replicate 3 0) 70 2 = .ok (List.replicate 2 0) ∧
    (∃ res, golomb_decompress [17, 8] 0 2 = .ok res ∧
      golomb_decompress ([17, 8] ++ List.replicate 3 0) 0 2 = .ok res ∧ res.length = 2 ∧
      ∀ j, bitAt res j = decide (j ∈ sumsFrom 0 [0, 3, 6])) :=
  have hb : ∀ j, bitAt [17, 8] j = nthBit (codewords 0 [0, 3, 6]) j := fun j => by
    by_cases hj : j < 16
    · interval_cases j <;> rfl
    · have hl : (codewords 0 [0, 3, 6]).length = 12 := by decide
      rw [bitAt_eq_false_of_ge _ _ (by simpa using hj), nthBit_of_ge _ _ (by omega)]
  have h := C16_exhausted_stream [0, 0] 70 2 3 (by decide) (by decide)
  ⟨by decide, by decide, h.1, h.2.1,
    h.2.2.1 [17, 8] [0, 3, 6] 0 2 (by decide) (by decide) (by decide) hb (by decide)
      (by decide) (by decide)⟩

/-- C17 (termination): for every payload of bytes, every `div` and every length,
the decode loop of `golomb_decompress` run with `8 * len(payload) + 1` units of
fuel never runs out of fuel (it stops at end of stream or at undefined
behaviour), and a run that returns has made at most `8 * len(payload)`
iterations that found a terminator; each iteration from a cursor inside the
payload either is undefined behaviour, or stops at end of stream, or moves the
cursor strictly forward and leaves it inside the payload. `golomb_compress` on
every bitmap of bytes never runs out of fuel either (it returns or is undefined
behaviour at the mask of line 74), the inner loops being bounded because
clearing the lowest set bit of a non-zero byte lowers its number of set bits by
one. -/
theorem C17_termination (estimate : List Nat → Nat) (payload B : List Nat) (div L : Nat)
    (div_param : Int) (st : DecState) (hwp : wfBytes payload) (hwB : wfBytes B)
    (hoff : st.offset < 8) (hcur : 8 * st.it + st.offset ≤ 8 * payload.length) :
    golomb_decompress_run payload div L ≠ .error .outOfFuel ∧
    (∀ r, golomb_decompress_run payload div L = .ok (some r) →
      r.trace.length ≤ 8 * payload.length) ∧
    (decodeStep payload div st = .error .undefinedBehaviour ∨
      decodeStep payload div st = .ok none ∨
      ∃ st', decodeStep payload div st = .ok (some st') ∧ st'.offset < 8 ∧
        8 * st'.it + st'.offset ≤ 8 * payload.length ∧
        8 * st.it + st.offset < 8 * st'.it + st'.offset) ∧
    (golomb_compress estimate B div_param = .error .undefinedBehaviour ∨
      ∃ c, golomb_compress estimate B div_param = .ok c) ∧
    (∀ b, b < 256 → b ≠ 0 →
      (byteBits (clearLowest b)).length + 1 = (byteBits b).length ∧ clearLowest b < 256) := by
  obtain ⟨h1, h2⟩ := golomb_decompress_run_terminates payload div L hwp
  refine ⟨h1, h2, ?_, golomb_compress_terminates estimate B div_param hwB,
    fun b hb h0 => popcount_clearLowest b hb h0⟩
  rcases decodeStep_progress payload div st hwp hoff (by omega) with h | h | ⟨st', a, b, c, d, _⟩
  · exact Or.inl h
  · exact Or.inr (Or.inl h)
  · exact Or.inr (Or.inr ⟨st', a, b, c, d⟩)

/-- Witness of C17 on the payload `[0x11, 0x08]` with `div = 0`, from the cursor
at bit 1, and the bitmap `[0x09, 0x02]`. -/
theorem C17_termination_witness :
    wfBytes [17, 8] ∧ wfBytes [9, 2] ∧ (1 : Nat) < 8 ∧ 8 * 0 + 1 ≤ 8 * [17, 8].length ∧
    golomb_decompress_run [17, 8] 0 2 ≠ .error .outOfFuel ∧
    (∀ r, golomb_decompress_run [17, 8] 0 2 = .ok (some r) →
      r.trace.length ≤ 8 * [17, 8].length) ∧
    (decodeStep [17, 8] 0 ⟨0, 1, 0, [1, 0], [(0, 1)]⟩ = .error .undefinedBehaviour ∨
      decodeStep [17, 8] 0 ⟨0, 1, 0, [1, 0], [(0, 1)]⟩ = .ok none ∨
      ∃ st', decodeStep [17, 8] 0 ⟨0, 1, 0, [1, 0], [(0, 1)]⟩ = .ok (some st') ∧
        st'.offset < 8 ∧
        8 * st'.it + st'.offset ≤ 8 * [17, 8].length ∧
        8 * 0 + 1 < 8 * st'.it + st'.offset) ∧
    (golomb_compress (fun _ => 0) [9, 2] 0 = .error .undefinedBehaviour ∨
      ∃ c, golomb_compress (fun _ => 0) [9, 2] 0 = .ok c) ∧
    (∀ b, b < 256 → b ≠ 0 →
      (byteBits (clearLowest b)).length + 1 = (byteBits b).length ∧ clearLowest b < 256) :=
  ⟨by decide, by decide, by decide, by decide,
    C17_termination (fun _ => 0) [17, 8] [9, 2] 0 2 0 ⟨0, 1, 0, [1, 0], [(0, 1)]⟩ (by decide)
      (by decide) (by decide) (by decide)⟩

/-- C19 (encoder in bounds): in every state of the encoding pass that holds the
bits written so far, for every `div`, every quotient and every remainder: the
terminator byte `unary_end / 8` is below the size set by the preceding resize,
`ceil((res_idx + len) / 8)`, and the writes of the loop body (the terminator and
every remainder byte `i`), for the remainder `r'` as for any other, all fall
inside the payload, so the body returns with the payload at that size; when the
remainder is below `2^div` the body keeps every stream bit below `res_idx` and
leaves no set bit at or beyond stream position `res_idx + len`. The loop body
of the source is the split of lines 73-74 followed by these writes; the split is
either undefined at the `int` mask (only for `div >= 31`) or yields the
quotient `delta >> div` and a remainder below `2^div`; and `golomb_compress` on
a bitmap of bytes is undefined exactly when the bitmap has a set bit and
`div >= 31`, an out-of-range index never being the cause. -/
theorem C19_encoder_in_bounds (div : Nat) (st : EncState)
    (curr_idx quotient remainder r' : Nat) (bits : List Bool)
    (hr : remainder < 2 ^ div) (hinv : EncInv bits st) :
    (st.res_idx + quotient) / 8 < DIV_CEIL (st.res_idx + (quotient + 1 + div)) 8 ∧
    (∃ st', writeGap div st curr_idx quotient r' = .ok st' ∧
      st'.compressed.length = DIV_CEIL (st.res_idx + (quotient + 1 + div)) 8 ∧
      st'.res_idx = st.res_idx + (quotient + 1 + div)) ∧
    (∃ st', writeGap div st curr_idx quotient remainder = .ok st' ∧
      st'.res_idx = st.res_idx + (quotient + 1 + div) ∧
      st'.compressed.length = DIV_CEIL (st.res_idx + (quotient + 1 + div)) 8 ∧
      (∀ k, k < st.res_idx → bitAt st'.compressed k = bitAt st.compressed k) ∧
      (∀ k, st.res_idx + (quotient + 1 + div) ≤ k → bitAt st'.compressed k = false)) ∧
    (encodeBit div st curr_idx =
      match splitGap div (curr_idx - st.prev_idx) with
      | .error e => .error e
      | .ok (quotient, remainder) => writeGap div st curr_idx quotient remainder) ∧
    ((31 ≤ div ∧ splitGap div (curr_idx - st.prev_idx) = .error .undefinedBehaviour) ∨
      ∃ r, r < 2 ^ div ∧
        splitGap div (curr_idx - st.prev_idx) = .ok ((curr_idx - st.prev_idx) >>> div, r)) ∧
    (∀ (estimate : List Nat → Nat) (B : List Nat) (div_param : Int), wfBytes B →
      (golomb_compress estimate B div_param = .error .undefinedBehaviour ↔
        (setBits B ≠ [] ∧ 31 ≤ chosenDiv estimate B div_param))) := by
  obtain ⟨h1, st', h2, h3, h4, _⟩ := writeGap_total div st curr_idx quotient r'
  refine ⟨h1, ⟨st', h2, h3, h4⟩, writeGap_clean div quotient remainder hr bits st curr_idx hinv,
    encodeBit_eq_split div st curr_idx, ?_,
    fun estimate B div_param hw => golomb_compress_ub_iff estimate B div_param hw⟩
  by_cases h31 : 31 ≤ div
  · exact Or.inl ⟨h31, by simp only [splitGap, h31, if_true]⟩
  · right
    refine ⟨(curr_idx - st.prev_idx) % 2 ^ div, Nat.mod_lt _ (by positivity), ?_⟩
    simp only [splitGap, h31, if_false, and_mask_eq_mod]

/-- Witness of C19 in the initial state of the encoding pass, at the position 8
with `div = 40`, the quotient 2, the remainder 5, and `2^64 - 1` as the other
remainder. -/
theorem C19_encoder_in_bounds_witness :
    5 < 2 ^ 40 ∧ EncInv [] ⟨[], 0, 0⟩ ∧
    (0 + 2) / 8 < DIV_CEIL (0 + (2 + 1 + 40)) 8 ∧
    (∃ st', writeGap 40 ⟨[], 0, 0⟩ 8 2 (2 ^ 64 - 1) = .ok st' ∧
      st'.compressed.length = DIV_CEIL (0 + (2 + 1 + 40)) 8 ∧
      st'.res_idx = 0 + (2 + 1 + 40)) ∧
    (∃ st', writeGap 40 ⟨[], 0, 0⟩ 8 2 5 = .ok st' ∧
      st'.res_idx = 0 + (2 + 1 + 40) ∧
      st'.compressed.length = DIV_CEIL (0 + (2 + 1 + 40)) 8 ∧
      (∀ k, k < 0 → bitAt st'.compressed k = bitAt ([] : List Nat) k) ∧
      (∀ k, 0 + (2 + 1 + 40) ≤ k → bitAt st'.compressed k = false)) :=
  have h := C19_encoder_in_bounds 40 ⟨[], 0, 0⟩ 8 2 5 (2 ^ 64 - 1) [] (by decide) encInv_init
  ⟨by decide, encInv_init, h.1, h.2.1, h.2.2.1⟩

/-- C20 (length not encoded): for every bitmap `B` of bytes, every `k` and every
`div_param`, `golomb_compress` on `B` followed by `k` zero bytes gives the same
result (the same `div` and the same payload, or undefined behaviour in both
cases) as on `B`; more generally every bitmap of bytes `B2` with the same set
bits as `B` gives the same result. -/
theorem C20_length_not_encoded (estimate : List Nat → Nat) (B B2 : List Nat) (k : Nat)
    (div_param : Int) (hw : wfBytes B) (hw2 : wfBytes B2)
    (hset : ∀ j, bitAt B2 j = bitAt B j) :
    golomb_compress estimate (B ++ List.replicate k 0) div_param =
      golomb_compress estimate B div_param ∧
    setBits (B ++ List.replicate k 0) = setBits B ∧
    golomb_compress estimate B2 div_param = golomb_compress estimate B div_param := by
  refine ⟨?_, setBits_append_zeros B k, ?_⟩
  · exact golomb_compress_congr estimate _ _ div_param (wfBytes_append_zeros B k hw) hw
      (setBits_append_zeros B k)
  · exact golomb_compress_congr estimate _ _ div_param hw2 hw (setBits_eq_of_bitAt_eq B2 B hset)

/-- Witness of C20 on the bitmap `[0x09, 0x02]` with three zero bytes appended,
and on `[0x09, 0x02, 0x00]`, with the override `2`. -/
theorem C20_length_not_encoded_witness :
    wfBytes [9, 2] ∧ wfBytes [9, 2, 0] ∧ (∀ j, bitAt [9, 2, 0] j = bitAt [9, 2] j) ∧
    golomb_compress (fun _ => 0) [9, 2] 2 = .ok ⟨2, [185, 2]⟩ ∧
    golomb_compress (fun _ => 0) ([9, 2] ++ List.replicate 3 0) 2 =
      golomb_compress (fun _ => 0) [9, 2] 2 ∧
    setBits ([9, 2] ++ List.replicate 3 0) = setBits [9, 2] ∧
    golomb_compress (fun _ => 0) [9, 2, 0] 2 = golomb_compress (fun _ => 0) [9, 2] 2 :=
  have hb : ∀ j, bitAt [9, 2, 0] j = bitAt [9, 2] j := fun j => by
    by_cases hj : j < 24
    · interval_cases j <;> rfl
    · rw [bitAt_eq_false_of_ge _ _ (by simpa using hj),
        bitAt_eq_false_of_ge _ _ (by simp; omega)]
  ⟨by decide, by decide, hb, by decide,
    C20_length_not_encoded (fun _ => 0) [9, 2] [9, 2, 0] 3 2 (by decide) (by decide) hb⟩

end private_set_intersection
